import Mathlib

/-
  Shallow embedding of the basic-block / CFG subsystem of libjit
  (src/jit/jit-block.c), together with theorems settling the claims
  about it.

  Modelling conventions:
  * blocks live in an association list keyed by a numeric block id;
    the intrusive doubly-linked live list is modelled as the list of
    block ids in list order (entry first, exit last);
  * CFG edges live in a pool modelled as an association list keyed by
    a numeric edge id; a block stores edge ids in its succs and preds
    vectors, mirroring the pointer arrays of the source;
  * machine labels (jit_label_t) are Nat; the jit_label_undefined
    sentinel is modelled as Option Nat with none for undefined;
  * allocation failure (JIT_RESULT_OUT_OF_MEMORY) is not modelled:
    the model allocator always succeeds;
  * opcodes: the classification ranges of build_edges come from
    jit-opcode.h, which is not part of this repository slice, so the
    opcode classes are modelled from the spec (section 6 opcode
    contract) as an inductive type, one constructor per class that
    build_edges distinguishes.
-/

namespace LibjitBlock

/-- Modelled from the spec: the opcode classes that build_edges
distinguishes (section 6 of the spec); the numeric opcode ranges live in
jit-opcode.h which is outside this repository slice.  One constructor per
class: nop and markOffset are the instructions ignored by the empty-block
test, br is the unconditional branch, brCond stands for the whole
conditional-branch range, ret for the RETURN..RETURN_SMALL_STRUCT range,
throwOp and rethrowOp for THROW and RETHROW, callFinally and callFilter
for the exception-region transfers, call for the CALL..CALL_EXTERNAL_TAIL
range, jumpTable for JUMP_TABLE, and other for every remaining opcode. -/
inductive Opcode where
  | nop
  | markOffset
  | br
  | brCond
  | ret
  | throwOp
  | rethrowOp
  | callFinally
  | callFilter
  | call
  | jumpTable
  | other
deriving DecidableEq

/-- An instruction: its opcode, the destination label read through
insn->dest by branch-like opcodes, and the jump-table targets read
through insn->value1 / insn->value2 by JUMP_TABLE. -/
structure Insn where
  opcode : Opcode
  dest : Nat := 0
  jumpLabels : List Nat := []
deriving DecidableEq

/-- Edge flags, mirroring _JIT_EDGE_FALLTHRU, _JIT_EDGE_BRANCH,
_JIT_EDGE_RETURN and _JIT_EDGE_EXCEPT. -/
inductive EdgeFlag where
  | fallthru
  | branch
  | ret
  | exc
deriving DecidableEq

/-- A CFG edge (struct _jit_edge): source block id, destination block id
and flags. -/
structure Edge where
  src : Nat
  dst : Nat
  flags : EdgeFlag
deriving DecidableEq

/-- One entry of the label-info array (_jit_label_info_t): the block the
label is bound to (none models a NULL block pointer) and the alias link
to the next label bound to the same block (none models
jit_label_undefined; the zero bit pattern written by jit_memzero is only
ever read after record_label overwrites it, so it is modelled as the
undefined sentinel). -/
structure LabelEntry where
  block : Option Nat := none
  aliasL : Option Nat := none
deriving DecidableEq

/-- A basic block (struct _jit_block): head of its label alias chain,
instruction vector, successor and predecessor edge-id vectors, the
ends_in_dead and visited flags. -/
structure Block where
  label : Option Nat := none
  insns : List Insn := []
  succs : List Nat := []
  preds : List Nat := []
  endsInDead : Bool := false
  visited : Bool := false
deriving DecidableEq

/-- The function builder state that jit-block.c manipulates: the block
store, the live list (entry first, exit last), the deleted-blocks list,
the edge pool with its fresh-id counter, the label-info array (its length
is max_label_info), the catcher label, and the computed post-order
(block_order). -/
structure CFG where
  blocks : List (Nat × Block)
  live : List Nat
  entryId : Nat
  exitId : Nat
  deletedBlocks : List Nat := []
  edges : List (Nat × Edge) := []
  nextEdge : Nat := 0
  labelInfo : List LabelEntry := []
  catcherLabel : Option Nat := none
  blockOrder : List Nat := []
deriving DecidableEq

/-- Update every association-list entry with the given key. -/
def updA {α : Type} (l : List (Nat × α)) (i : Nat) (f : α → α) :
    List (Nat × α) :=
  l.map (fun p => if p.1 = i then (p.1, f p.2) else p)

def getBlock (c : CFG) (i : Nat) : Option Block :=
  c.blocks.lookup i

def modifyBlock (c : CFG) (i : Nat) (f : Block → Block) : CFG :=
  { c with blocks := updA c.blocks i f }

def getEdge (c : CFG) (e : Nat) : Option Edge :=
  c.edges.lookup e

def modifyEdge (c : CFG) (e : Nat) (f : Edge → Edge) : CFG :=
  { c with edges := updA c.edges e f }

/-- Return an edge to the pool (jit_memory_pool_dealloc). -/
def removeEdge (c : CFG) (e : Nat) : CFG :=
  { c with edges := c.edges.filter (fun p => p.1 != e) }

/-- The list successor of a block (block->next within the live list);
none models the NULL next pointer of the exit block or a detached
block. -/
def listNextFrom : List Nat → Nat → Option Nat
  | [], _ => none
  | a :: rest, i => if a = i then rest.head? else listNextFrom rest i

def listNext (c : CFG) (i : Nat) : Option Nat :=
  listNextFrom c.live i

/-- _jit_block_get_last: the last instruction of a block, or none. -/
def getLastInsn (b : Block) : Option Insn :=
  b.insns.getLast?

/-- jit_block_from_label: the block bound to a label, none when the
label is past max_label_info or its entry has a NULL block. -/
def blockFromLabel (c : CFG) (l : Nat) : Option Nat :=
  (c.labelInfo.get? l).bind (fun e => e.block)

/-- The per-instruction test of is_empty_block: NOP, MARK_OFFSET or
BR. -/
def opcEmpty (op : Opcode) : Bool :=
  op == Opcode.nop || op == Opcode.markOffset || op == Opcode.br

/-- is_empty_block: true when every instruction is NOP, MARK_OFFSET or
BR. -/
def isEmptyBlock (b : Block) : Bool :=
  b.insns.all (fun insn => opcEmpty insn.opcode)

/-- detach_edge_src: remove the edge from its source block's succs
vector (first occurrence, shift-and-shrink). -/
def detachEdgeSrc (c : CFG) (e : Nat) : CFG :=
  match getEdge c e with
  | none => c
  | some ed => modifyBlock c ed.src (fun b => { b with succs := b.succs.erase e })

/-- detach_edge_dst: remove the edge from its destination block's preds
vector (first occurrence, shift-and-shrink). -/
def detachEdgeDst (c : CFG) (e : Nat) : CFG :=
  match getEdge c e with
  | none => c
  | some ed => modifyBlock c ed.dst (fun b => { b with preds := b.preds.erase e })

/-- attach_edge_dst: grow the new destination block's preds vector by
the edge and rewrite the edge's dst field.  It does not detach the edge
from the old destination. -/
def attachEdgeDst (c : CFG) (e : Nat) (bl : Nat) : CFG :=
  let c1 := modifyBlock c bl (fun b => { b with preds := b.preds ++ [e] })
  modifyEdge c1 e (fun ed => { ed with dst := bl })

/-- delete_edge: detach the edge from both end blocks and return it to
the pool. -/
def deleteEdge (c : CFG) (e : Nat) : CFG :=
  removeEdge (detachEdgeDst (detachEdgeSrc c e) e) e

/-- _jit_block_detach on a single block: unlink it from the live list. -/
def detachBlock (c : CFG) (i : Nat) : CFG :=
  { c with live := c.live.erase i }

/-- delete_block: clear the block's succs, preds and insns, then run

    block->next = block->func->builder->deleted_blocks;
    block->func->builder->deleted_blocks = block->next;

The second assignment reads back the value the first one just stored,
i.e. the old list head, so the deleted-blocks list is left unchanged and
the block never enters it. -/
def deleteBlock (c : CFG) (i : Nat) : CFG :=
  let c1 := modifyBlock c i
    (fun b => { b with succs := [], preds := [], insns := [] })
  { c1 with deletedBlocks := c1.deletedBlocks }

/-- eliminate_block: detach the block from the live list, pop each
incident edge from the opposite end block and return it to the pool,
then delete_block.  The succs and preds vectors of the block itself are
snapshots: the detach operations in the loops never modify them (they
touch the opposite end block only), matching the in-place iteration of
the source. -/
def eliminateBlock (c : CFG) (i : Nat) : CFG :=
  match getBlock c i with
  | none => c
  | some blk =>
    let c1 := detachBlock c i
    let c2 := blk.succs.foldl (fun c e => removeEdge (detachEdgeDst c e) e) c1
    let c3 := blk.preds.foldl (fun c e => removeEdge (detachEdgeSrc c e) e) c2
    deleteBlock c3 i

/-- _jit_block_free walks the live list and then the deleted-blocks list
destroying every block: the set of block ids whose storage the builder
teardown releases. -/
def freedBlocks (c : CFG) : List Nat :=
  c.live ++ c.deletedBlocks

/-- The growth loop of _jit_block_record_label:

    while(num <= label) { num *= 2; }

The source only ever runs it with num at least 64; the positivity guard
makes the recursion well founded and is redundant at every call site. -/
def growLoop (num L : Nat) : Nat :=
  if h : 0 < num ∧ num ≤ L then growLoop (2 * num) L else num
termination_by L + 1 - num
decreasing_by omega

/-- _jit_block_record_label: grow the label-info array when the label is
past max_label_info (to 64 if the current size is below 64, then double
until it exceeds the label), zero-initializing the new entries, then
prepend the label to the block's alias chain:

    info[label].block = block; info[label].alias = block->label;
    block->label = label. -/
def recordLabel (c : CFG) (bl : Nat) (L : Nat) : CFG :=
  let c1 :=
    if L ≥ c.labelInfo.length then
      let num0 := c.labelInfo.length
      let num1 := if num0 < 64 then 64 else num0
      let num := growLoop num1 L
      { c with labelInfo :=
          c.labelInfo ++ List.replicate (num - c.labelInfo.length) {} }
    else c
  match getBlock c1 bl with
  | none => c1
  | some blk =>
    let entry : LabelEntry := { block := some bl, aliasL := blk.label }
    let c2 := { c1 with labelInfo := c1.labelInfo.set L entry }
    modifyBlock c2 bl (fun b => { b with label := some L })

/-- merge_labels: walk the alias chain starting at the given label,
re-pointing each entry to the destination block and splicing it onto the
destination chain head.  The fuel bounds the walk; the source loops
forever on a cyclic alias chain, which the label invariant rules out,
and every theorem below supplies enough fuel for its chain. -/
def mergeLabels : Nat → CFG → Nat → Option Nat → CFG
  | 0, c, _, _ => c
  | fuel + 1, c, bl, label =>
    match label with
    | none => c
    | some L =>
      match getBlock c bl, c.labelInfo.get? L with
      | some blk, some e =>
        let nextL := e.aliasL
        let entry : LabelEntry := { block := some bl, aliasL := blk.label }
        let c1 := { c with labelInfo := c.labelInfo.set L entry }
        let c2 := modifyBlock c1 bl (fun b => { b with label := some L })
        mergeLabels fuel c2 bl nextL
      | _, _ => c

/-- The predecessor loop of merge_empty.  It re-reads block->preds and
block->num_preds from the current state each iteration, exactly like the
source; the loop variables are the fallthrough edge found so far, the
changed flag and pred_edge (the last edge read).  The fuel covers one
step per iteration plus the final bounds check; when the successor block
is distinct from the merged block the preds vector never changes during
the loop, so initial length + 1 is always enough. -/
def mergeLoop : Nat → CFG → Nat → Nat → Nat → Option Nat → Bool →
    Option Nat → Option (CFG × Option Nat × Bool × Option Nat)
  | 0, _, _, _, _, _, _, _ => none
  | fuel + 1, c, i, s, idx, ft, ch, _pe =>
    match getBlock c i with
    | none => none
    | some blk =>
      if hidx : idx < blk.preds.length then
        let eid := blk.preds.get ⟨idx, hidx⟩
        match getEdge c eid with
        | none => none
        | some e =>
          if e.flags = EdgeFlag.fallthru then
            mergeLoop fuel c i s (idx + 1) (some eid) ch (some eid)
          else
            mergeLoop fuel (attachEdgeDst c eid s) i s (idx + 1) ft true
              (some eid)
      else
        some (c, ft, ch, _pe)

/-- merge_empty: merge an empty block with its (single) successor.
Mirrors the source control flow, including the slip the design notes
flag: when both the incoming and the outgoing edges are fall-through,
the code retargets pred_edge (the last predecessor edge read by the
loop) instead of fallthru_edge. -/
def mergeEmpty (c : CFG) (i : Nat) (changed : Bool) :
    Option (CFG × Bool) :=
  match getBlock c i with
  | none => none
  | some blk =>
    match blk.succs.head? with
    | none => none
    | some succEid =>
      match getEdge c succEid with
      | none => none
      | some succE =>
        let s := succE.dst
        let c1 := mergeLabels (c.labelInfo.length + 1) c s blk.label
        match mergeLoop (blk.preds.length + 1) c1 i s 0 none changed none with
        | none => none
        | some (c2, ft, ch, pe) =>
          match ft with
          | some ftEid =>
            match getEdge c2 succEid with
            | none => none
            | some sE =>
              if sE.flags = EdgeFlag.fallthru then
                match pe with
                | none => none
                | some peEid =>
                  -- source bug: attach_edge_dst(pred_edge, succ_block)
                  -- rather than fallthru_edge
                  let c3 := attachEdgeDst c2 peEid s
                  let c4 := removeEdge (detachEdgeDst c3 succEid) succEid
                  let c5 := detachBlock c4 i
                  some (deleteBlock c5 i, true)
              else
                match getBlock c2 i with
                | none => none
                | some blk2 =>
                  if blk2.preds.length > 1 then
                    some (modifyBlock c2 i
                      (fun b => { b with preds := [ftEid] }), ch)
                  else
                    some (c2, ch)
          | none =>
            let c3 := removeEdge (detachEdgeDst c2 succEid) succEid
            let c4 := detachBlock c3 i
            some (deleteBlock c4 i, ch)

/-- Errors the model CFG builder can surface.  undefinedLabel mirrors
JIT_RESULT_UNDEFINED_LABEL; malformed marks accesses that are undefined
behavior in the C source (a missing block or a non-exit block without a
list successor) and never occurs on well-formed states. -/
inductive BuildErr where
  | undefinedLabel
  | malformed
deriving DecidableEq

/-- The JUMP_TABLE loop of build_edges: one branch edge per table
entry, bailing out on the first unbound label. -/
def jumpTableEdges (c : CFG) (jl : List Nat) :
    Except BuildErr (List (Nat × EdgeFlag)) :=
  jl.foldr (fun l acc =>
    match blockFromLabel c l, acc with
    | some d, Except.ok rest => Except.ok ((d, EdgeFlag.branch) :: rest)
    | none, _ => Except.error BuildErr.undefinedLabel
    | _, Except.error e => Except.error e) (Except.ok [])

/-- The opcode chain of build_edges, applied to the (possibly absent)
last instruction of a block.  The dest and jumpLabels defaults are never
observed: they are only read under opcodes that imply the instruction
exists. -/
def classifyAux (c : CFG) (insn? : Option Insn) :
    Except BuildErr (List (Nat × EdgeFlag)) :=
  let opcode := (insn?.map (fun insn => insn.opcode)).getD Opcode.nop
  let dest := (insn?.map (fun insn => insn.dest)).getD 0
  let jl := (insn?.map (fun insn => insn.jumpLabels)).getD []
  match opcode with
  | Opcode.ret => Except.ok [(c.exitId, EdgeFlag.ret)]
  | Opcode.br =>
    match blockFromLabel c dest with
    | some d => Except.ok [(d, EdgeFlag.branch)]
    | none => Except.error BuildErr.undefinedLabel
  | Opcode.brCond =>
    match blockFromLabel c dest with
    | some d => Except.ok [(d, EdgeFlag.branch)]
    | none => Except.error BuildErr.undefinedLabel
  | Opcode.throwOp | Opcode.rethrowOp =>
    match c.catcherLabel.bind (blockFromLabel c) with
    | some d => Except.ok [(d, EdgeFlag.exc)]
    | none => Except.ok [(c.exitId, EdgeFlag.exc)]
  | Opcode.callFinally | Opcode.callFilter =>
    match blockFromLabel c dest with
    | some d => Except.ok [(d, EdgeFlag.exc)]
    | none => Except.error BuildErr.undefinedLabel
  | Opcode.call =>
    match c.catcherLabel.bind (blockFromLabel c) with
    | some d => Except.ok [(d, EdgeFlag.exc)]
    | none => Except.ok [(c.exitId, EdgeFlag.exc)]
  | Opcode.jumpTable => jumpTableEdges c jl
  | Opcode.nop | Opcode.markOffset | Opcode.other => Except.ok []

/-- The terminator classification of build_edges: the explicit outgoing
edges (destination block, flags) of a block. -/
def classifyTerm (c : CFG) (i : Nat) : Except BuildErr (List (Nat × EdgeFlag)) :=
  match getBlock c i with
  | none => Except.error BuildErr.malformed
  | some blk => classifyAux c (getLastInsn blk)

/-- The full edge descriptor list of a block in creation order: the
explicit edges of the terminator followed by the fall-through edge to
the list successor unless ends_in_dead is set. -/
def blockEdgeList (c : CFG) (i : Nat) : Except BuildErr (List (Nat × EdgeFlag)) :=
  match classifyTerm c i, getBlock c i with
  | Except.error e, _ => Except.error e
  | _, none => Except.error BuildErr.malformed
  | Except.ok es, some blk =>
    if blk.endsInDead then Except.ok es
    else
      match listNext c i with
      | some n => Except.ok (es ++ [(n, EdgeFlag.fallthru)])
      | none => Except.error BuildErr.malformed

/-- create_edge in the create pass: allocate a fresh edge and append it
to the source succs and destination preds vectors. -/
def addEdge (c : CFG) (src dst : Nat) (flags : EdgeFlag) : CFG :=
  let eid := c.nextEdge
  let c1 := { c with edges := c.edges ++ [(eid, ⟨src, dst, flags⟩)],
                     nextEdge := eid + 1 }
  let c2 := modifyBlock c1 src (fun b => { b with succs := b.succs ++ [eid] })
  modifyBlock c2 dst (fun b => { b with preds := b.preds ++ [eid] })

/-- alloc_edges gives every block a fresh exactly-sized vector; the
model clears all succs and preds vectors and starts a fresh pool. -/
def clearEdges (c : CFG) : CFG :=
  let bs := c.blocks.map (fun p => (p.1, { p.2 with succs := [], preds := [] }))
  { c with edges := [], nextEdge := 0, blocks := bs }

/-- _jit_block_build_cfg: the count pass, alloc_edges and the create
pass.  The count pass performs the same classification as the create
pass and detects the same first error, so the model runs the
classification once per block; alloc_edges is the clearEdges reset. -/
def buildCFG (c : CFG) : Except BuildErr CFG :=
  let c0 := clearEdges c
  (c0.live.takeWhile (fun i => i ≠ c0.exitId)).foldlM (fun c i =>
    match blockEdgeList c i with
    | Except.error e => Except.error e
    | Except.ok es =>
      Except.ok (es.foldl (fun c p => addEdge c i p.1 p.2) c)) c0

/-- Mark a block visited. -/
def setVisited (c : CFG) (i : Nat) : CFG :=
  modifyBlock c i (fun b => { b with visited := true })

/-- The iterative DFS loop of _jit_block_compute_postorder, over an
explicit stack of (block, child index) frames.  Each recursive call is
one iteration of the do-while loop: pop-and-emit when the index reached
num_succs, skip a visited successor by bumping the index, or mark and
push an unvisited successor.  none signals fuel exhaustion or an access
that is undefined behavior in the source (a dangling edge id or block
id). -/
def poLoop : Nat → CFG → List (Nat × Nat) → List Nat →
    Option (CFG × List Nat)
  | 0, _, _, _ => none
  | _ + 1, c, [], acc => some (c, acc)
  | fuel + 1, c, (bl, idx) :: rest, acc =>
    match getBlock c bl with
    | none => none
    | some blk =>
      if idx = blk.succs.length then
        poLoop fuel c rest (acc ++ [bl])
      else
        match blk.succs.get? idx with
        | none => none
        | some eid =>
          match getEdge c eid with
          | none => none
          | some e =>
            match getBlock c e.dst with
            | none => none
            | some dblk =>
              if dblk.visited then
                poLoop fuel c ((bl, idx + 1) :: rest) acc
              else
                poLoop fuel (setVisited c e.dst) ((e.dst, 0) :: (bl, idx) :: rest) acc

/-- Fuel that always suffices for the DFS loop: the loop measure is at
most the sum over all blocks of num_succs + 2 plus the initial frame
contribution, so twice that sum plus one bounds the number of
iterations. -/
def poFuelOf (c : CFG) : Nat :=
  2 * (c.blocks.map (fun p => p.2.succs.length + 2)).sum + 1

/-- _jit_block_compute_postorder: mark the entry block visited, run the
DFS from it, store the emitted order in block_order.  The malloc of the
two work arrays and the final shrink are not modelled (allocation always
succeeds). -/
def computePostorder (c : CFG) : Option CFG :=
  match getBlock c c.entryId with
  | none => none
  | some _ =>
    let c1 := setVisited c c.entryId
    match poLoop (poFuelOf c1) c1 [(c.entryId, 0)] [] with
    | none => none
    | some (c2, order) => some { c2 with blockOrder := order }

/-- eliminate_unreachable: walk the live list from entry up to (and
excluding) exit; clear the visited flag of visited blocks and eliminate
the others.  The walk is over the initial list: the source saves
block->next before possibly eliminating the block, and eliminating a
block never unlinks any other. -/
def eliminateUnreachable (c : CFG) : CFG :=
  (c.live.takeWhile (fun i => i ≠ c.exitId)).foldl (fun c i =>
    match getBlock c i with
    | none => c
    | some blk =>
      if blk.visited then modifyBlock c i (fun b => { b with visited := false })
      else eliminateBlock c i) c

/-- clear_visited: clear the visited flag of every live block. -/
def clearVisited (c : CFG) : CFG :=
  c.live.foldl (fun c i => modifyBlock c i (fun b => { b with visited := false })) c

/-- Overwrite the opcode of the last instruction of a block (the
insn->opcode writes of the clean pass; the callers guarantee the
instruction exists). -/
def setLastOpcode (c : CFG) (i : Nat) (op : Opcode) : CFG :=
  modifyBlock c i (fun b =>
    match b.insns.getLast? with
    | none => b
    | some last => { b with insns := b.insns.dropLast ++ [{ last with opcode := op }] })

/-- The phase-2 body of _jit_block_clean_cfg for one block of the
post-order interior: the useless-branch rules guarded by
succs[0]->flags being BRANCH, then the empty-block merge check on the
possibly rewritten block.  none marks accesses that are undefined
behavior in the source. -/
def phase2Block (c : CFG) (i : Nat) (changed : Bool) :
    Option (CFG × Bool) :=
  match getBlock c i with
  | none => none
  | some blk0 =>
    if blk0.succs.length = 0 then some (c, changed)
    else
      match blk0.succs.head? with
      | none => none
      | some e0id =>
        match getEdge c e0id with
        | none => none
        | some e0 =>
          let step1 : Option (CFG × Bool) :=
            if e0.flags = EdgeFlag.branch then
              if some e0.dst = listNext c i then
                -- replace useless branch with NOP
                match getLastInsn blk0 with
                | none => none
                | some _ =>
                  let c1 := setLastOpcode c i Opcode.nop
                  if blk0.succs.length = 1 then
                    let c2 := modifyBlock c1 i (fun b => { b with endsInDead := false })
                    some (modifyEdge c2 e0id
                      (fun e => { e with flags := EdgeFlag.fallthru }), true)
                  else
                    some (deleteEdge c1 e0id, true)
              else
                match listNext c i with
                | none => some (c, changed)
                | some n =>
                  match getBlock c n with
                  | none => none
                  | some nblk =>
                    match nblk.succs.head? with
                    | none => some (c, changed)
                    | some neid =>
                      match getEdge c neid with
                      | none => none
                      | some ne =>
                        if blk0.succs.length = 2 ∧ nblk.succs.length = 1 ∧
                            ne.flags = EdgeFlag.branch ∧ e0.dst = ne.dst ∧
                            isEmptyBlock nblk then
                          -- replace conditional branch with unconditional
                          match getLastInsn blk0 with
                          | none => none
                          | some _ =>
                            let c1 := setLastOpcode c i Opcode.br
                            let c2 := modifyBlock c1 i
                              (fun b => { b with endsInDead := true })
                            match blk0.succs.get? 1 with
                            | none => none
                            | some e1id => some (deleteEdge c2 e1id, true)
                        else some (c, changed)
            else some (c, changed)
          match step1 with
          | none => none
          | some (c', ch') =>
            -- the merge check re-reads the possibly rewritten block
            match getBlock c' i with
            | none => none
            | some blk1 =>
              match blk1.succs.head? with
              | none => some (c', ch')
              | some se =>
                match getEdge c' se with
                | none => none
                | some sed =>
                  if blk1.succs.length = 1 ∧
                      (sed.flags = EdgeFlag.branch ∨ sed.flags = EdgeFlag.fallthru) then
                    if isEmptyBlock blk1 then mergeEmpty c' i ch'
                    else some (c', ch')
                  else some (c', ch')

/-- One phase-2 pass: iterate the interior of the post-order
(indices 1 through num_block_order - 2) with the changed flag. -/
def phase2Pass (c : CFG) : Option (CFG × Bool) :=
  ((c.blockOrder.drop 1).dropLast).foldlM
    (fun (acc : CFG × Bool) i => phase2Block acc.1 i acc.2) (c, false)

/-- The fixed-point loop of _jit_block_clean_cfg: run a pass; when it
changed anything, recompute the post-order, clear the visited flags and
repeat. -/
def cleanLoop : Nat → CFG → Option CFG
  | 0, _ => none
  | fuel + 1, c =>
    match phase2Pass c with
    | none => none
    | some (c1, changed) =>
      if changed then
        match computePostorder c1 with
        | none => none
        | some c2 => cleanLoop fuel (clearVisited c2)
      else some c1

/-- _jit_block_clean_cfg: compute the post-order, eliminate unreachable
blocks, then iterate phase 2 to a fixed point.  The fuel bounds the
number of phase-2 passes. -/
def cleanCFG (fuel : Nat) (c : CFG) : Option CFG :=
  match computePostorder c with
  | none => none
  | some c1 => cleanLoop fuel (eliminateUnreachable c1)

/-! Concrete states used to exercise the operations. -/

/-- A state for merge_empty in which the empty block 2 has an incoming
fall-through edge (edge 0, from block 0) listed before an incoming
branch edge (edge 1, from block 1), and a fall-through edge out
(edge 2, to block 3). -/
def exC1 : CFG :=
  { blocks :=
      [ (0, { insns := [{ opcode := Opcode.other }], succs := [0] }),
        (1, { insns := [{ opcode := Opcode.br, dest := 0 }],
              succs := [1], endsInDead := true }),
        (2, { succs := [2], preds := [0, 1] }),
        (3, { preds := [2] }) ],
    live := [0, 1, 2, 3],
    entryId := 0,
    exitId := 3,
    edges :=
      [ (0, { src := 0, dst := 2, flags := EdgeFlag.fallthru }),
        (1, { src := 1, dst := 2, flags := EdgeFlag.branch }),
        (2, { src := 2, dst := 3, flags := EdgeFlag.fallthru }) ],
    nextEdge := 3 }

/-- A three-block state whose middle block has no incident edges, for
exercising eliminate_block / delete_block. -/
def exC2 : CFG :=
  { blocks := [ (0, {}), (1, { insns := [{ opcode := Opcode.ret }] }), (2, {}) ],
    live := [0, 1, 2],
    entryId := 0,
    exitId := 2 }

/-- The claim C4 condition on a block, following the claim text: its
terminator is an unconditional branch, a conditional branch,
CALL_FINALLY, CALL_FILTER, or a JUMP_TABLE entry, naming a label with no
bound block. -/
def raisesUndefinedB (c : CFG) (i : Nat) : Bool :=
  match getBlock c i with
  | none => false
  | some blk =>
    let insn? := getLastInsn blk
    let opcode := (insn?.map (fun insn => insn.opcode)).getD Opcode.nop
    let dest := (insn?.map (fun insn => insn.dest)).getD 0
    let jl := (insn?.map (fun insn => insn.jumpLabels)).getD []
    match opcode with
    | Opcode.br | Opcode.brCond | Opcode.callFinally | Opcode.callFilter =>
      (blockFromLabel c dest).isNone
    | Opcode.jumpTable => jl.any (fun l => (blockFromLabel c l).isNone)
    | _ => false

/-- Spec-side comparator for C9: the least power of two that is at
least x. -/
def nextPow2Ge (x : Nat) : Nat :=
  2 ^ Nat.clog 2 x

/-- Scenario for C4: block 1 ends in an unconditional branch to an
unbound label, block 2 in a THROW with no catcher bound. -/
def exC4 : CFG :=
  { blocks :=
      [ (0, {}),
        (1, { insns := [{ opcode := Opcode.br, dest := 7 }],
              endsInDead := true }),
        (2, { insns := [{ opcode := Opcode.throwOp }], endsInDead := true }),
        (3, {}) ],
    live := [0, 1, 2, 3],
    entryId := 0,
    exitId := 3 }

/-- Scenario S1 of the spec, the C6 counterexample: block 1 ends in an
unconditional branch to its list successor, block 2 (label 0) returns. -/
def exC6 : CFG :=
  { blocks :=
      [ (0, {}),
        (1, { insns := [{ opcode := Opcode.br, dest := 0 }],
              endsInDead := true }),
        (2, { label := some 0, insns := [{ opcode := Opcode.ret }],
              endsInDead := true }),
        (3, {}) ],
    live := [0, 1, 2, 3],
    entryId := 0,
    exitId := 3,
    labelInfo := [{ block := some 2 }] }

/-- Input for the C6 amended-rule witness: block 0 holds a real
instruction followed by an unconditional branch to its list
successor 1. -/
def exC6w : CFG :=
  { blocks :=
      [ (0, { insns := [{ opcode := Opcode.other },
                        { opcode := Opcode.br, dest := 0 }],
              succs := [0], endsInDead := true }),
        (1, { label := some 0, insns := [{ opcode := Opcode.ret }],
              preds := [0], endsInDead := true }),
        (2, {}) ],
    live := [0, 1, 2],
    entryId := 0,
    exitId := 2,
    edges := [ (0, { src := 0, dst := 1, flags := EdgeFlag.branch }) ],
    nextEdge := 1,
    labelInfo := [{ block := some 1 }],
    blockOrder := [2, 1, 0] }

/-- Scenario for C3: after one clean_cfg pass the branch-over-empty
rule (rule 2) fires at block 1 and deletes the fall-through edge into
the empty trampoline block 2, leaving block 2 live but unreachable;
eliminate_unreachable only runs at the start of clean_cfg, so only a
second clean_cfg call removes block 2.  List order: entry 0, block 1
(conditional branch to label 0 = block 4), block 2 (unconditional
branch to label 0), block 3 (label 1, return), block 4 (label 0,
conditional branch to label 1), exit 5. -/
def exC3 : CFG :=
  { blocks :=
      [ (0, {}),
        (1, { insns := [{ opcode := Opcode.other },
                        { opcode := Opcode.brCond, dest := 0 }] }),
        (2, { insns := [{ opcode := Opcode.br, dest := 0 }],
              endsInDead := true }),
        (3, { label := some 1, insns := [{ opcode := Opcode.ret }],
              endsInDead := true }),
        (4, { label := some 0, insns := [{ opcode := Opcode.brCond, dest := 1 }] }),
        (5, {}) ],
    live := [0, 1, 2, 3, 4, 5],
    entryId := 0,
    exitId := 5,
    labelInfo := [{ block := some 4 }, { block := some 3 }] }

instance exceptDecEq {α β : Type} [DecidableEq α] [DecidableEq β] :
    DecidableEq (Except α β) := fun
  | Except.ok a, Except.ok b =>
    decidable_of_iff (a = b) (by simp)
  | Except.error a, Except.error b =>
    decidable_of_iff (a = b) (by simp)
  | Except.ok _, Except.error _ => isFalse (by simp)
  | Except.error _, Except.ok _ => isFalse (by simp)

/-- The CFG of exC3 after build_cfg. -/
def exC3b : CFG := (buildCFG exC3).toOption.getD exC3

/-- exC3 after one clean_cfg call. -/
def exC3c1 : CFG := (cleanCFG 10 exC3b).getD exC3b

/-- exC3 after two clean_cfg calls. -/
def exC3c2 : CFG := (cleanCFG 10 exC3c1).getD exC3c1

/-- exC3 after three clean_cfg calls. -/
def exC3c3 : CFG := (cleanCFG 10 exC3c2).getD exC3c2

/-! Definitions used to state and prove the post-order properties. -/

/-- The successor edge-id vector of a block (empty for a missing
block). -/
def succsOf (c : CFG) (i : Nat) : List Nat :=
  ((getBlock c i).map Block.succs).getD []

/-- The destination of the j-th successor edge of a block, as the DFS
reads it: block->succs[j]->dst. -/
def nthDst (c : CFG) (i j : Nat) : Option Nat :=
  ((succsOf c i).get? j).bind (fun eid => (getEdge c eid).map Edge.dst)

/-- All successor destinations of a block. -/
def succDsts (c : CFG) (i : Nat) : List Nat :=
  (succsOf c i).filterMap (fun eid => (getEdge c eid).map Edge.dst)

/-- The visited flag of a block (false for a missing block). -/
def visitedB (c : CFG) (i : Nat) : Bool :=
  ((getBlock c i).map Block.visited).getD false

/-- Well-formedness of the edge graph: every successor edge id of every
block resolves to an edge whose destination block exists, and the entry
block exists.  These are exactly the pointer dereferences the DFS of
_jit_block_compute_postorder performs. -/
def graphWF (c : CFG) : Prop :=
  (∀ p ∈ c.blocks, ∀ eid ∈ p.2.succs,
    ((getEdge c eid).bind (fun e => getBlock c e.dst)).isSome = true) ∧
  (getBlock c c.entryId).isSome = true

/-- Reachability from the entry block along successor edges. -/
def Reach (c : CFG) (i : Nat) : Prop :=
  Relation.ReflTransGen (fun a b => b ∈ succDsts c a) c.entryId i

/-- The termination measure of the DFS loop: unvisited blocks weighted
by their successor count plus two, plus the remaining work of every
stack frame. -/
def poMeasure (c : CFG) (stack : List (Nat × Nat)) : Nat :=
  (c.blocks.map (fun p => if p.2.visited then 0 else p.2.succs.length + 2)).sum +
    (stack.map (fun f => (succsOf c f.1).length + 1 - f.2)).sum

/-- The invariant of the DFS loop of _jit_block_compute_postorder,
relating the evolving state (c, stack, acc) to the starting graph c0. -/
structure PoInv (c0 c : CFG) (stack : List (Nat × Nat)) (acc : List Nat) :
    Prop where
  blocks_match : ∀ j, ∃ v : Bool,
    getBlock c j = (getBlock c0 j).map (fun b => { b with visited := v })
  edges_eq : c.edges = c0.edges
  stack_visited : ∀ f ∈ stack, visitedB c f.1 = true
  stack_nodup : (stack.map Prod.fst).Nodup
  acc_nodup : acc.Nodup
  disjoint : ∀ i ∈ acc, i ∉ stack.map Prod.fst
  visited_iff : ∀ i, visitedB c i = true ↔ (i ∈ acc ∨ i ∈ stack.map Prod.fst)
  frames_ok : ∀ f ∈ stack, ∃ b, getBlock c f.1 = some b ∧ f.2 ≤ b.succs.length
  frames_prefix : ∀ f ∈ stack, ∀ j < f.2, ∀ d, nthDst c f.1 j = some d →
    visitedB c d = true
  acc_closed : ∀ i ∈ acc, ∀ d ∈ succDsts c i, visitedB c d = true
  visited_reach : ∀ i, visitedB c i = true → Reach c0 i
  bottom_entry : ∀ f, stack.getLast? = some f → f.1 = c0.entryId
  entry_not_acc : stack ≠ [] → c0.entryId ∉ acc
  final_entry : stack = [] → acc.getLast? = some c0.entryId


/-- A three-block chain used to witness the postorder theorem: entry 0
falls through to 1, which falls through to exit 2. -/
def exC5 : CFG :=
  { blocks := [(0, { succs := [0] }), (1, { succs := [1] }), (2, {})],
    live := [0, 1, 2], entryId := 0, exitId := 2,
    edges := [(0, { src := 0, dst := 1, flags := EdgeFlag.fallthru }),
              (1, { src := 1, dst := 2, flags := EdgeFlag.fallthru })] }


/-! ## Dead-end consistency: predicates for claim C7. -/

/-- The block association list has no duplicate ids (the doubly linked
block list of the builder holds each block once). -/
def keysNodup (c : CFG) : Prop :=
  (c.blocks.map Prod.fst).Nodup

/-- Dead-end consistency: a block whose ends_in_dead flag is set has no
live fall-through edge in its succs vector. -/
def deadEndP (c : CFG) : Prop :=
  ∀ p ∈ c.blocks, p.2.endsInDead = true → ∀ eid ∈ p.2.succs,
    ∀ ed, getEdge c eid = some ed → ed.flags ≠ EdgeFlag.fallthru

/-- Edge ownership: every live edge held in a succs vector records that
block as its source. -/
def ownedP (c : CFG) : Prop :=
  ∀ p ∈ c.blocks, ∀ eid ∈ p.2.succs,
    ∀ ed, getEdge c eid = some ed → ed.src = p.1

/-- The state invariant the clean pass maintains. -/
def cfgInv (c : CFG) : Prop :=
  keysNodup c ∧ deadEndP c ∧ ownedP c

/-- Executable form of dead-end consistency. -/
def deadEndOK (c : CFG) : Bool :=
  c.blocks.all (fun p => !p.2.endsInDead ||
    p.2.succs.all (fun eid =>
      (getEdge c eid).all (fun ed => ed.flags != EdgeFlag.fallthru)))

/-- The block has a live fall-through edge to its list successor. -/
def fallthruFact (c : CFG) (i : Nat) : Prop :=
  ∃ b, getBlock c i = some b ∧ ∃ eid ∈ b.succs, ∃ ed,
    getEdge c eid = some ed ∧ ed.flags = EdgeFlag.fallthru ∧
    some ed.dst = listNext c i

/-- A three-block function for the C7 witness: block 0 ends in an
ordinary instruction (fall-through added), block 1 ends in a return
with ends_in_dead set (no fall-through), block 2 is the exit. -/
def exC7 : CFG :=
  { blocks := [(0, { insns := [{ opcode := Opcode.other }] }),
               (1, { insns := [{ opcode := Opcode.ret }], endsInDead := true }),
               (2, {})],
    live := [0, 1, 2], entryId := 0, exitId := 2 }

/-- The CFG exC7 after a successful build. -/
def exC7b : CFG := (buildCFG exC7).toOption.getD exC7

/-- Walk an alias chain of the label registry, collecting the labels
visited; the fuel bounds the walk (the source loops forever on a cyclic
chain). -/
def chainFrom (c : CFG) : Nat → Option Nat → List Nat
  | 0, _ => []
  | _ + 1, none => []
  | fuel + 1, some L =>
    L :: (match c.labelInfo.get? L with
      | none => []
      | some e => chainFrom c fuel e.aliasL)

/-- The label-soundness invariant of the spec: every block's label is
UNDEFINED or heads an alias chain each of whose labels maps back to the
block in the registry, and every label bound to the block is visited
exactly once when walking the block's chain. -/
def labelInv (c : CFG) : Prop :=
  ∀ p ∈ c.blocks,
    (∀ L ∈ chainFrom c (c.labelInfo.length + 1) p.2.label,
      (c.labelInfo.get? L).map LabelEntry.block = some (some p.1)) ∧
    (∀ L < c.labelInfo.length,
      (c.labelInfo.get? L).map LabelEntry.block = some (some p.1) →
      (chainFrom c (c.labelInfo.length + 1) p.2.label).count L = 1)

/-- A two-block state for C8: label 0 is bound to block 0, which heads
the one-element chain; block 1 has no label. -/
def exC8 : CFG :=
  { blocks := [(0, { label := some 0 }), (1, {})],
    live := [0, 1], entryId := 0, exitId := 1,
    labelInfo := [{ block := some 0 }] }

end LibjitBlock

namespace LibjitBlock

/-! ## Theorems -/

/-! Association-list bookkeeping lemmas. -/

theorem lookup_updA_self {α : Type} (l : List (Nat × α)) (i : Nat)
    (f : α → α) : (updA l i f).lookup i = (l.lookup i).map f := by
  induction l with
  | nil => rfl
  | cons hd t ih =>
    obtain ⟨k, v⟩ := hd
    by_cases h : k = i
    · subst h
      simp [updA, List.lookup_cons]
    · have hne : i ≠ k := Ne.symm h
      simp [updA, List.lookup_cons, if_neg h, beq_false_of_ne hne]
      simpa [updA] using ih

theorem lookup_updA_ne {α : Type} (l : List (Nat × α)) (i j : Nat)
    (f : α → α) (h : j ≠ i) : (updA l i f).lookup j = l.lookup j := by
  induction l with
  | nil => rfl
  | cons hd t ih =>
    obtain ⟨k, v⟩ := hd
    by_cases hk : k = i
    · have hjk : j ≠ k := by
        rw [hk]
        exact h
      simp [updA, List.lookup_cons, if_pos hk, beq_false_of_ne hjk]
      simpa [updA] using ih
    · by_cases hj : j = k
      · simp [updA, List.lookup_cons, if_neg hk, hj]
      · simp [updA, List.lookup_cons, if_neg hk, beq_false_of_ne hj]
        simpa [updA] using ih

theorem lookup_filterNe_self {α : Type} (l : List (Nat × α)) (e : Nat) :
    (l.filter (fun p => p.1 != e)).lookup e = none := by
  induction l with
  | nil => rfl
  | cons hd t ih =>
    obtain ⟨k, v⟩ := hd
    by_cases h : k = e
    · subst h
      simpa [List.filter_cons] using ih
    · simpa [List.filter_cons, h, List.lookup_cons,
        beq_false_of_ne (Ne.symm h)] using ih

theorem lookup_filterNe_ne {α : Type} (l : List (Nat × α)) (e j : Nat)
    (h : j ≠ e) : (l.filter (fun p => p.1 != e)).lookup j = l.lookup j := by
  induction l with
  | nil => rfl
  | cons hd t ih =>
    obtain ⟨k, v⟩ := hd
    by_cases hk : k = e
    · subst hk
      simpa [List.filter_cons, List.lookup_cons, beq_false_of_ne h] using ih
    · by_cases hj : j = k
      · subst hj
        simp [List.filter_cons, hk, List.lookup_cons]
      · simpa [List.filter_cons, hk, List.lookup_cons,
          beq_false_of_ne hj] using ih

theorem getBlock_modifyBlock (c : CFG) (i j : Nat) (f : Block → Block) :
    getBlock (modifyBlock c i f) j =
      if j = i then (getBlock c j).map f else getBlock c j := by
  by_cases h : j = i
  · subst h
    simp [getBlock, modifyBlock, lookup_updA_self]
  · simp [getBlock, modifyBlock, lookup_updA_ne _ _ _ _ h, h]

theorem getEdge_modifyEdge (c : CFG) (e j : Nat) (f : Edge → Edge) :
    getEdge (modifyEdge c e f) j =
      if j = e then (getEdge c j).map f else getEdge c j := by
  by_cases h : j = e
  · subst h
    simp [getEdge, modifyEdge, lookup_updA_self]
  · simp [getEdge, modifyEdge, lookup_updA_ne _ _ _ _ h, h]

theorem getEdge_removeEdge (c : CFG) (e j : Nat) :
    getEdge (removeEdge c e) j = if j = e then none else getEdge c j := by
  by_cases h : j = e
  · subst h
    simp [getEdge, removeEdge, lookup_filterNe_self]
  · simp [getEdge, removeEdge, lookup_filterNe_ne _ _ _ h, h]

theorem getEdge_modifyBlock (c : CFG) (i : Nat) (f : Block → Block)
    (j : Nat) : getEdge (modifyBlock c i f) j = getEdge c j := rfl

theorem getBlock_modifyEdge (c : CFG) (e : Nat) (f : Edge → Edge)
    (j : Nat) : getBlock (modifyEdge c e f) j = getBlock c j := rfl

theorem getBlock_removeEdge (c : CFG) (e j : Nat) :
    getBlock (removeEdge c e) j = getBlock c j := rfl

/-- C1.  The claim is wrong about the code: in merge_empty, when an
incoming fall-through edge was found and the outgoing edge is also
fall-through, the source retargets pred_edge (the last predecessor edge
read by the loop) instead of fallthru_edge.  On exC1 the incoming
fall-through edge 0 keeps destination 2 (the deleted block) instead of
being retargeted to the successor 3, while the branch edge 1 is attached
to block 3 a second time; block 2 is removed from the live list and
never reaches the deleted list. -/
theorem c1_mergeEmpty_retargets_wrong_edge :
    (mergeEmpty exC1 2 false).map (fun r =>
      (getEdge r.1 0, r.1.live, (getBlock r.1 3).map Block.preds,
        r.1.deletedBlocks, r.2)) =
    some (some { src := 0, dst := 2, flags := EdgeFlag.fallthru },
      [0, 1, 3], some [1, 1], [], true) := by
  decide

/-- C2.  The claim is wrong about the code: delete_block runs

    block->next = block->func->builder->deleted_blocks;
    block->func->builder->deleted_blocks = block->next;

which reassigns the old head to itself, so a block removed by CFG
cleanup never enters the deleted-blocks list and _jit_block_free (which
walks the live list and then the deleted list) never releases it.  On
exC2, eliminating block 1 leaves the deleted list empty and block 1
outside the set of blocks the builder teardown frees. -/
theorem c2_deleted_block_never_reaches_deleted_list :
    (eliminateBlock exC2 1).live = [0, 2] ∧
    (eliminateBlock exC2 1).deletedBlocks = [] ∧
    1 ∉ freedBlocks (eliminateBlock exC2 1) := by
  decide

/-! Arithmetic facts about the label-info growth loop. -/

theorem growLoop_ge (num L : Nat) : num ≤ growLoop num L := by
  by_cases h : 0 < num ∧ num ≤ L
  · rw [growLoop, dif_pos h]
    have := growLoop_ge (2 * num) L
    omega
  · rw [growLoop, dif_neg h]
termination_by L + 1 - num
decreasing_by omega

theorem growLoop_pow (L : Nat) : ∀ n a, L + 1 - 2 ^ a ≤ n →
    growLoop (2 ^ a) L = 2 ^ max a (Nat.clog 2 (L + 1)) := by
  intro n
  induction n with
  | zero =>
    intro a ha
    have hlt : L < 2 ^ a := by
      have := Nat.one_le_two_pow (n := a)
      omega
    have hclog : Nat.clog 2 (L + 1) ≤ a :=
      (Nat.le_pow_iff_clog_le (by norm_num)).mp hlt
    rw [growLoop, dif_neg (by omega), max_eq_left hclog]
  | succ n ih =>
    intro a ha
    by_cases h : 2 ^ a ≤ L
    · have hpos : 0 < 2 ^ a := Nat.pos_pow_of_pos a (by norm_num)
      rw [growLoop, dif_pos ⟨hpos, h⟩]
      have h2 : 2 * 2 ^ a = 2 ^ (a + 1) := by ring
      have hnext : L + 1 - 2 ^ (a + 1) ≤ n := by omega
      rw [h2, ih (a + 1) hnext]
      have hgt : a < Nat.clog 2 (L + 1) := by
        by_contra hc
        push_neg at hc
        have := (Nat.le_pow_iff_clog_le (b := 2) (by norm_num)).mpr hc
        omega
      rw [max_eq_right (by omega), max_eq_right (by omega)]
    · have hclog : Nat.clog 2 (L + 1) ≤ a :=
        (Nat.le_pow_iff_clog_le (by norm_num)).mp (by omega)
      rw [growLoop, dif_neg (by omega), max_eq_left hclog]

theorem clog_two_64 : Nat.clog 2 64 = 6 := by
  have h := Nat.clog_pow 2 6 (by norm_num)
  norm_num at h
  exact h

/-- The growth computation of record_label, started from a reachable
max_label_info value (0 or 64 times a power of two), yields exactly the
least power of two that is at least max 64 (L + 1). -/
theorem growLoop_start (len L : Nat)
    (hlen : len = 0 ∨ ∃ k, len = 64 * 2 ^ k) (hL : len ≤ L) :
    growLoop (if len < 64 then 64 else len) L = nextPow2Ge (max 64 (L + 1)) := by
  have hmax : Nat.clog 2 (max 64 (L + 1)) = max 6 (Nat.clog 2 (L + 1)) := by
    rcases le_total (L + 1) 64 with hle | hle
    · rw [max_eq_left hle, clog_two_64, eq_comm, max_eq_left]
      have h := Nat.clog_mono_right 2 hle
      rw [clog_two_64] at h
      exact h
    · rw [max_eq_right hle, eq_comm, max_eq_right]
      have h := Nat.clog_mono_right 2 hle
      rw [clog_two_64] at h
      exact h
  rw [nextPow2Ge, hmax]
  by_cases hsm : len < 64
  · rw [if_pos hsm]
    have h64 : (64 : ℕ) = 2 ^ 6 := by norm_num
    rw [h64]
    exact growLoop_pow L (L + 1) 6 (by omega)
  · rw [if_neg hsm]
    obtain ⟨k, hk⟩ := hlen.resolve_left (by omega)
    have hpow : len = 2 ^ (6 + k) := by
      rw [hk, pow_add]
      norm_num
    rw [hpow, growLoop_pow L (L + 1) (6 + k) (by omega)]
    have hlenL : 2 ^ (6 + k) ≤ L := by
      rw [← hpow]
      exact hL
    have hC : 6 + k < Nat.clog 2 (L + 1) := by
      by_contra hc
      push_neg at hc
      have := (Nat.le_pow_iff_clog_le (b := 2) (by norm_num)).mpr hc
      omega
    rw [max_eq_right (by omega), max_eq_right (by omega)]

theorem getBlock_setLabelInfo (c : CFG) (X : List LabelEntry) (bl : Nat) :
    getBlock { c with labelInfo := X } bl = getBlock c bl := rfl

theorem labelInfo_modifyBlock (c : CFG) (i : Nat) (f : Block → Block) :
    (modifyBlock c i f).labelInfo = c.labelInfo := rfl

theorem nextPow2Ge_lt (L : Nat) : L < nextPow2Ge (max 64 (L + 1)) := by
  have h1 : max 64 (L + 1) ≤ nextPow2Ge (max 64 (L + 1)) :=
    Nat.le_pow_clog (by norm_num) _
  omega

/-- C9.  For a label L at or past max_label_info, record_label grows the
label-info array to the next power of two at least max 64 (L + 1),
zero-initializes every newly added entry (entry L is then overwritten by
the binding), and binds L to the block by prepending it to the block's
alias chain.  The hypothesis on the current length holds in every
reachable state: the array starts empty and is only ever resized by this
same computation. -/
theorem c9_record_label_grows_to_next_pow2 (c : CFG) (bl L : Nat) (blk : Block)
    (hlen : c.labelInfo.length = 0 ∨ ∃ k, c.labelInfo.length = 64 * 2 ^ k)
    (hL : c.labelInfo.length ≤ L)
    (hblk : getBlock c bl = some blk) :
    (recordLabel c bl L).labelInfo.length = nextPow2Ge (max 64 (L + 1)) ∧
    (∀ j, c.labelInfo.length ≤ j → j < nextPow2Ge (max 64 (L + 1)) → j ≠ L →
      (recordLabel c bl L).labelInfo.get? j = some {}) ∧
    (recordLabel c bl L).labelInfo.get? L =
      some { block := some bl, aliasL := blk.label } ∧
    getBlock (recordLabel c bl L) bl = some { blk with label := some L } := by
  have hN := growLoop_start c.labelInfo.length L hlen hL
  set N := nextPow2Ge (max 64 (L + 1)) with hNdef
  have hLN : L < N := nextPow2Ge_lt L
  have hlenN : c.labelInfo.length ≤ N := by omega
  refine ⟨?_, ?_, ?_, ?_⟩
  · simp only [recordLabel, ge_iff_le, hL, if_true, hN,
      getBlock_setLabelInfo, hblk, labelInfo_modifyBlock]
    simp [List.length_set, List.length_append, List.length_replicate]
    omega
  · intro j hj1 hj2 hjL
    simp only [recordLabel, ge_iff_le, hL, if_true, hN,
      getBlock_setLabelInfo, hblk, labelInfo_modifyBlock]
    rw [List.get?_eq_getElem?, List.getElem?_set_ne (Ne.symm hjL)]
    rw [List.getElem?_append_right hj1]
    simp [List.getElem?_replicate]
    omega
  · simp only [recordLabel, ge_iff_le, hL, if_true, hN,
      getBlock_setLabelInfo, hblk, labelInfo_modifyBlock]
    rw [List.get?_eq_getElem?, List.getElem?_set_self]
    simp [List.length_set, List.length_append, List.length_replicate]
    omega
  · simp only [recordLabel, ge_iff_le, hL, if_true, hN,
      getBlock_setLabelInfo, hblk]
    rw [getBlock_modifyBlock, if_pos rfl, getBlock_setLabelInfo, hblk]
    rfl

/-- C9, witness: recording label 100 in exC2 (whose label-info array is
empty) grows the array to nextPow2Ge (max 64 101) = 128 entries and
binds the label. -/
theorem c9_record_label_witness :
    exC2.labelInfo.length ≤ 100 ∧ getBlock exC2 0 = some {} ∧
    (recordLabel exC2 0 100).labelInfo.length = nextPow2Ge (max 64 (100 + 1)) ∧
    (recordLabel exC2 0 100).labelInfo.get? 100 =
      some { block := some 0, aliasL := none } ∧
    nextPow2Ge (max 64 (100 + 1)) = 128 := by
  have happ := c9_record_label_grows_to_next_pow2 exC2 0 100 {}
    (Or.inl rfl) (by decide) (by decide)
  refine ⟨by decide, by decide, happ.1, happ.2.2.1, ?_⟩
  have h1 : max 64 (100 + 1) = 101 := by norm_num
  rw [nextPow2Ge, h1]
  have h2 : Nat.clog 2 101 ≤ 7 :=
    (Nat.le_pow_iff_clog_le (by norm_num)).mp (by norm_num)
  have h3 : 6 < Nat.clog 2 101 := by
    by_contra hc
    push_neg at hc
    have := (Nat.le_pow_iff_clog_le (b := 2) (by norm_num)).mpr hc
    norm_num at this
  have h4 : Nat.clog 2 101 = 7 := by omega
  rw [h4]
  norm_num

theorem lookup_mapVals {α : Type} (l : List (Nat × α)) (g : α → α) (i : Nat) :
    (l.map (fun p => (p.1, g p.2))).lookup i = (l.lookup i).map g := by
  induction l with
  | nil => rfl
  | cons hd t ih =>
    obtain ⟨k, v⟩ := hd
    by_cases h : i = k
    · subst h
      simp [List.lookup_cons]
    · simpa [List.lookup_cons, beq_false_of_ne h] using ih

theorem classifyAux_modifyBlock (c : CFG) (k : Nat) (f : Block → Block)
    (o : Option Insn) : classifyAux (modifyBlock c k f) o = classifyAux c o := rfl

theorem getBlock_clearEdges (c : CFG) (i : Nat) :
    getBlock (clearEdges c) i =
      (getBlock c i).map (fun b => { b with succs := [], preds := [] }) := by
  unfold getBlock clearEdges
  exact lookup_mapVals c.blocks (fun b => { b with succs := [], preds := [] }) i

theorem classifyTerm_modifyBlock_keepInsns (c : CFG) (k : Nat)
    (f : Block → Block) (i : Nat) (hf : ∀ b, (f b).insns = b.insns) :
    classifyTerm (modifyBlock c k f) i = classifyTerm c i := by
  unfold classifyTerm
  rw [getBlock_modifyBlock]
  by_cases h : i = k
  · rw [if_pos h]
    cases hgb : getBlock c i with
    | none => rfl
    | some blk =>
      simp only [Option.map_some']
      rw [classifyAux_modifyBlock]
      have hl : getLastInsn (f blk) = getLastInsn blk := by
        simp only [getLastInsn, hf blk]
      rw [hl]
  · rw [if_neg h]
    cases getBlock c i with
    | none => rfl
    | some blk => exact classifyAux_modifyBlock c k f (getLastInsn blk)

theorem listNext_modifyBlock (c : CFG) (k : Nat) (f : Block → Block)
    (i : Nat) : listNext (modifyBlock c k f) i = listNext c i := rfl

theorem blockEdgeList_modifyBlock_keep (c : CFG) (k : Nat)
    (f : Block → Block) (i : Nat) (hf : ∀ b, (f b).insns = b.insns)
    (hf2 : ∀ b, (f b).endsInDead = b.endsInDead) :
    blockEdgeList (modifyBlock c k f) i = blockEdgeList c i := by
  unfold blockEdgeList
  rw [classifyTerm_modifyBlock_keepInsns c k f i hf, getBlock_modifyBlock,
    listNext_modifyBlock]
  by_cases h : i = k
  · rw [if_pos h]
    cases getBlock c i with
    | none => cases classifyTerm c i <;> rfl
    | some blk =>
      simp only [Option.map_some']
      cases classifyTerm c i with
      | error e => rfl
      | ok es =>
        show (if (f blk).endsInDead = true then _ else _) = _
        rw [hf2 blk]
  · rw [if_neg h]

theorem blockEdgeList_edgesUpdate (c : CFG) (E : List (Nat × Edge))
    (n : Nat) (i : Nat) :
    blockEdgeList { c with edges := E, nextEdge := n } i = blockEdgeList c i := rfl

theorem blockEdgeList_addEdge (c : CFG) (s d : Nat) (fl : EdgeFlag)
    (i : Nat) : blockEdgeList (addEdge c s d fl) i = blockEdgeList c i := by
  simp only [addEdge]
  rw [blockEdgeList_modifyBlock_keep _ d
    (fun b => { b with preds := b.preds ++ [c.nextEdge] }) i
    (fun b => rfl) (fun b => rfl)]
  rw [blockEdgeList_modifyBlock_keep _ s
    (fun b => { b with succs := b.succs ++ [c.nextEdge] }) i
    (fun b => rfl) (fun b => rfl)]
  exact blockEdgeList_edgesUpdate c _ _ i

theorem classifyAux_clearEdges (c : CFG) (o : Option Insn) :
    classifyAux (clearEdges c) o = classifyAux c o := rfl

theorem classifyTerm_clearEdges (c : CFG) (i : Nat) :
    classifyTerm (clearEdges c) i = classifyTerm c i := by
  unfold classifyTerm
  rw [getBlock_clearEdges]
  cases getBlock c i with
  | none => rfl
  | some blk => rfl

theorem blockEdgeList_clearEdges (c : CFG) (i : Nat) :
    blockEdgeList (clearEdges c) i = blockEdgeList c i := by
  unfold blockEdgeList
  rw [classifyTerm_clearEdges, getBlock_clearEdges]
  cases getBlock c i with
  | none => cases classifyTerm c i <;> rfl
  | some blk => cases classifyTerm c i <;> rfl

theorem jumpTableEdges_undef_iff (c : CFG) (jl : List Nat) :
    (jumpTableEdges c jl = Except.error BuildErr.undefinedLabel) ↔
      jl.any (fun l => (blockFromLabel c l).isNone) = true := by
  induction jl with
  | nil => simp [jumpTableEdges]
  | cons l t ih =>
    simp only [jumpTableEdges, List.foldr_cons] at ih ⊢
    cases hbl : blockFromLabel c l with
    | none => simp [hbl]
    | some d =>
      cases hacc : t.foldr (fun l acc =>
          match blockFromLabel c l, acc with
          | some d, Except.ok rest => Except.ok ((d, EdgeFlag.branch) :: rest)
          | none, _ => Except.error BuildErr.undefinedLabel
          | _, Except.error e => Except.error e) (Except.ok []) with
      | ok rest =>
        rw [hacc] at ih
        have hnot : (t.any fun l => (blockFromLabel c l).isNone) = false := by
          cases ht : t.any fun l => (blockFromLabel c l).isNone with
          | false => rfl
          | true => exact absurd (ih.mpr ht) (by simp)
        simp [hbl, hnot]
      | error e =>
        rw [hacc] at ih
        simpa [hbl] using ih

theorem classifyTerm_undef_iff (c : CFG) (i : Nat) :
    (classifyTerm c i = Except.error BuildErr.undefinedLabel) ↔
      raisesUndefinedB c i = true := by
  unfold classifyTerm raisesUndefinedB
  cases getBlock c i with
  | none => simp
  | some blk =>
    unfold classifyAux
    cases hli : getLastInsn blk with
    | none => simp [hli]
    | some insn =>
      simp only [hli, Option.map_some', Option.getD_some]
      cases hop : insn.opcode
      case nop => simp
      case markOffset => simp
      case other => simp
      case ret => simp
      case br =>
        cases hbl : blockFromLabel c insn.dest <;> simp [hbl]
      case brCond =>
        cases hbl : blockFromLabel c insn.dest <;> simp [hbl]
      case callFinally =>
        cases hbl : blockFromLabel c insn.dest <;> simp [hbl]
      case callFilter =>
        cases hbl : blockFromLabel c insn.dest <;> simp [hbl]
      case throwOp =>
        cases hbl : c.catcherLabel.bind (blockFromLabel c) <;> simp [hbl]
      case rethrowOp =>
        cases hbl : c.catcherLabel.bind (blockFromLabel c) <;> simp [hbl]
      case call =>
        cases hbl : c.catcherLabel.bind (blockFromLabel c) <;> simp [hbl]
      case jumpTable => exact jumpTableEdges_undef_iff c insn.jumpLabels

theorem blockEdgeList_undef_iff (c : CFG) (i : Nat) :
    (blockEdgeList c i = Except.error BuildErr.undefinedLabel) ↔
      raisesUndefinedB c i = true := by
  rw [← classifyTerm_undef_iff]
  unfold blockEdgeList
  cases hg : getBlock c i with
  | none =>
    have hct : classifyTerm c i = Except.error BuildErr.malformed := by
      unfold classifyTerm
      rw [hg]
    rw [hct]
  | some blk =>
    cases hc : classifyTerm c i with
    | error e => exact Iff.rfl
    | ok es =>
      by_cases hd : blk.endsInDead = true
      · simp [hd]
      · simp only [hd]
        cases listNext c i <;> simp

theorem blockEdgeList_foldAddEdge :
    ∀ (es : List (Nat × EdgeFlag)) (c : CFG) (s j : Nat),
      blockEdgeList (es.foldl (fun c p => addEdge c s p.1 p.2) c) j =
        blockEdgeList c j := by
  intro es
  induction es with
  | nil => intro c s j; rfl
  | cons p t ih =>
    intro c s j
    rw [List.foldl_cons, ih, blockEdgeList_addEdge]

theorem buildFold_undef_iff :
    ∀ (L : List Nat) (c : CFG),
      (∀ i ∈ L, blockEdgeList c i ≠ Except.error BuildErr.malformed) →
      ((L.foldlM (fun c i =>
          match blockEdgeList c i with
          | Except.error e => Except.error e
          | Except.ok es =>
            Except.ok (es.foldl (fun c p => addEdge c i p.1 p.2) c)) c) =
          Except.error BuildErr.undefinedLabel ↔
        ∃ i ∈ L, blockEdgeList c i = Except.error BuildErr.undefinedLabel) := by
  intro L
  induction L with
  | nil =>
    intro c _
    rw [List.foldlM_nil]
    constructor
    · intro h
      exact absurd h (by simp [pure, Except.pure])
    · rintro ⟨i, hi, _⟩
      exact absurd hi (by simp)
  | cons hd t ih =>
    intro c hmal
    rw [List.foldlM_cons]
    cases hbe : blockEdgeList c hd with
    | error e =>
      cases e with
      | undefinedLabel =>
        constructor
        · intro _
          exact ⟨hd, by simp, hbe⟩
        · intro _
          rfl
      | malformed => exact absurd hbe (hmal hd (by simp))
    | ok es =>
      have hmal2 : ∀ i ∈ t,
          blockEdgeList (es.foldl (fun c p => addEdge c hd p.1 p.2) c) i ≠
            Except.error BuildErr.malformed := by
        intro i hi
        rw [blockEdgeList_foldAddEdge]
        exact hmal i (by simp [hi])
      show (t.foldlM (fun c i =>
          match blockEdgeList c i with
          | Except.error e => Except.error e
          | Except.ok es =>
            Except.ok (es.foldl (fun c p => addEdge c i p.1 p.2) c))
          (es.foldl (fun c p => addEdge c hd p.1 p.2) c) =
          Except.error BuildErr.undefinedLabel) ↔ _
      rw [ih (es.foldl (fun c p => addEdge c hd p.1 p.2) c) hmal2]
      constructor
      · rintro ⟨i, hi, hbl⟩
        rw [blockEdgeList_foldAddEdge] at hbl
        exact ⟨i, by simp [hi], hbl⟩
      · rintro ⟨i, hi, hbl⟩
        rcases List.mem_cons.mp hi with heq | hmem
        · subst heq
          rw [hbe] at hbl
          exact absurd hbl (by simp)
        · refine ⟨i, hmem, ?_⟩
          rw [blockEdgeList_foldAddEdge]
          exact hbl


/-- C4.  build_cfg raises UNDEFINED_LABEL exactly when some non-exit
block's terminator is an unconditional branch, a conditional branch,
CALL_FINALLY, CALL_FILTER or a JUMP_TABLE entry naming a label with no
bound block; and for THROW, RETHROW and the CALL range an unbound
catcher label does not raise but routes the exception edge to the exit
block.  The hypothesis rules out states whose accesses are undefined
behavior in the C source (missing block structs or a broken live
list). -/
theorem c4_undefined_label_exactly_when (c : CFG)
    (hmal : ∀ i ∈ c.live.takeWhile (fun i => i ≠ c.exitId),
      blockEdgeList c i ≠ Except.error BuildErr.malformed) :
    (buildCFG c = Except.error BuildErr.undefinedLabel ↔
      ∃ i ∈ c.live.takeWhile (fun i => i ≠ c.exitId),
        raisesUndefinedB c i = true) ∧
    (∀ i blk insn, getBlock c i = some blk → getLastInsn blk = some insn →
      (insn.opcode = Opcode.throwOp ∨ insn.opcode = Opcode.rethrowOp ∨
        insn.opcode = Opcode.call) →
      c.catcherLabel.bind (blockFromLabel c) = none →
      classifyTerm c i = Except.ok [(c.exitId, EdgeFlag.exc)]) := by
  constructor
  · have hmal2 : ∀ i ∈ c.live.takeWhile (fun i => i ≠ c.exitId),
        blockEdgeList (clearEdges c) i ≠ Except.error BuildErr.malformed := by
      intro i hi
      rw [blockEdgeList_clearEdges]
      exact hmal i hi
    have h0 : buildCFG c =
        (c.live.takeWhile (fun i => i ≠ c.exitId)).foldlM (fun c i =>
          match blockEdgeList c i with
          | Except.error e => Except.error e
          | Except.ok es =>
            Except.ok (es.foldl (fun c p => addEdge c i p.1 p.2) c))
          (clearEdges c) := rfl
    rw [h0, buildFold_undef_iff _ _ hmal2]
    apply exists_congr
    intro i
    apply and_congr_right
    intro _
    rw [blockEdgeList_clearEdges]
    exact blockEdgeList_undef_iff c i
  · intro i blk insn hb hins hop hcat
    unfold classifyTerm
    rw [hb]
    unfold classifyAux
    simp only [hins, Option.map_some', Option.getD_some]
    rcases hop with h | h | h <;> rw [h] <;> simp [hcat]

/-- C4, witness: in exC4 block 1 branches to unbound label 7, so
build_cfg fails with UNDEFINED_LABEL; block 2 ends in THROW with no
catcher bound and is classified as an exception edge to the exit
block 3. -/
theorem c4_undefined_label_witness :
    buildCFG exC4 = Except.error BuildErr.undefinedLabel ∧
    classifyTerm exC4 2 = Except.ok [(3, EdgeFlag.exc)] := by
  have happ := c4_undefined_label_exactly_when exC4 (by decide)
  refine ⟨happ.1.mpr ⟨1, by decide, by decide⟩, ?_⟩
  exact happ.2 2 { insns := [{ opcode := Opcode.throwOp }], endsInDead := true }
    { opcode := Opcode.throwOp } (by decide) (by decide) (Or.inl rfl) (by decide)

/-- C10.  A non-exit block with an empty instruction vector is
classified exactly as a block whose terminator is NOP: the terminator
classification installs no branch, return or exception edge, and the
full edge list of the block is a single fall-through edge to the list
successor when ends_in_dead is unset and empty otherwise. -/
theorem c10_empty_block_classified_as_nop (c : CFG) (i : Nat) (blk : Block)
    (hb : getBlock c i = some blk) (he : blk.insns = []) :
    classifyTerm c i = Except.ok [] ∧
    classifyTerm c i =
      classifyTerm
        (modifyBlock c i (fun b => { b with insns := [{ opcode := Opcode.nop }] })) i ∧
    (blk.endsInDead = true → blockEdgeList c i = Except.ok []) ∧
    (blk.endsInDead = false → ∀ n, listNext c i = some n →
      blockEdgeList c i = Except.ok [(n, EdgeFlag.fallthru)]) := by
  have hlast : getLastInsn blk = none := by
    rw [getLastInsn, he]
    rfl
  have h1 : classifyTerm c i = Except.ok [] := by
    simp [classifyTerm, classifyAux, hb, hlast]
  have hb2 : getBlock
      (modifyBlock c i (fun b => { b with insns := [{ opcode := Opcode.nop }] })) i =
      some { blk with insns := [{ opcode := Opcode.nop }] } := by
    rw [getBlock_modifyBlock]
    simp [hb]
  have h2 : classifyTerm
      (modifyBlock c i (fun b => { b with insns := [{ opcode := Opcode.nop }] })) i =
      Except.ok [] := by
    simp [classifyTerm, classifyAux, hb2, getLastInsn]
  refine ⟨h1, h1.trans h2.symm, ?_, ?_⟩
  · intro hdead
    simp [blockEdgeList, h1, hb, hdead]
  · intro hdead n hn
    simp [blockEdgeList, h1, hb, hdead, hn]

/-- C10, witness: block 0 of exC2 has no instructions, ends_in_dead
unset and list successor 1. -/
theorem c10_witness :
    getBlock exC2 0 = some {} ∧ Block.insns {} = [] ∧
    Block.endsInDead {} = false ∧ listNext exC2 0 = some 1 ∧
    blockEdgeList exC2 0 = Except.ok [(1, EdgeFlag.fallthru)] :=
  ⟨by decide, rfl, rfl, by decide,
    (c10_empty_block_classified_as_nop exC2 0 {} (by decide) rfl).2.2.2 rfl 1
      (by decide)⟩

/-- C6, amended.  The immediate effect of the useless-branch rule on a
block ending in an unconditional branch to its list successor (single
successor edge of flag BRANCH, terminator present) is exactly:
overwrite the terminator opcode with NOP, clear ends_in_dead, and flip
the edge's flag from BRANCH to FALLTHRU, leaving the edge's src and dst
unchanged.  The last hypothesis (some earlier instruction is not
NOP/MARK_OFFSET/BR) keeps the block non-empty after the rewrite; without
it the same pass iteration immediately merges the block away, as the C6
counterexample shows on scenario S1. -/
theorem c6_useless_branch_rule_immediate_effect (c : CFG) (i e0id n : Nat) (blk : Block) (e0 : Edge)
    (ch : Bool)
    (hb : getBlock c i = some blk)
    (hsuccs : blk.succs = [e0id])
    (he : getEdge c e0id = some e0)
    (hfl : e0.flags = EdgeFlag.branch)
    (hnext : listNext c i = some n)
    (hdst : e0.dst = n)
    (hins : blk.insns ≠ [])
    (hne : blk.insns.dropLast.any (fun insn => !(opcEmpty insn.opcode)) = true) :
    phase2Block c i ch =
      some (modifyEdge
        (modifyBlock (setLastOpcode c i Opcode.nop) i
          (fun b => { b with endsInDead := false }))
        e0id (fun e => { e with flags := EdgeFlag.fallthru }), true) ∧
    getEdge (modifyEdge
        (modifyBlock (setLastOpcode c i Opcode.nop) i
          (fun b => { b with endsInDead := false }))
        e0id (fun e => { e with flags := EdgeFlag.fallthru })) e0id =
      some { src := e0.src, dst := e0.dst, flags := EdgeFlag.fallthru } := by
  obtain ⟨last, hlast⟩ : ∃ l, getLastInsn blk = some l := by
    cases h : getLastInsn blk with
    | none =>
      rw [getLastInsn, List.getLast?_eq_none_iff] at h
      exact absurd h hins
    | some l => exact ⟨l, rfl⟩
  have hlen : blk.succs.length = 1 := by rw [hsuccs]; rfl
  have hhead : blk.succs.head? = some e0id := by rw [hsuccs]; rfl
  have hedge2 : getEdge (modifyEdge
      (modifyBlock (setLastOpcode c i Opcode.nop) i
        (fun b => { b with endsInDead := false }))
      e0id (fun e => { e with flags := EdgeFlag.fallthru })) e0id =
      some { src := e0.src, dst := e0.dst, flags := EdgeFlag.fallthru } := by
    rw [getEdge_modifyEdge, if_pos rfl]
    have : getEdge (modifyBlock (setLastOpcode c i Opcode.nop) i
        (fun b => { b with endsInDead := false })) e0id = some e0 := he
    rw [this]
    rfl
  refine ⟨?_, hedge2⟩
  have hlast' : blk.insns.getLast? = some last := hlast
  have hall : blk.insns.dropLast.all (fun insn => opcEmpty insn.opcode) = false := by
    rw [List.all_eq_false]
    obtain ⟨x, hx, hpx⟩ := List.any_eq_true.mp hne
    exact ⟨x, hx, by simpa using hpx⟩
  have hopc : opcEmpty Opcode.nop = true := rfl
  simp only [phase2Block, hb, hsuccs, he, hfl, hnext, hdst, hlast,
    List.head?_cons, List.length_cons, List.length_nil, reduceIte,
    zero_add, setLastOpcode, getBlock_modifyEdge, getBlock_modifyBlock,
    getEdge_modifyEdge, getEdge_modifyBlock, hlast', isEmptyBlock,
    List.all_append, List.all_cons, List.all_nil, hall, hopc,
    Option.map_some', Option.map_none', and_true, true_and, or_true,
    if_true, Bool.and_true, Bool.true_and, Bool.false_and,
    Bool.and_false]
  rw [if_neg (by norm_num : ¬(1 : ℕ) = 0)]
  simp

/-- C6, witness: block 0 of exC6w holds a real instruction followed by
an unconditional branch to its list successor 1; the rule rewrites the
terminator to NOP and converts edge 0 to a fall-through edge with src 0
and dst 1 unchanged. -/
theorem c6_useless_branch_rule_effect_witness :
    phase2Block exC6w 0 false =
      some (modifyEdge
        (modifyBlock (setLastOpcode exC6w 0 Opcode.nop) 0
          (fun b => { b with endsInDead := false }))
        0 (fun e => { e with flags := EdgeFlag.fallthru }), true) ∧
    getEdge (modifyEdge
        (modifyBlock (setLastOpcode exC6w 0 Opcode.nop) 0
          (fun b => { b with endsInDead := false }))
        0 (fun e => { e with flags := EdgeFlag.fallthru })) 0 =
      some { src := 0, dst := 1, flags := EdgeFlag.fallthru } :=
  c6_useless_branch_rule_immediate_effect exC6w 0 0 1
    { insns := [{ opcode := Opcode.other }, { opcode := Opcode.br, dest := 0 }],
      succs := [0], endsInDead := true }
    { src := 0, dst := 1, flags := EdgeFlag.branch } false
    (by decide) (by decide) (by decide) (by decide) (by decide) (by decide)
    (by decide) (by decide)


/-- C3, counterexample.  clean_cfg is not idempotent on exC3: the first
call leaves block 2 in the live list (its rule-2 rewrite at block 1
deleted the only incoming edge of block 2, but eliminate_unreachable
only runs before the first pass), and the second call removes block 2,
so the second run is not a no-op and the two results differ. -/
theorem c3_clean_cfg_not_idempotent :
    (buildCFG exC3).toOption = some exC3b ∧
    cleanCFG 10 exC3b = some exC3c1 ∧
    cleanCFG 10 exC3c1 = some exC3c2 ∧
    exC3c1.live = [0, 1, 2, 3, 4, 5] ∧
    exC3c2.live = [0, 1, 3, 4, 5] ∧
    exC3c2 ≠ exC3c1 := by
  decide

/-- C3, amended.  On exC3 the first clean_cfg call leaves block 2 live
but disconnected (its preds vector is empty and it never reached the
deleted list); the second call removes exactly that block in its
eliminate_unreachable step, deleting its outgoing edge 3; a third call
leaves the block store, live list, edge pool and deleted list
unchanged. -/
theorem c3_second_pass_removes_orphaned_block :
    (getBlock exC3c1 2).map Block.preds = some [] ∧
    2 ∈ exC3c1.live ∧
    exC3c2.live = exC3c1.live.erase 2 ∧
    exC3c2.edges = exC3c1.edges.filter (fun p => p.1 ≠ 3) ∧
    cleanCFG 10 exC3c2 = some exC3c3 ∧
    exC3c3.blocks = exC3c2.blocks ∧
    exC3c3.live = exC3c2.live ∧
    exC3c3.edges = exC3c2.edges ∧
    exC3c3.deletedBlocks = exC3c2.deletedBlocks := by
  decide

/-- C6, counterexample.  On the spec's own scenario S1 (exC6), block 1
ends in an unconditional branch to its list successor, but after
clean_cfg the rewritten block does not survive with a NOP terminator
and a fall-through edge: the NOP-rewrite makes block 1 empty, so the
same pass merges it into block 2 and deletes it, freeing the rewritten
edge; the final state has no block 1 in the live list, block 1's
instruction vector is cleared, and the only edges are the entry
fall-through (retargeted to block 2) and the return edge. -/
theorem c6_rewritten_block_can_be_merged_away :
    ((buildCFG exC6).toOption.bind (fun c => cleanCFG 4 c)).map (fun c =>
      (c.live, c.edges, (getBlock c 1).map Block.insns)) =
    some ([0, 2, 3],
      [(0, { src := 0, dst := 2, flags := EdgeFlag.fallthru }),
       (2, { src := 2, dst := 3, flags := EdgeFlag.ret })],
      some []) := by
  decide

end LibjitBlock


namespace LibjitBlock

theorem lookup_mem {α : Type} {l : List (Nat × α)} {i : Nat} {v : α}
    (h : l.lookup i = some v) : (i, v) ∈ l := by
  induction l with
  | nil => simp [List.lookup] at h
  | cons hd t ih =>
    obtain ⟨k, w⟩ := hd
    by_cases hk : i = k
    · subst hk
      rw [List.lookup_cons] at h
      simp at h
      simp [h]
    · rw [List.lookup_cons] at h
      rw [beq_false_of_ne hk] at h
      simp [ih h]

theorem getEdge_congr {c c0 : CFG} (h : c.edges = c0.edges) (e : Nat) :
    getEdge c e = getEdge c0 e := by
  simp [getEdge, h]

theorem succsOf_of_match {c0 c : CFG}
    (hm : ∀ j, ∃ v : Bool,
      getBlock c j = (getBlock c0 j).map (fun b => { b with visited := v }))
    (j : Nat) : succsOf c j = succsOf c0 j := by
  obtain ⟨v, hv⟩ := hm j
  rw [succsOf, succsOf, hv]
  cases getBlock c0 j <;> rfl

theorem succDsts_eq_of_match {c0 c : CFG}
    (hm : ∀ j, ∃ v : Bool,
      getBlock c j = (getBlock c0 j).map (fun b => { b with visited := v }))
    (he : c.edges = c0.edges) (j : Nat) : succDsts c j = succDsts c0 j := by
  rw [succDsts, succDsts, succsOf_of_match hm]
  apply List.filterMap_congr
  intro eid _
  rw [getEdge_congr he]

theorem nthDst_mem_succDsts {c : CFG} {i j d : Nat}
    (h : nthDst c i j = some d) : d ∈ succDsts c i := by
  rw [nthDst] at h
  cases hg : (succsOf c i).get? j with
  | none => rw [hg] at h; simp at h
  | some eid =>
    rw [hg] at h
    simp only [Option.some_bind] at h
    rw [succDsts]
    exact List.mem_filterMap.mpr ⟨eid, List.get?_mem hg, h⟩

theorem mem_succDsts_nthDst {c : CFG} {i d : Nat}
    (h : d ∈ succDsts c i) :
    ∃ j, j < (succsOf c i).length ∧ nthDst c i j = some d := by
  rw [succDsts] at h
  obtain ⟨eid, hmem, hed⟩ := List.mem_filterMap.mp h
  obtain ⟨j, hj⟩ := List.get?_of_mem hmem
  exact ⟨j, List.get?_eq_some.mp hj |>.1 |> (fun hh => by
    exact lt_of_le_of_lt (le_refl j) (by
      have := List.get?_eq_some.mp hj
      omega)), by
    rw [nthDst, hj]
    simpa using hed⟩

theorem getBlock_setVisited (c : CFG) (k j : Nat) :
    getBlock (setVisited c k) j =
      if j = k then (getBlock c j).map (fun b => { b with visited := true })
      else getBlock c j := by
  rw [setVisited, getBlock_modifyBlock]

theorem visitedB_setVisited_self {c : CFG} {k : Nat}
    (h : (getBlock c k).isSome = true) : visitedB (setVisited c k) k = true := by
  rw [visitedB, getBlock_setVisited, if_pos rfl]
  cases hg : getBlock c k with
  | none => rw [hg] at h; simp at h
  | some b => rfl

theorem visitedB_setVisited_other {c : CFG} {k j : Nat} (h : j ≠ k) :
    visitedB (setVisited c k) j = visitedB c j := by
  rw [visitedB, getBlock_setVisited, if_neg h, visitedB]

theorem visitedB_setVisited_mono {c : CFG} {k j : Nat}
    (h : visitedB c j = true) : visitedB (setVisited c k) j = true := by
  by_cases hk : j = k
  · subst hk
    rw [visitedB] at h
    cases hg : getBlock c j with
    | none => rw [hg] at h; simp at h
    | some b => exact visitedB_setVisited_self (by rw [hg]; rfl)
  · rw [visitedB_setVisited_other hk]
    exact h

theorem succsOf_setVisited (c : CFG) (k j : Nat) :
    succsOf (setVisited c k) j = succsOf c j := by
  rw [succsOf, succsOf, getBlock_setVisited]
  by_cases h : j = k
  · rw [if_pos h]
    cases getBlock c j <;> rfl
  · rw [if_neg h]

theorem edges_setVisited (c : CFG) (k : Nat) :
    (setVisited c k).edges = c.edges := rfl

theorem nthDst_setVisited (c : CFG) (k i j : Nat) :
    nthDst (setVisited c k) i j = nthDst c i j := by
  rw [nthDst, nthDst, succsOf_setVisited]
  rfl

theorem succDsts_setVisited (c : CFG) (k i : Nat) :
    succDsts (setVisited c k) i = succDsts c i := by
  rw [succDsts, succDsts, succsOf_setVisited]
  rfl


theorem updA_visited_sum_le (k : Nat) :
    ∀ l : List (Nat × Block),
      ((updA l k (fun b => { b with visited := true })).map
        (fun p => if p.2.visited then 0 else p.2.succs.length + 2)).sum ≤
      (l.map (fun p => if p.2.visited then 0 else p.2.succs.length + 2)).sum := by
  intro l
  induction l with
  | nil => simp [updA]
  | cons hd t ih =>
    obtain ⟨k', v⟩ := hd
    by_cases h : k' = k
    · have hcons : updA ((k', v) :: t) k (fun b => { b with visited := true }) =
          (k', { v with visited := true }) ::
            updA t k (fun b => { b with visited := true }) := by
        simp [updA, h]
      rw [hcons, List.map_cons, List.sum_cons, List.map_cons, List.sum_cons]
      have h0 : (if ({ v with visited := true } : Block).visited = true then 0
          else ({ v with visited := true } : Block).succs.length + 2) = 0 := rfl
      rw [h0]
      omega
    · have hcons : updA ((k', v) :: t) k (fun b => { b with visited := true }) =
          (k', v) :: updA t k (fun b => { b with visited := true }) := by
        simp [updA, h]
      rw [hcons, List.map_cons, List.sum_cons, List.map_cons, List.sum_cons]
      omega

theorem lookup_visited_sum_le (k : Nat) (dblk : Block)
    (hv : dblk.visited = false) :
    ∀ l : List (Nat × Block), l.lookup k = some dblk →
      ((updA l k (fun b => { b with visited := true })).map
        (fun p => if p.2.visited then 0 else p.2.succs.length + 2)).sum +
        (dblk.succs.length + 2) ≤
      (l.map (fun p => if p.2.visited then 0 else p.2.succs.length + 2)).sum := by
  intro l
  induction l with
  | nil => intro h; simp [List.lookup] at h
  | cons hd t ih =>
    intro hlk
    obtain ⟨k', v⟩ := hd
    by_cases h : k' = k
    · subst h
      rw [List.lookup_cons] at hlk
      simp only [beq_self_eq_true, if_true] at hlk
      have hvd : v = dblk := by simpa using hlk
      subst hvd
      have hcons : updA ((k', v) :: t) k' (fun b => { b with visited := true }) =
          (k', { v with visited := true }) ::
            updA t k' (fun b => { b with visited := true }) := by
        simp [updA]
      rw [hcons, List.map_cons, List.sum_cons, List.map_cons, List.sum_cons]
      have h0 : (if ({ v with visited := true } : Block).visited = true then 0
          else ({ v with visited := true } : Block).succs.length + 2) = 0 := rfl
      have h1 : (if v.visited = true then 0 else v.succs.length + 2) =
          v.succs.length + 2 := by
        rw [hv]
        rfl
      rw [h0, h1]
      have := updA_visited_sum_le k' t
      omega
    · rw [List.lookup_cons, beq_false_of_ne (fun hh => h hh.symm)] at hlk
      have hcons : updA ((k', v) :: t) k (fun b => { b with visited := true }) =
          (k', v) :: updA t k (fun b => { b with visited := true }) := by
        simp [updA, h]
      rw [hcons, List.map_cons, List.sum_cons, List.map_cons, List.sum_cons]
      have := ih hlk
      omega

theorem blocksSum_setVisited {c : CFG} {k : Nat} {dblk : Block}
    (hlk : getBlock c k = some dblk) (hv : dblk.visited = false) :
    ((setVisited c k).blocks.map
      (fun p => if p.2.visited then 0 else p.2.succs.length + 2)).sum +
      (dblk.succs.length + 2) ≤
    (c.blocks.map
      (fun p => if p.2.visited then 0 else p.2.succs.length + 2)).sum :=
  lookup_visited_sum_le k dblk hv c.blocks hlk

theorem framesSum_setVisited (c : CFG) (k : Nat) (stack : List (Nat × Nat)) :
    (stack.map (fun f => (succsOf (setVisited c k) f.1).length + 1 - f.2)).sum =
    (stack.map (fun f => (succsOf c f.1).length + 1 - f.2)).sum := by
  congr 1
  apply List.map_congr_left
  intro f _
  rw [succsOf_setVisited]


theorem PoInv_pop {c0 c : CFG} {bl idx : Nat} {rest : List (Nat × Nat)}
    {acc : List Nat} {b : Block}
    (inv : PoInv c0 c ((bl, idx) :: rest) acc)
    (hb : getBlock c bl = some b) (hidx : idx = b.succs.length) :
    PoInv c0 c rest (acc ++ [bl]) := by
  have hblmem : bl ∈ ((bl, idx) :: rest).map Prod.fst := by simp
  have hblnotacc : bl ∉ acc := fun hin => inv.disjoint bl hin hblmem
  have hblnotrest : bl ∉ rest.map Prod.fst := by
    have := inv.stack_nodup
    simp only [List.map_cons, List.nodup_cons] at this
    exact this.1
  refine ⟨inv.blocks_match, inv.edges_eq, ?_, ?_, ?_, ?_, ?_, ?_, ?_, ?_,
    inv.visited_reach, ?_, ?_, ?_⟩
  · intro f hf
    exact inv.stack_visited f (by simp [hf])
  · have := inv.stack_nodup
    simp only [List.map_cons, List.nodup_cons] at this
    exact this.2
  · exact List.Nodup.append inv.acc_nodup (List.nodup_singleton bl)
      (fun a ha hb' => by
        have : a = bl := by simpa using hb'
        subst this
        exact hblnotacc ha)
  · intro i hi
    rcases List.mem_append.mp hi with hin | hin
    · intro hmem
      exact inv.disjoint i hin (by simp [hmem])
    · have : i = bl := by simpa using hin
      subst this
      exact hblnotrest
  · intro i
    rw [inv.visited_iff i]
    constructor
    · rintro (h | h)
      · exact Or.inl (List.mem_append.mpr (Or.inl h))
      · simp only [List.map_cons, List.mem_cons] at h
        rcases h with rfl | h
        · exact Or.inl (List.mem_append.mpr (Or.inr (by simp)))
        · exact Or.inr h
    · rintro (h | h)
      · rcases List.mem_append.mp h with h' | h'
        · exact Or.inl h'
        · have : i = bl := by simpa using h'
          subst this
          exact Or.inr (by simp)
      · exact Or.inr (by simp [h])
  · intro f hf
    exact inv.frames_ok f (by simp [hf])
  · intro f hf
    exact inv.frames_prefix f (by simp [hf])
  · intro i hi
    rcases List.mem_append.mp hi with hin | hin
    · exact inv.acc_closed i hin
    · have : i = bl := by simpa using hin
      subst this
      intro d hd
      obtain ⟨j, hjlt, hnth⟩ := mem_succDsts_nthDst hd
      have hjidx : j < idx := by
        rw [hidx]
        have : succsOf c i = b.succs := by rw [succsOf, hb]; rfl
        rw [this] at hjlt
        exact hjlt
      exact inv.frames_prefix (i, idx) (by simp) j hjidx d hnth
  · intro f hf
    apply inv.bottom_entry f
    cases rest with
    | nil => simp at hf
    | cons r rs => rw [List.getLast?_cons_cons]; exact hf
  · intro hne
    intro hmem
    rcases List.mem_append.mp hmem with hin | hin
    · exact inv.entry_not_acc (by simp) hin
    · have hbl : c0.entryId = bl := by simpa using hin
      cases rest with
      | nil => exact hne rfl
      | cons r rs =>
        have hlast : ((bl, idx) :: r :: rs).getLast? = some ((r :: rs).getLast (by simp)) := by
          rw [List.getLast?_cons_cons]
          exact List.getLast?_eq_getLast _ _
        have hent := inv.bottom_entry _ hlast
        have hmem2 : ((r :: rs).getLast (by simp)) ∈ (r :: rs) :=
          List.getLast_mem _
        have : c0.entryId ∈ (r :: rs).map Prod.fst := by
          rw [← hent]
          exact List.mem_map_of_mem Prod.fst hmem2
        rw [hbl] at this
        exact hblnotrest this
  · intro hrest
    subst hrest
    have hbl : bl = c0.entryId := inv.bottom_entry (bl, idx) (by simp)
    rw [List.getLast?_concat, hbl]


theorem PoInv_inc {c0 c : CFG} {bl idx eid : Nat} {rest : List (Nat × Nat)}
    {acc : List Nat} {b : Block} {e : Edge}
    (inv : PoInv c0 c ((bl, idx) :: rest) acc)
    (hb : getBlock c bl = some b) (hlt : idx < b.succs.length)
    (heid : b.succs.get? idx = some eid) (he : getEdge c eid = some e)
    (hdv : visitedB c e.dst = true) :
    PoInv c0 c ((bl, idx + 1) :: rest) acc := by
  have hmapeq : ((bl, idx + 1) :: rest).map Prod.fst =
      ((bl, idx) :: rest).map Prod.fst := by simp
  refine ⟨inv.blocks_match, inv.edges_eq, ?_, ?_, inv.acc_nodup, ?_, ?_, ?_,
    ?_, inv.acc_closed, inv.visited_reach, ?_, ?_, ?_⟩
  · intro f hf
    rcases List.mem_cons.mp hf with rfl | hf'
    · exact inv.stack_visited (bl, idx) (by simp)
    · exact inv.stack_visited f (by simp [hf'])
  · rw [hmapeq]
    exact inv.stack_nodup
  · intro i hi
    rw [hmapeq]
    exact inv.disjoint i hi
  · intro i
    rw [hmapeq]
    exact inv.visited_iff i
  · intro f hf
    rcases List.mem_cons.mp hf with rfl | hf'
    · exact ⟨b, hb, by omega⟩
    · exact inv.frames_ok f (by simp [hf'])
  · intro f hf
    rcases List.mem_cons.mp hf with rfl | hf'
    · intro j hj d hnth
      by_cases hje : j = idx
      · subst hje
        have : nthDst c bl j = some e.dst := by
          rw [nthDst]
          have hsuccs : succsOf c bl = b.succs := by rw [succsOf, hb]; rfl
          rw [hsuccs, heid]
          simp [he]
        rw [this] at hnth
        cases hnth
        exact hdv
      · exact inv.frames_prefix (bl, idx) (by simp) j (by omega) d hnth
    · exact inv.frames_prefix f (by simp [hf']) 
  · intro f hf
    cases rest with
    | nil =>
      have hf2 : f = (bl, idx + 1) := by simpa using hf.symm
      subst hf2
      exact inv.bottom_entry (bl, idx) (by simp)
    | cons r rs =>
      apply inv.bottom_entry f
      rw [List.getLast?_cons_cons] at hf ⊢
      exact hf
  · intro _
    exact inv.entry_not_acc (by simp)
  · intro h
    simp at h


theorem PoInv_push {c0 c : CFG} {bl idx eid : Nat} {rest : List (Nat × Nat)}
    {acc : List Nat} {b dblk : Block} {e : Edge}
    (inv : PoInv c0 c ((bl, idx) :: rest) acc)
    (hb : getBlock c bl = some b) (hlt : idx < b.succs.length)
    (heid : b.succs.get? idx = some eid) (he : getEdge c eid = some e)
    (hdb : getBlock c e.dst = some dblk) (hdv : dblk.visited = false) :
    PoInv c0 (setVisited c e.dst) ((e.dst, 0) :: (bl, idx) :: rest) acc := by
  have hvisd : visitedB c e.dst = false := by
    rw [visitedB, hdb]
    exact hdv
  have hnotstack : e.dst ∉ ((bl, idx) :: rest).map Prod.fst := by
    intro h
    obtain ⟨f, hf, hfeq⟩ := List.mem_map.mp h
    have := inv.stack_visited f hf
    rw [hfeq] at this
    rw [hvisd] at this
    exact Bool.false_ne_true this
  have hnotacc : e.dst ∉ acc := by
    intro h
    have := (inv.visited_iff e.dst).mpr (Or.inl h)
    rw [hvisd] at this
    exact Bool.false_ne_true this
  have hnth : nthDst c bl idx = some e.dst := by
    rw [nthDst]
    have hsuccs : succsOf c bl = b.succs := by rw [succsOf, hb]; rfl
    rw [hsuccs, heid]
    simp [he]
  have hreachd : Reach c0 e.dst := by
    have hblv : visitedB c bl = true := inv.stack_visited (bl, idx) (by simp)
    have hrb : Reach c0 bl := inv.visited_reach bl hblv
    have hmem : e.dst ∈ succDsts c bl := nthDst_mem_succDsts hnth
    rw [succDsts_eq_of_match inv.blocks_match inv.edges_eq] at hmem
    exact Relation.ReflTransGen.tail hrb hmem
  refine ⟨?_, ?_, ?_, ?_, inv.acc_nodup, ?_, ?_, ?_, ?_, ?_, ?_, ?_, ?_, ?_⟩
  · intro j
    by_cases hj : j = e.dst
    · obtain ⟨v, hv⟩ := inv.blocks_match j
      refine ⟨true, ?_⟩
      rw [getBlock_setVisited, if_pos hj, hv]
      cases getBlock c0 j <;> rfl
    · obtain ⟨v, hv⟩ := inv.blocks_match j
      refine ⟨v, ?_⟩
      rw [getBlock_setVisited, if_neg hj, hv]
  · rw [edges_setVisited]
    exact inv.edges_eq
  · intro f hf
    rcases List.mem_cons.mp hf with rfl | hf'
    · exact visitedB_setVisited_self (by rw [hdb]; rfl)
    · exact visitedB_setVisited_mono (inv.stack_visited f hf')
  · simp only [List.map_cons, List.nodup_cons]
    refine ⟨?_, ?_⟩
    · simpa using hnotstack
    · have := inv.stack_nodup
      simpa using this
  · intro i hi
    have hold := inv.disjoint i hi
    simp only [List.map_cons, List.mem_cons] at hold ⊢
    push_neg at hold ⊢
    refine ⟨?_, hold.1, hold.2⟩
    intro heq
    rw [heq] at hi
    exact hnotacc hi
  · intro i
    by_cases hj : i = e.dst
    · subst hj
      constructor
      · intro _
        exact Or.inr (by simp)
      · intro _
        exact visitedB_setVisited_self (by rw [hdb]; rfl)
    · rw [visitedB_setVisited_other hj]
      rw [inv.visited_iff i]
      constructor
      · rintro (h | h)
        · exact Or.inl h
        · refine Or.inr ?_
          rw [List.map_cons, List.mem_cons]
          exact Or.inr h
      · rintro (h | h)
        · exact Or.inl h
        · simp only [List.map_cons, List.mem_cons] at h
          rcases h with h | h
          · exact absurd h hj
          · exact Or.inr (by simpa using h)
  · intro f hf
    rcases List.mem_cons.mp hf with rfl | hf'
    · refine ⟨{ dblk with visited := true }, ?_, by omega⟩
      rw [getBlock_setVisited, if_pos rfl, hdb]
      rfl
    · obtain ⟨bf, hbf, hle⟩ := inv.frames_ok f hf'
      by_cases hfd : f.1 = e.dst
      · refine ⟨{ bf with visited := true }, ?_, by simpa using hle⟩
        rw [getBlock_setVisited, if_pos hfd, hbf]
        rfl
      · exact ⟨bf, by rw [getBlock_setVisited, if_neg hfd]; exact hbf, hle⟩
  · intro f hf
    rcases List.mem_cons.mp hf with rfl | hf'
    · intro j hj
      omega
    · intro j hj d hnd
      rw [nthDst_setVisited] at hnd
      exact visitedB_setVisited_mono (inv.frames_prefix f hf' j hj d hnd)
  · intro i hi d hd
    rw [succDsts_setVisited] at hd
    exact visitedB_setVisited_mono (inv.acc_closed i hi d hd)
  · intro i hvi
    by_cases hj : i = e.dst
    · subst hj
      exact hreachd
    · rw [visitedB_setVisited_other hj] at hvi
      exact inv.visited_reach i hvi
  · intro f hf
    rw [List.getLast?_cons_cons] at hf
    exact inv.bottom_entry f hf
  · intro _
    exact inv.entry_not_acc (by simp)
  · intro h
    simp at h


theorem poMeasure_cons (c : CFG) (f : Nat × Nat) (rest : List (Nat × Nat)) :
    poMeasure c (f :: rest) =
      ((succsOf c f.1).length + 1 - f.2) + poMeasure c rest := by
  simp only [poMeasure, List.map_cons, List.sum_cons]
  omega

theorem poMeasure_push_lt {c : CFG} {d : Nat} {dblk : Block}
    (hdb : getBlock c d = some dblk) (hdv : dblk.visited = false)
    (stack : List (Nat × Nat)) :
    poMeasure (setVisited c d) ((d, 0) :: stack) < poMeasure c stack := by
  have hbs := blocksSum_setVisited hdb hdv
  have hfr := framesSum_setVisited c d stack
  have hsd : succsOf (setVisited c d) d = dblk.succs := by
    rw [succsOf_setVisited, succsOf, hdb]
    rfl
  rw [poMeasure_cons]
  simp only [poMeasure]
  rw [hsd, hfr]
  omega

theorem poLoop_correct (c0 : CFG) (hwf : graphWF c0) :
    ∀ fuel c stack acc, PoInv c0 c stack acc → poMeasure c stack < fuel →
      ∃ c' acc', poLoop fuel c stack acc = some (c', acc') ∧
        PoInv c0 c' [] acc' := by
  intro fuel
  induction fuel with
  | zero =>
    intro c stack acc _ h
    omega
  | succ fuel ih =>
    intro c stack acc inv hmu
    cases stack with
    | nil => exact ⟨c, acc, rfl, inv⟩
    | cons f rest =>
      obtain ⟨bl, idx⟩ := f
      obtain ⟨b, hgb, hle⟩ := inv.frames_ok (bl, idx) (by simp)
      have hsuccs : succsOf c bl = b.succs := by
        rw [succsOf, hgb]
        rfl
      by_cases hidx : idx = b.succs.length
      · have hstep : poLoop (fuel + 1) c ((bl, idx) :: rest) acc =
            poLoop fuel c rest (acc ++ [bl]) := by
          simp only [poLoop, hgb]
          rw [if_pos hidx]
        have hmeq := poMeasure_cons c (bl, idx) rest
        rw [hsuccs] at hmeq
        have hmu2 : poMeasure c rest < fuel := by
          simp only at hmeq
          omega
        obtain ⟨c', acc', hrec, inv'⟩ := ih c rest (acc ++ [bl])
          (PoInv_pop inv hgb hidx) hmu2
        exact ⟨c', acc', by rw [hstep]; exact hrec, inv'⟩
      · have hlt : idx < b.succs.length := lt_of_le_of_ne hle hidx
        obtain ⟨eid, heid⟩ : ∃ eid, b.succs.get? idx = some eid :=
          ⟨b.succs.get ⟨idx, hlt⟩, List.get?_eq_get hlt⟩
        obtain ⟨v, hv⟩ := inv.blocks_match bl
        have h2 : (getBlock c0 bl).map (fun b => { b with visited := v }) =
            some b := by
          rw [← hv]
          exact hgb
        cases hb0 : getBlock c0 bl with
        | none =>
          rw [hb0] at h2
          simp at h2
        | some b0 =>
          rw [hb0] at h2
          simp only [Option.map_some', Option.some_inj] at h2
          have hbsuccs : b.succs = b0.succs := by rw [← h2]
          have hmem0 : (bl, b0) ∈ c0.blocks := lookup_mem hb0
          have heid0 : eid ∈ b0.succs := by
            rw [← hbsuccs]
            exact List.get?_mem heid
          have hwfe := hwf.1 (bl, b0) hmem0 eid heid0
          cases he0 : getEdge c0 eid with
          | none =>
            rw [he0] at hwfe
            simp at hwfe
          | some e =>
            rw [he0] at hwfe
            simp only [Option.some_bind] at hwfe
            have he : getEdge c eid = some e := by
              rw [getEdge_congr inv.edges_eq, he0]
            cases hdb0 : getBlock c0 e.dst with
            | none =>
              rw [hdb0] at hwfe
              simp at hwfe
            | some db0 =>
              obtain ⟨v2, hv2⟩ := inv.blocks_match e.dst
              rw [hdb0] at hv2
              simp only [Option.map_some'] at hv2
              have hdb : getBlock c e.dst = some { db0 with visited := v2 } :=
                hv2
              cases hdvis : v2 with
              | true =>
                have hstep : poLoop (fuel + 1) c ((bl, idx) :: rest) acc =
                    poLoop fuel c ((bl, idx + 1) :: rest) acc := by
                  simp only [poLoop, hgb]
                  rw [if_neg hidx]
                  simp only [heid, he, hdb]
                  rw [if_pos (show ({ db0 with visited := v2 } : Block).visited =
                    true from hdvis)]
                have hvd : visitedB c e.dst = true := by
                  rw [visitedB, hdb]
                  exact hdvis
                have hmeq1 := poMeasure_cons c (bl, idx) rest
                have hmeq2 := poMeasure_cons c (bl, idx + 1) rest
                rw [hsuccs] at hmeq1 hmeq2
                have hmu2 : poMeasure c ((bl, idx + 1) :: rest) < fuel := by
                  simp only at hmeq1 hmeq2
                  omega
                obtain ⟨c', acc', hrec, inv'⟩ := ih c ((bl, idx + 1) :: rest) acc
                  (PoInv_inc inv hgb hlt heid he hvd) hmu2
                exact ⟨c', acc', by rw [hstep]; exact hrec, inv'⟩
              | false =>
                have hdvf : ({ db0 with visited := v2 } : Block).visited = false :=
                  hdvis
                have hstep : poLoop (fuel + 1) c ((bl, idx) :: rest) acc =
                    poLoop fuel (setVisited c e.dst)
                      ((e.dst, 0) :: (bl, idx) :: rest) acc := by
                  simp only [poLoop, hgb]
                  rw [if_neg hidx]
                  simp only [heid, he, hdb]
                  rw [if_neg (show ¬({ db0 with visited := v2 } : Block).visited =
                    true from by rw [hdvf]; simp)]
                have hpl := poMeasure_push_lt hdb hdvf ((bl, idx) :: rest)
                have hmu2 : poMeasure (setVisited c e.dst)
                    ((e.dst, 0) :: (bl, idx) :: rest) < fuel := by
                  omega
                obtain ⟨c', acc', hrec, inv'⟩ := ih (setVisited c e.dst)
                  ((e.dst, 0) :: (bl, idx) :: rest) acc
                  (PoInv_push inv hgb hlt heid he hdb hdvf) hmu2
                exact ⟨c', acc', by rw [hstep]; exact hrec, inv'⟩


theorem graphWF_setVisited {c : CFG} (hwf : graphWF c) (k : Nat) :
    graphWF (setVisited c k) := by
  constructor
  · intro p hp eid heid
    simp only [setVisited, modifyBlock, updA, List.mem_map] at hp
    obtain ⟨q, hq, hpq⟩ := hp
    have hsucc : p.2.succs = q.2.succs := by
      by_cases hk : q.1 = k
      · rw [← hpq, if_pos hk]
      · rw [← hpq, if_neg hk]
    rw [hsucc] at heid
    have hbase := hwf.1 q hq eid heid
    have hedge : getEdge (setVisited c k) eid = getEdge c eid := rfl
    rw [hedge]
    cases hge : getEdge c eid with
    | none =>
      rw [hge] at hbase
      simp at hbase
    | some e =>
      rw [hge] at hbase
      simp only [Option.some_bind] at hbase ⊢
      rw [getBlock_setVisited]
      by_cases hd : e.dst = k
      · rw [if_pos hd]
        cases hgb : getBlock c e.dst with
        | none =>
          rw [hgb] at hbase
          simp at hbase
        | some b => rfl
      · rw [if_neg hd]
        exact hbase
  · have hedge : (setVisited c k).entryId = c.entryId := rfl
    rw [hedge, getBlock_setVisited]
    by_cases hd : c.entryId = k
    · rw [if_pos hd]
      cases hgb : getBlock c c.entryId with
      | none =>
        have := hwf.2
        rw [hgb] at this
        simp at this
      | some b => rfl
    · rw [if_neg hd]
      exact hwf.2

theorem visitedB_all_false {c : CFG}
    (hunv : ∀ p ∈ c.blocks, p.2.visited = false) (i : Nat) :
    visitedB c i = false := by
  rw [visitedB]
  cases hg : getBlock c i with
  | none => rfl
  | some b => exact hunv (i, b) (lookup_mem hg)

theorem PoInv_init (c : CFG) (hwf : graphWF c)
    (hunv : ∀ p ∈ c.blocks, p.2.visited = false) :
    PoInv (setVisited c c.entryId) (setVisited c c.entryId)
      [(c.entryId, 0)] [] := by
  have hv0 := visitedB_all_false hunv
  have hvent : visitedB (setVisited c c.entryId) c.entryId = true :=
    visitedB_setVisited_self hwf.2
  refine ⟨?_, rfl, ?_, ?_, ?_, ?_, ?_, ?_, ?_, ?_, ?_, ?_, ?_, ?_⟩
  · intro j
    cases hg : getBlock (setVisited c c.entryId) j with
    | none => exact ⟨true, rfl⟩
    | some b => exact ⟨b.visited, rfl⟩
  · intro f hf
    simp only [List.mem_singleton] at hf
    rw [hf]
    exact hvent
  · simp
  · simp
  · simp
  · intro i
    by_cases hi : i = c.entryId
    · subst hi
      simp [hvent]
    · rw [visitedB_setVisited_other hi, hv0]
      simp [hi]
  · intro f hf
    simp only [List.mem_singleton] at hf
    subst hf
    cases hgb : getBlock c c.entryId with
    | none =>
      have := hwf.2
      rw [hgb] at this
      simp at this
    | some b =>
      refine ⟨{ b with visited := true }, ?_, by simp⟩
      rw [getBlock_setVisited, if_pos rfl, hgb]
      rfl
  · intro f hf j hj d hd
    simp only [List.mem_singleton] at hf
    subst hf
    omega
  · intro i hi
    simp at hi
  · intro i hi
    by_cases hie : i = c.entryId
    · subst hie
      exact Relation.ReflTransGen.refl
    · rw [visitedB_setVisited_other hie, hv0] at hi
      simp at hi
  · intro f hf
    simp only [List.getLast?_singleton, Option.some_inj] at hf
    rw [← hf]
    rfl
  · intro _ h
    simp at h
  · intro h
    simp at h

theorem poMeasure_init_lt (c : CFG) (hwf : graphWF c) :
    poMeasure (setVisited c c.entryId) [(c.entryId, 0)] <
      poFuelOf (setVisited c c.entryId) := by
  cases hgb : getBlock (setVisited c c.entryId) c.entryId with
  | none =>
    have h2 : (getBlock (setVisited c c.entryId) c.entryId).isSome = true :=
      (graphWF_setVisited hwf c.entryId).2
    rw [hgb] at h2
    simp at h2
  | some b =>
    have hmem : (c.entryId, b) ∈ (setVisited c c.entryId).blocks :=
      lookup_mem hgb
    have hone : b.succs.length + 2 ≤
        ((setVisited c c.entryId).blocks.map
          (fun p => p.2.succs.length + 2)).sum := by
      refine List.single_le_sum (fun x _ => Nat.zero_le x) _ ?_
      exact List.mem_map.mpr ⟨(c.entryId, b), hmem, rfl⟩
    have hblocks : ((setVisited c c.entryId).blocks.map
          (fun p => if p.2.visited then 0 else p.2.succs.length + 2)).sum ≤
        ((setVisited c c.entryId).blocks.map
          (fun p => p.2.succs.length + 2)).sum := by
      refine List.sum_le_sum ?_
      intro p _
      by_cases hv : p.2.visited
      · simp [hv]
      · simp [hv]
    have hso : succsOf (setVisited c c.entryId) c.entryId = b.succs := by
      rw [succsOf, hgb]
      rfl
    rw [poMeasure, poFuelOf]
    simp only [List.map_cons, List.map_nil, List.sum_cons, List.sum_nil,
      hso]
    omega

/-- C5: for a well-formed graph whose blocks all start unvisited,
_jit_block_compute_postorder succeeds; the emitted block_order has no
duplicates, holds exactly the blocks reachable from the entry block
along successor edges, ends with the entry block, and leaves no
reachable block unvisited. -/
theorem c5_postorder_emits_reachable_once (c : CFG) (hwf : graphWF c)
    (hunv : ∀ p ∈ c.blocks, p.2.visited = false) :
    ∃ c', computePostorder c = some c' ∧
      c'.blockOrder.Nodup ∧
      (∀ i, i ∈ c'.blockOrder ↔ Reach c i) ∧
      c'.blockOrder.getLast? = some c.entryId ∧
      (∀ i, Reach c i → visitedB c' i = true) := by
  have hwf1 : graphWF (setVisited c c.entryId) := graphWF_setVisited hwf _
  obtain ⟨c2, acc, hrec, hfin⟩ :=
    poLoop_correct (setVisited c c.entryId) hwf1
      (poFuelOf (setVisited c c.entryId)) (setVisited c c.entryId)
      [(c.entryId, 0)] [] (PoInv_init c hwf hunv) (poMeasure_init_lt c hwf)
  have hsd2 : ∀ a, succDsts c2 a = succDsts c a := by
    intro a
    rw [succDsts_eq_of_match hfin.blocks_match hfin.edges_eq a,
      succDsts_setVisited]
  have hent : c.entryId ∈ acc :=
    List.mem_of_mem_getLast? (hfin.final_entry rfl)
  have hmemiff : ∀ i, i ∈ acc ↔ Reach c i := by
    intro i
    constructor
    · intro hi
      have hvis := (hfin.visited_iff i).mpr (Or.inl hi)
      have hr1 := hfin.visited_reach i hvis
      exact Relation.ReflTransGen.mono
        (fun a b hb => by
          rw [succDsts_setVisited c c.entryId a] at hb
          exact hb) hr1
    · intro hr
      have hr2 : Relation.ReflTransGen (fun a b => b ∈ succDsts c a)
          c.entryId i := hr
      clear hr
      induction hr2 with
      | refl => exact hent
      | tail hab hbc ih =>
        have hvis := hfin.acc_closed _ ih _ (by rw [hsd2]; exact hbc)
        rcases (hfin.visited_iff _).mp hvis with h | h
        · exact h
        · simp at h
  refine ⟨{ c2 with blockOrder := acc }, ?_, hfin.acc_nodup, ?_, ?_, ?_⟩
  · cases hg : getBlock c c.entryId with
    | none =>
      have := hwf.2
      rw [hg] at this
      simp at this
    | some b =>
      simp only [computePostorder, hg, hrec]
  · exact hmemiff
  · exact hfin.final_entry rfl
  · intro i hr
    exact (hfin.visited_iff i).mpr (Or.inl ((hmemiff i).mpr hr))

theorem c5_postorder_witness :
    ∃ c', computePostorder exC5 = some c' ∧
      c'.blockOrder.Nodup ∧
      (∀ i, i ∈ c'.blockOrder ↔ Reach exC5 i) ∧
      c'.blockOrder.getLast? = some exC5.entryId ∧
      (∀ i, Reach exC5 i → visitedB c' i = true) :=
  c5_postorder_emits_reachable_once exC5
    (by unfold graphWF; decide) (by decide)


/-! C7 machinery: preservation of dead-end consistency and edge
ownership by the primitive CFG operations. -/

theorem mem_updA {α : Type} {l : List (Nat × α)} {i : Nat} {f : α → α}
    {p : Nat × α} (hp : p ∈ updA l i f) :
    ∃ q ∈ l, p = if q.1 = i then (q.1, f q.2) else q := by
  rw [updA] at hp
  obtain ⟨q, hq, he⟩ := List.mem_map.mp hp
  exact ⟨q, hq, he.symm⟩

theorem mem_modifyBlock {c : CFG} {i : Nat} {f : Block → Block}
    {p : Nat × Block} (hp : p ∈ (modifyBlock c i f).blocks) :
    ∃ q ∈ c.blocks, p = if q.1 = i then (q.1, f q.2) else q :=
  mem_updA hp

theorem keys_updA {α : Type} (l : List (Nat × α)) (i : Nat) (f : α → α) :
    (updA l i f).map Prod.fst = l.map Prod.fst := by
  induction l with
  | nil => rfl
  | cons hd t ih =>
    simp only [updA, List.map_cons] at ih ⊢
    by_cases h : hd.1 = i
    · rw [if_pos h]
      exact congrArg (fun x => hd.1 :: x) ih
    · rw [if_neg h]
      exact congrArg (fun x => hd.1 :: x) ih

theorem keysNodup_modifyBlock {c : CFG} {i : Nat} {f : Block → Block}
    (h : keysNodup c) : keysNodup (modifyBlock c i f) := by
  have he : (modifyBlock c i f).blocks = updA c.blocks i f := rfl
  rw [keysNodup, he, keys_updA]
  exact h

theorem lookup_of_mem_nodup {α : Type} {l : List (Nat × α)} {i : Nat}
    {v : α} (hnd : (l.map Prod.fst).Nodup) (h : (i, v) ∈ l) :
    l.lookup i = some v := by
  induction l with
  | nil => simp at h
  | cons hd t ih =>
    obtain ⟨k, w⟩ := hd
    simp only [List.map_cons, List.nodup_cons] at hnd
    rcases List.mem_cons.mp h with he | ht
    · cases he
      simp [List.lookup_cons]
    · have hik : i ≠ k := by
        intro hik
        subst hik
        exact hnd.1 (List.mem_map.mpr ⟨(i, v), ht, rfl⟩)
      rw [List.lookup_cons, beq_false_of_ne hik]
      exact ih hnd.2 ht

theorem deadEndOK_iff (c : CFG) : deadEndOK c = true ↔ deadEndP c := by
  rw [deadEndOK, deadEndP, List.all_eq_true]
  constructor
  · intro h p hp hd eid heid ed hed hfl
    have h1 := h p hp
    rw [Bool.or_eq_true] at h1
    rcases h1 with h1 | h1
    · rw [hd] at h1
      simp at h1
    · rw [List.all_eq_true] at h1
      have h2 := h1 eid heid
      rw [hed] at h2
      simp only [Option.all_some, bne_iff_ne] at h2
      exact h2 hfl
  · intro h p hp
    rw [Bool.or_eq_true]
    by_cases hd : p.2.endsInDead
    · right
      rw [List.all_eq_true]
      intro eid heid
      cases hed : getEdge c eid with
      | none => rfl
      | some ed =>
        simp only [Option.all_some, bne_iff_ne]
        exact h p hp hd eid heid ed hed
    · left
      simp [Bool.not_eq_true] at hd
      simp [hd]

theorem deadEndP_modifyBlock {c : CFG} {i : Nat} {f : Block → Block}
    (hs : ∀ b, ∀ x ∈ (f b).succs, x ∈ b.succs)
    (hd : ∀ b, (f b).endsInDead = true → b.endsInDead = true)
    (h : deadEndP c) : deadEndP (modifyBlock c i f) := by
  intro p hp hpd eid heid ed hed
  obtain ⟨q, hq, hpq⟩ := mem_modifyBlock hp
  subst hpq
  rw [getEdge_modifyBlock] at hed
  by_cases hqi : q.1 = i
  · rw [if_pos hqi] at hpd heid
    exact h q hq (hd _ hpd) eid (hs _ _ heid) ed hed
  · rw [if_neg hqi] at hpd heid
    exact h q hq hpd eid heid ed hed

theorem ownedP_modifyBlock {c : CFG} {i : Nat} {f : Block → Block}
    (hs : ∀ b, ∀ x ∈ (f b).succs, x ∈ b.succs)
    (h : ownedP c) : ownedP (modifyBlock c i f) := by
  intro p hp eid heid ed hed
  obtain ⟨q, hq, hpq⟩ := mem_modifyBlock hp
  subst hpq
  rw [getEdge_modifyBlock] at hed
  by_cases hqi : q.1 = i
  · rw [if_pos hqi] at heid ⊢
    exact h q hq eid (hs _ _ heid) ed hed
  · rw [if_neg hqi] at heid ⊢
    exact h q hq eid heid ed hed

theorem cfgInv_modifyBlock {c : CFG} {i : Nat} {f : Block → Block}
    (hs : ∀ b, ∀ x ∈ (f b).succs, x ∈ b.succs)
    (hd : ∀ b, (f b).endsInDead = true → b.endsInDead = true)
    (h : cfgInv c) : cfgInv (modifyBlock c i f) :=
  ⟨keysNodup_modifyBlock h.1, deadEndP_modifyBlock hs hd h.2.1,
    ownedP_modifyBlock hs h.2.2⟩

theorem deadEndP_modifyEdge {c : CFG} {e : Nat} {f : Edge → Edge}
    (hf : ∀ ed, (f ed).flags = ed.flags)
    (h : deadEndP c) : deadEndP (modifyEdge c e f) := by
  intro p hp hpd eid heid ed hed
  have hp2 : p ∈ c.blocks := hp
  rw [getEdge_modifyEdge] at hed
  by_cases he : eid = e
  · rw [if_pos he] at hed
    cases hg : getEdge c eid with
    | none =>
      rw [hg] at hed
      simp at hed
    | some ed0 =>
      rw [hg] at hed
      simp only [Option.map_some', Option.some_inj] at hed
      subst hed
      rw [hf]
      exact h p hp2 hpd eid heid ed0 hg
  · rw [if_neg he] at hed
    exact h p hp2 hpd eid heid ed hed

theorem ownedP_modifyEdge {c : CFG} {e : Nat} {f : Edge → Edge}
    (hf : ∀ ed, (f ed).src = ed.src)
    (h : ownedP c) : ownedP (modifyEdge c e f) := by
  intro p hp eid heid ed hed
  have hp2 : p ∈ c.blocks := hp
  rw [getEdge_modifyEdge] at hed
  by_cases he : eid = e
  · rw [if_pos he] at hed
    cases hg : getEdge c eid with
    | none =>
      rw [hg] at hed
      simp at hed
    | some ed0 =>
      rw [hg] at hed
      simp only [Option.map_some', Option.some_inj] at hed
      subst hed
      rw [hf]
      exact h p hp2 eid heid ed0 hg
  · rw [if_neg he] at hed
    exact h p hp2 eid heid ed hed

theorem cfgInv_modifyEdge {c : CFG} {e : Nat} {f : Edge → Edge}
    (hfl : ∀ ed, (f ed).flags = ed.flags)
    (hsr : ∀ ed, (f ed).src = ed.src)
    (h : cfgInv c) : cfgInv (modifyEdge c e f) :=
  ⟨h.1, deadEndP_modifyEdge hfl h.2.1, ownedP_modifyEdge hsr h.2.2⟩

theorem deadEndP_removeEdge {c : CFG} {e : Nat}
    (h : deadEndP c) : deadEndP (removeEdge c e) := by
  intro p hp hpd eid heid ed hed
  have hp2 : p ∈ c.blocks := hp
  rw [getEdge_removeEdge] at hed
  by_cases he : eid = e
  · rw [if_pos he] at hed
    simp at hed
  · rw [if_neg he] at hed
    exact h p hp2 hpd eid heid ed hed

theorem ownedP_removeEdge {c : CFG} {e : Nat}
    (h : ownedP c) : ownedP (removeEdge c e) := by
  intro p hp eid heid ed hed
  have hp2 : p ∈ c.blocks := hp
  rw [getEdge_removeEdge] at hed
  by_cases he : eid = e
  · rw [if_pos he] at hed
    simp at hed
  · rw [if_neg he] at hed
    exact h p hp2 eid heid ed hed

theorem cfgInv_removeEdge {c : CFG} {e : Nat}
    (h : cfgInv c) : cfgInv (removeEdge c e) :=
  ⟨h.1, deadEndP_removeEdge h.2.1, ownedP_removeEdge h.2.2⟩

theorem cfgInv_detachEdgeSrc {c : CFG} {e : Nat}
    (h : cfgInv c) : cfgInv (detachEdgeSrc c e) := by
  rw [detachEdgeSrc]
  cases getEdge c e with
  | none => exact h
  | some ed =>
    refine cfgInv_modifyBlock ?_ ?_ h
    · intro b x hx
      exact List.mem_of_mem_erase hx
    · intro b hb
      exact hb

theorem cfgInv_detachEdgeDst {c : CFG} {e : Nat}
    (h : cfgInv c) : cfgInv (detachEdgeDst c e) := by
  rw [detachEdgeDst]
  cases getEdge c e with
  | none => exact h
  | some ed =>
    refine cfgInv_modifyBlock ?_ ?_ h
    · intro b x hx
      exact hx
    · intro b hb
      exact hb

theorem cfgInv_attachEdgeDst {c : CFG} {e bl : Nat}
    (h : cfgInv c) : cfgInv (attachEdgeDst c e bl) := by
  rw [attachEdgeDst]
  refine cfgInv_modifyEdge ?_ ?_
    (cfgInv_modifyBlock (fun b x hx => hx) (fun b hb => hb) h)
  · intro ed
    rfl
  · intro ed
    rfl

theorem cfgInv_deleteEdge {c : CFG} {e : Nat}
    (h : cfgInv c) : cfgInv (deleteEdge c e) :=
  cfgInv_removeEdge (cfgInv_detachEdgeDst (cfgInv_detachEdgeSrc h))

theorem cfgInv_detachBlock {c : CFG} {i : Nat}
    (h : cfgInv c) : cfgInv (detachBlock c i) :=
  h

theorem cfgInv_deleteBlock {c : CFG} {i : Nat}
    (h : cfgInv c) : cfgInv (deleteBlock c i) := by
  have h1 : cfgInv (modifyBlock c i
      (fun b => { b with succs := [], preds := [], insns := [] })) :=
    cfgInv_modifyBlock (fun b x hx => (List.not_mem_nil x hx).elim)
      (fun b hb => hb) h
  exact h1

theorem cfgInv_setVisited {c : CFG} {i : Nat}
    (h : cfgInv c) : cfgInv (setVisited c i) :=
  cfgInv_modifyBlock (fun b x hx => hx) (fun b hb => hb) h

theorem cfgInv_setLastOpcode {c : CFG} {i : Nat} {op : Opcode}
    (h : cfgInv c) : cfgInv (setLastOpcode c i op) := by
  rw [setLastOpcode]
  refine cfgInv_modifyBlock ?_ ?_ h
  · intro b x hx
    cases hg : b.insns.getLast? with
    | none =>
      simp only [hg] at hx
      exact hx
    | some last =>
      simp only [hg] at hx
      exact hx
  · intro b hb
    cases hg : b.insns.getLast? with
    | none =>
      simp only [hg] at hb
      exact hb
    | some last =>
      simp only [hg] at hb
      exact hb


theorem cfgInv_setLabelInfo {c : CFG} (li : List LabelEntry)
    (h : cfgInv c) : cfgInv { c with labelInfo := li } :=
  h

theorem cfgInv_mergeLabels :
    ∀ (fuel : Nat) (c : CFG) (bl : Nat) (label : Option Nat),
      cfgInv c → cfgInv (mergeLabels fuel c bl label) := by
  intro fuel
  induction fuel with
  | zero =>
    intro c bl label h
    exact h
  | succ fuel ih =>
    intro c bl label h
    cases label with
    | none => exact h
    | some L =>
      simp only [mergeLabels]
      cases hb : getBlock c bl with
      | none =>
        cases he : c.labelInfo.get? L with
        | none => exact h
        | some e => exact h
      | some blk =>
        cases he : c.labelInfo.get? L with
        | none => exact h
        | some e =>
          exact ih _ _ _ (cfgInv_modifyBlock (fun b x hx => hx)
            (fun b hb2 => hb2) (cfgInv_setLabelInfo _ h))

theorem cfgInv_recordLabel {c : CFG} {bl L : Nat}
    (h : cfgInv c) : cfgInv (recordLabel c bl L) := by
  simp only [recordLabel]
  split <;>
    first
      | exact h
      | exact cfgInv_modifyBlock (fun b x hx => hx) (fun b hb2 => hb2) h
      | (split <;>
          first
            | exact h
            | exact cfgInv_modifyBlock (fun b x hx => hx)
                (fun b hb2 => hb2) h)

theorem cfgInv_mergeLoop :
    ∀ (fuel : Nat) (c : CFG) (i s idx : Nat) (ft : Option Nat) (ch : Bool)
      (pe : Option Nat) (c2 : CFG) (ft2 : Option Nat) (ch2 : Bool)
      (pe2 : Option Nat),
      mergeLoop fuel c i s idx ft ch pe = some (c2, ft2, ch2, pe2) →
      cfgInv c → cfgInv c2 := by
  intro fuel
  induction fuel with
  | zero =>
    intro c i s idx ft ch pe c2 ft2 ch2 pe2 hm h
    exact Option.noConfusion hm
  | succ fuel ih =>
    intro c i s idx ft ch pe c2 ft2 ch2 pe2 hm h
    simp only [mergeLoop] at hm
    cases hb : getBlock c i with
    | none =>
      rw [hb] at hm
      simp at hm
    | some blk =>
      rw [hb] at hm
      simp only at hm
      by_cases hidx : idx < blk.preds.length
      · rw [dif_pos hidx] at hm
        cases he : getEdge c (blk.preds.get ⟨idx, hidx⟩) with
        | none =>
          rw [he] at hm
          simp at hm
        | some e =>
          rw [he] at hm
          simp only at hm
          by_cases hf : e.flags = EdgeFlag.fallthru
          · rw [if_pos hf] at hm
            exact ih _ _ _ _ _ _ _ _ _ _ _ hm h
          · rw [if_neg hf] at hm
            exact ih _ _ _ _ _ _ _ _ _ _ _ hm (cfgInv_attachEdgeDst h)
      · rw [dif_neg hidx] at hm
        have h1 : c = c2 := congrArg Prod.fst (Option.some_inj.mp hm)
        rw [← h1]
        exact h

theorem cfgInv_mergeEmpty {c : CFG} {i : Nat} {ch : Bool} {c2 : CFG}
    {ch2 : Bool} (hm : mergeEmpty c i ch = some (c2, ch2))
    (h : cfgInv c) : cfgInv c2 := by
  simp only [mergeEmpty] at hm
  cases hb : getBlock c i with
  | none =>
    rw [hb] at hm
    simp at hm
  | some blk =>
    rw [hb] at hm
    simp only at hm
    cases hs : blk.succs.head? with
    | none =>
      rw [hs] at hm
      simp at hm
    | some succEid =>
      rw [hs] at hm
      simp only at hm
      cases he : getEdge c succEid with
      | none =>
        rw [he] at hm
        simp at hm
      | some succE =>
        rw [he] at hm
        simp only at hm
        cases hml : mergeLoop (blk.preds.length + 1)
            (mergeLabels (c.labelInfo.length + 1) c succE.dst blk.label)
            i succE.dst 0 none ch none with
        | none =>
          rw [hml] at hm
          simp at hm
        | some r =>
          obtain ⟨c3, ft, ch3, pe⟩ := r
          rw [hml] at hm
          simp only at hm
          have hc3 : cfgInv c3 :=
            cfgInv_mergeLoop _ _ _ _ _ _ _ _ _ _ _ _ hml
              (cfgInv_mergeLabels _ _ _ _ h)
          cases ft with
          | some ftEid =>
            simp only at hm
            cases hse : getEdge c3 succEid with
            | none =>
              rw [hse] at hm
              simp at hm
            | some sE =>
              rw [hse] at hm
              simp only at hm
              by_cases hf : sE.flags = EdgeFlag.fallthru
              · rw [if_pos hf] at hm
                cases pe with
                | none => simp at hm
                | some peEid =>
                  simp only [Option.some_inj] at hm
                  have h1 := congrArg Prod.fst hm
                  simp only at h1
                  rw [← h1]
                  exact cfgInv_deleteBlock (cfgInv_detachBlock
                    (cfgInv_removeEdge (cfgInv_detachEdgeDst
                      (cfgInv_attachEdgeDst hc3))))
              · rw [if_neg hf] at hm
                cases hb2 : getBlock c3 i with
                | none =>
                  rw [hb2] at hm
                  simp at hm
                | some blk2 =>
                  rw [hb2] at hm
                  simp only at hm
                  by_cases hp : blk2.preds.length > 1
                  · rw [if_pos hp] at hm
                    simp only [Option.some_inj] at hm
                    have h1 := congrArg Prod.fst hm
                    simp only at h1
                    rw [← h1]
                    exact cfgInv_modifyBlock (fun b x hx => hx)
                      (fun b hb3 => hb3) hc3
                  · rw [if_neg hp] at hm
                    simp only [Option.some_inj] at hm
                    have h1 := congrArg Prod.fst hm
                    simp only at h1
                    rw [← h1]
                    exact hc3
          | none =>
            simp only [Option.some_inj] at hm
            have h1 := congrArg Prod.fst hm
            simp only at h1
            rw [← h1]
            exact cfgInv_deleteBlock (cfgInv_detachBlock
              (cfgInv_removeEdge (cfgInv_detachEdgeDst hc3)))

theorem cfgInv_eliminateBlock {c : CFG} {i : Nat}
    (h : cfgInv c) : cfgInv (eliminateBlock c i) := by
  rw [eliminateBlock]
  cases getBlock c i with
  | none => exact h
  | some blk =>
    have hstep1 : ∀ (l : List Nat) (d : CFG), cfgInv d →
        cfgInv (l.foldl (fun c e => removeEdge (detachEdgeDst c e) e) d) := by
      intro l
      induction l with
      | nil =>
        intro d hd
        exact hd
      | cons x t ih =>
        intro d hd
        exact ih _ (cfgInv_removeEdge (cfgInv_detachEdgeDst hd))
    have hstep2 : ∀ (l : List Nat) (d : CFG), cfgInv d →
        cfgInv (l.foldl (fun c e => removeEdge (detachEdgeSrc c e) e) d) := by
      intro l
      induction l with
      | nil =>
        intro d hd
        exact hd
      | cons x t ih =>
        intro d hd
        exact ih _ (cfgInv_removeEdge (cfgInv_detachEdgeSrc hd))
    exact cfgInv_deleteBlock (hstep2 _ _ (hstep1 _ _ (cfgInv_detachBlock h)))

theorem cfgInv_eliminateUnreachable {c : CFG}
    (h : cfgInv c) : cfgInv (eliminateUnreachable c) := by
  rw [eliminateUnreachable]
  have hone : ∀ (d : CFG) (x : Nat), cfgInv d →
      cfgInv (match getBlock d x with
        | none => d
        | some blk =>
          if blk.visited = true then
            modifyBlock d x (fun b => { b with visited := false })
          else eliminateBlock d x) := by
    intro d x hd
    cases hg : getBlock d x with
    | none => exact hd
    | some blk =>
      show cfgInv (if blk.visited = true then
        modifyBlock d x (fun b => { b with visited := false })
        else eliminateBlock d x)
      by_cases hv : blk.visited = true
      · rw [if_pos hv]
        exact cfgInv_modifyBlock (fun b y hy => hy) (fun b hb2 => hb2) hd
      · rw [if_neg hv]
        exact cfgInv_eliminateBlock hd
  have hgen : ∀ (l : List Nat) (d : CFG), cfgInv d →
      cfgInv (l.foldl (fun c i =>
        match getBlock c i with
        | none => c
        | some blk =>
          if blk.visited then
            modifyBlock c i (fun b => { b with visited := false })
          else eliminateBlock c i) d) := by
    intro l
    induction l with
    | nil =>
      intro d hd
      exact hd
    | cons x t ih =>
      intro d hd
      exact ih _ (hone d x hd)
  exact hgen _ _ h

theorem cfgInv_clearVisited {c : CFG}
    (h : cfgInv c) : cfgInv (clearVisited c) := by
  rw [clearVisited]
  have hgen : ∀ (l : List Nat) (d : CFG), cfgInv d →
      cfgInv (l.foldl (fun c i =>
        modifyBlock c i (fun b => { b with visited := false })) d) := by
    intro l
    induction l with
    | nil =>
      intro d hd
      exact hd
    | cons x t ih =>
      intro d hd
      exact ih _ (cfgInv_modifyBlock (fun b y hy => hy)
        (fun b hb2 => hb2) hd)
  exact hgen _ _ h

theorem cfgInv_poLoop :
    ∀ (fuel : Nat) (c : CFG) (stack : List (Nat × Nat)) (acc : List Nat)
      (c2 : CFG) (acc2 : List Nat),
      poLoop fuel c stack acc = some (c2, acc2) → cfgInv c → cfgInv c2 := by
  intro fuel
  induction fuel with
  | zero =>
    intro c stack acc c2 acc2 hm h
    exact Option.noConfusion hm
  | succ fuel ih =>
    intro c stack acc c2 acc2 hm h
    cases stack with
    | nil =>
      simp only [poLoop, Option.some_inj] at hm
      have h1 : c = c2 := congrArg Prod.fst hm
      rw [← h1]
      exact h
    | cons f rest =>
      obtain ⟨bl, idx⟩ := f
      simp only [poLoop] at hm
      cases hb : getBlock c bl with
      | none =>
        rw [hb] at hm
        simp at hm
      | some blk =>
        rw [hb] at hm
        simp only at hm
        by_cases hlen : idx = blk.succs.length
        · rw [if_pos hlen] at hm
          exact ih _ _ _ _ _ hm h
        · rw [if_neg hlen] at hm
          cases hg : blk.succs.get? idx with
          | none =>
            rw [hg] at hm
            simp at hm
          | some eid =>
            rw [hg] at hm
            simp only at hm
            cases he : getEdge c eid with
            | none =>
              rw [he] at hm
              simp at hm
            | some e =>
              rw [he] at hm
              simp only at hm
              cases hd : getBlock c e.dst with
              | none =>
                rw [hd] at hm
                simp at hm
              | some dblk =>
                rw [hd] at hm
                simp only at hm
                by_cases hv : dblk.visited = true
                · rw [if_pos hv] at hm
                  exact ih _ _ _ _ _ hm h
                · rw [if_neg hv] at hm
                  exact ih _ _ _ _ _ hm (cfgInv_setVisited h)

theorem cfgInv_computePostorder {c c1 : CFG}
    (hm : computePostorder c = some c1) (h : cfgInv c) : cfgInv c1 := by
  simp only [computePostorder] at hm
  cases hb : getBlock c c.entryId with
  | none =>
    rw [hb] at hm
    simp at hm
  | some b =>
    rw [hb] at hm
    simp only at hm
    cases hpl : poLoop (poFuelOf (setVisited c c.entryId))
        (setVisited c c.entryId) [(c.entryId, 0)] [] with
    | none =>
      rw [hpl] at hm
      simp at hm
    | some r =>
      obtain ⟨c2, order⟩ := r
      rw [hpl] at hm
      simp only [Option.some_inj] at hm
      have h2 : cfgInv c2 := cfgInv_poLoop _ _ _ _ _ _ hpl (cfgInv_setVisited h)
      rw [← hm]
      exact h2


theorem detachEdgeSrc_none {c : CFG} {e : Nat} (h : getEdge c e = none) :
    detachEdgeSrc c e = c := by
  rw [detachEdgeSrc, h]

theorem detachEdgeSrc_some {c : CFG} {e : Nat} {ed : Edge}
    (h : getEdge c e = some ed) :
    detachEdgeSrc c e =
      modifyBlock c ed.src (fun b => { b with succs := b.succs.erase e }) := by
  rw [detachEdgeSrc, h]

theorem detachEdgeDst_none {c : CFG} {e : Nat} (h : getEdge c e = none) :
    detachEdgeDst c e = c := by
  rw [detachEdgeDst, h]

theorem detachEdgeDst_some {c : CFG} {e : Nat} {ed : Edge}
    (h : getEdge c e = some ed) :
    detachEdgeDst c e =
      modifyBlock c ed.dst (fun b => { b with preds := b.preds.erase e }) := by
  rw [detachEdgeDst, h]

theorem getEdge_detachEdgeSrc (c : CFG) (e x : Nat) :
    getEdge (detachEdgeSrc c e) x = getEdge c x := by
  rw [detachEdgeSrc]
  cases getEdge c e with
  | none => rfl
  | some ed => rw [getEdge_modifyBlock]

theorem getEdge_detachEdgeDst (c : CFG) (e x : Nat) :
    getEdge (detachEdgeDst c e) x = getEdge c x := by
  rw [detachEdgeDst]
  cases getEdge c e with
  | none => rfl
  | some ed => rw [getEdge_modifyBlock]

theorem keysNodup_removeEdge {c : CFG} {e : Nat}
    (h : keysNodup c) : keysNodup (removeEdge c e) :=
  h

theorem keysNodup_detachEdgeSrc {c : CFG} {e : Nat}
    (h : keysNodup c) : keysNodup (detachEdgeSrc c e) := by
  rw [detachEdgeSrc]
  cases getEdge c e with
  | none => exact h
  | some ed => exact keysNodup_modifyBlock h

theorem keysNodup_detachEdgeDst {c : CFG} {e : Nat}
    (h : keysNodup c) : keysNodup (detachEdgeDst c e) := by
  rw [detachEdgeDst]
  cases getEdge c e with
  | none => exact h
  | some ed => exact keysNodup_modifyBlock h

theorem keysNodup_deleteEdge {c : CFG} {e : Nat}
    (h : keysNodup c) : keysNodup (deleteEdge c e) :=
  keysNodup_removeEdge (keysNodup_detachEdgeDst (keysNodup_detachEdgeSrc h))

theorem ownedP_detachEdgeSrc {c : CFG} {e : Nat}
    (h : ownedP c) : ownedP (detachEdgeSrc c e) := by
  rw [detachEdgeSrc]
  cases getEdge c e with
  | none => exact h
  | some ed =>
    exact ownedP_modifyBlock (fun b x hx => List.mem_of_mem_erase hx) h

theorem ownedP_detachEdgeDst {c : CFG} {e : Nat}
    (h : ownedP c) : ownedP (detachEdgeDst c e) := by
  rw [detachEdgeDst]
  cases getEdge c e with
  | none => exact h
  | some ed => exact ownedP_modifyBlock (fun b x hx => hx) h

theorem ownedP_deleteEdge {c : CFG} {e : Nat}
    (h : ownedP c) : ownedP (deleteEdge c e) :=
  ownedP_removeEdge (ownedP_detachEdgeDst (ownedP_detachEdgeSrc h))

theorem ownedP_setLastOpcode {c : CFG} {i : Nat} {op : Opcode}
    (h : ownedP c) : ownedP (setLastOpcode c i op) := by
  rw [setLastOpcode]
  refine ownedP_modifyBlock ?_ h
  intro b x hx
  cases hg : b.insns.getLast? with
  | none =>
    simp only [hg] at hx
    exact hx
  | some last =>
    simp only [hg] at hx
    exact hx

theorem mem_of_headOpt {α : Type} {l : List α} {a : α}
    (h : l.head? = some a) : a ∈ l := by
  cases l with
  | nil => simp at h
  | cons x t =>
    simp only [List.head?_cons, Option.some_inj] at h
    rw [← h]
    exact List.mem_cons_self x t

theorem mem_of_two {α : Type} {l : List α} {a b : α}
    (h2 : l.length = 2) (hh : l.head? = some a) (hg : l.get? 1 = some b) :
    ∀ x ∈ l, x = a ∨ x = b := by
  cases l with
  | nil => simp at h2
  | cons p t =>
    cases t with
    | nil => simp at h2
    | cons q t2 =>
      cases t2 with
      | nil =>
        simp only [List.head?_cons, Option.some_inj] at hh
        have hq : q = b := by simpa using hg
        intro x hx
        rcases List.mem_cons.mp hx with h1 | h1
        · left
          rw [h1, hh]
        · right
          have : x = q := by simpa using h1
          rw [this, hq]
      | cons r t3 => simp at h2

theorem getBlock_setLastOpcode_props {c : CFG} {i : Nat} {op : Opcode}
    {j : Nat} {b : Block} (hg : getBlock (setLastOpcode c i op) j = some b) :
    ∃ b0, getBlock c j = some b0 ∧ b.succs = b0.succs ∧
      b.endsInDead = b0.endsInDead := by
  rw [setLastOpcode, getBlock_modifyBlock] at hg
  by_cases hj : j = i
  · rw [if_pos hj] at hg
    cases hgc : getBlock c j with
    | none =>
      rw [hgc] at hg
      simp at hg
    | some b0 =>
      rw [hgc] at hg
      simp only [Option.map_some', Option.some_inj] at hg
      subst hg
      refine ⟨b0, rfl, ?_, ?_⟩
      · cases b0.insns.getLast? <;> rfl
      · cases b0.insns.getLast? <;> rfl
  · rw [if_neg hj] at hg
    exact ⟨b, hg, rfl, rfl⟩

theorem cfgInv_rule1 {c : CFG} {i e0id : Nat} {blk0 : Block} {e0 : Edge}
    (hb : getBlock c i = some blk0) (hhd : blk0.succs.head? = some e0id)
    (he : getEdge c e0id = some e0) (h : cfgInv c) :
    cfgInv (modifyEdge (modifyBlock (setLastOpcode c i Opcode.nop) i
      (fun b => { b with endsInDead := false })) e0id
      (fun e => { e with flags := EdgeFlag.fallthru })) := by
  have hmem : (i, blk0) ∈ c.blocks := lookup_mem hb
  have he0mem : e0id ∈ blk0.succs := mem_of_headOpt hhd
  have hsrc : e0.src = i := h.2.2 (i, blk0) hmem e0id he0mem e0 he
  have hA : cfgInv (modifyBlock (setLastOpcode c i Opcode.nop) i
      (fun b => { b with endsInDead := false })) :=
    cfgInv_modifyBlock (fun b x hx => hx)
      (fun b hb2 => absurd hb2 Bool.false_ne_true)
      (cfgInv_setLastOpcode h)
  refine ⟨hA.1, ?_, ownedP_modifyEdge (fun ed => rfl) hA.2.2⟩
  intro p hp hpd eid heid ed hed
  have hp2 : p ∈ (modifyBlock (setLastOpcode c i Opcode.nop) i
      (fun b => { b with endsInDead := false })).blocks := hp
  rw [getEdge_modifyEdge] at hed
  by_cases heq : eid = e0id
  · exfalso
    subst heq
    have heA : getEdge (modifyBlock (setLastOpcode c i Opcode.nop) i
        (fun b => { b with endsInDead := false })) eid = some e0 := he
    have hown : e0.src = p.1 := hA.2.2 p hp2 eid heid e0 heA
    have hpi : p.1 = i := by rw [← hown, hsrc]
    obtain ⟨q, hq, hpq⟩ := mem_modifyBlock hp2
    subst hpq
    by_cases hqi : q.1 = i
    · rw [if_pos hqi] at hpd
      exact Bool.false_ne_true hpd
    · rw [if_neg hqi] at hpi
      exact hqi hpi
  · rw [if_neg heq] at hed
    exact hA.2.1 p hp2 hpd eid heid ed hed

theorem cfgInv_rule2 {c : CFG} {i e0id e1id : Nat} {blk0 : Block} {e0 : Edge}
    (hb : getBlock c i = some blk0)
    (hlen : blk0.succs.length = 2)
    (hhd : blk0.succs.head? = some e0id)
    (he : getEdge c e0id = some e0)
    (hfl : e0.flags = EdgeFlag.branch)
    (hg1 : blk0.succs.get? 1 = some e1id)
    (h : cfgInv c) :
    cfgInv (deleteEdge (modifyBlock (setLastOpcode c i Opcode.br) i
      (fun b => { b with endsInDead := true })) e1id) := by
  have hmem : (i, blk0) ∈ c.blocks := lookup_mem hb
  have hmem1 : e1id ∈ blk0.succs := List.get?_mem hg1
  have hknd : keysNodup (deleteEdge (modifyBlock (setLastOpcode c i Opcode.br)
      i (fun b => { b with endsInDead := true })) e1id) :=
    keysNodup_deleteEdge (keysNodup_modifyBlock (keysNodup_modifyBlock h.1))
  have hown : ownedP (deleteEdge (modifyBlock (setLastOpcode c i Opcode.br)
      i (fun b => { b with endsInDead := true })) e1id) :=
    ownedP_deleteEdge (ownedP_modifyBlock (fun b x hx => hx)
      (ownedP_setLastOpcode h.2.2))
  refine ⟨hknd, ?_, hown⟩
  intro p hp hpd eid heid ed hed
  have hgbp : getBlock (deleteEdge (modifyBlock (setLastOpcode c i Opcode.br)
      i (fun b => { b with endsInDead := true })) e1id) p.1 = some p.2 :=
    lookup_of_mem_nodup hknd hp
  rw [deleteEdge, getEdge_removeEdge] at hed
  by_cases heq1 : eid = e1id
  · rw [if_pos heq1] at hed
    exact Option.noConfusion hed
  · rw [if_neg heq1, getEdge_detachEdgeDst, getEdge_detachEdgeSrc] at hed
    have hedc : getEdge c eid = some ed := hed
    rw [deleteEdge, getBlock_removeEdge] at hgbp
    cases hE1 : getEdge c e1id with
    | none =>
      have hE1B : getEdge (modifyBlock (setLastOpcode c i Opcode.br) i
          (fun b => { b with endsInDead := true })) e1id = none := hE1
      rw [detachEdgeSrc_none hE1B, detachEdgeDst_none hE1B,
        getBlock_modifyBlock] at hgbp
      by_cases hpi : p.1 = i
      · rw [if_pos hpi] at hgbp
        cases hgs : getBlock (setLastOpcode c i Opcode.br) p.1 with
        | none =>
          rw [hgs] at hgbp
          exact Option.noConfusion hgbp
        | some bS =>
          rw [hgs] at hgbp
          simp only [Option.map_some', Option.some_inj] at hgbp
          obtain ⟨b0, hgb0, hsuccS, hdeadS⟩ := getBlock_setLastOpcode_props hgs
          rw [hpi, hb] at hgb0
          have hbb : blk0 = b0 := Option.some_inj.mp hgb0
          have heid2 : eid ∈ blk0.succs := by
            rw [← hgbp] at heid
            have h1 : eid ∈ bS.succs := heid
            rw [hsuccS, ← hbb] at h1
            exact h1
          rcases mem_of_two hlen hhd hg1 eid heid2 with h0 | h1
          · subst h0
            rw [he] at hedc
            have hee : e0 = ed := Option.some_inj.mp hedc
            rw [← hee, hfl]
            decide
          · exact absurd h1 heq1
      · rw [if_neg hpi] at hgbp
        obtain ⟨b0, hgb0, hsuccS, hdeadS⟩ := getBlock_setLastOpcode_props hgbp
        refine h.2.1 (p.1, b0) (lookup_mem hgb0) ?_ eid ?_ ed hedc
        · show b0.endsInDead = true
          rw [← hdeadS]
          exact hpd
        · show eid ∈ b0.succs
          rw [← hsuccS]
          exact heid
    | some e1 =>
      have hsrc1 : e1.src = i := h.2.2 (i, blk0) hmem e1id hmem1 e1 hE1
      have hE1B : getEdge (modifyBlock (setLastOpcode c i Opcode.br) i
          (fun b => { b with endsInDead := true })) e1id = some e1 := hE1
      rw [detachEdgeSrc_some hE1B] at hgbp
      have hE1C : getEdge (modifyBlock (modifyBlock (setLastOpcode c i
          Opcode.br) i (fun b => { b with endsInDead := true })) e1.src
          (fun b => { b with succs := b.succs.erase e1id })) e1id =
          some e1 := hE1
      rw [detachEdgeDst_some hE1C, getBlock_modifyBlock] at hgbp
      have hM1 : ∃ bM, getBlock (modifyBlock (modifyBlock (setLastOpcode c i
          Opcode.br) i (fun b => { b with endsInDead := true })) e1.src
          (fun b => { b with succs := b.succs.erase e1id })) p.1 = some bM ∧
          p.2.succs = bM.succs ∧ p.2.endsInDead = bM.endsInDead := by
        by_cases hpd1 : p.1 = e1.dst
        · rw [if_pos hpd1] at hgbp
          cases hgm : getBlock (modifyBlock (modifyBlock (setLastOpcode c i
              Opcode.br) i (fun b => { b with endsInDead := true })) e1.src
              (fun b => { b with succs := b.succs.erase e1id })) p.1 with
          | none =>
            rw [hgm] at hgbp
            exact Option.noConfusion hgbp
          | some bM =>
            rw [hgm] at hgbp
            simp only [Option.map_some', Option.some_inj] at hgbp
            refine ⟨bM, rfl, ?_, ?_⟩
            · rw [← hgbp]
            · rw [← hgbp]
        · rw [if_neg hpd1] at hgbp
          exact ⟨p.2, hgbp, rfl, rfl⟩
      obtain ⟨bM, hgm, hsuccM, hdeadM⟩ := hM1
      rw [hsrc1, getBlock_modifyBlock] at hgm
      by_cases hpi : p.1 = i
      · rw [if_pos hpi] at hgm
        cases hgB : getBlock (modifyBlock (setLastOpcode c i Opcode.br) i
            (fun b => { b with endsInDead := true })) p.1 with
        | none =>
          rw [hgB] at hgm
          exact Option.noConfusion hgm
        | some bB =>
          rw [hgB] at hgm
          simp only [Option.map_some', Option.some_inj] at hgm
          rw [hpi, getBlock_modifyBlock, if_pos rfl] at hgB
          cases hgs : getBlock (setLastOpcode c i Opcode.br) i with
          | none =>
            rw [hgs] at hgB
            exact Option.noConfusion hgB
          | some bS =>
            rw [hgs] at hgB
            simp only [Option.map_some', Option.some_inj] at hgB
            obtain ⟨b0, hgb0, hsuccS, hdeadS⟩ :=
              getBlock_setLastOpcode_props hgs
            rw [hb] at hgb0
            have hbb : blk0 = b0 := Option.some_inj.mp hgb0
            have heid2 : eid ∈ blk0.succs := by
              rw [hsuccM, ← hgm] at heid
              have h1 : eid ∈ bB.succs.erase e1id := heid
              have h2 : eid ∈ bB.succs := List.mem_of_mem_erase h1
              rw [← hgB] at h2
              have h3 : eid ∈ bS.succs := h2
              rw [hsuccS, ← hbb] at h3
              exact h3
            rcases mem_of_two hlen hhd hg1 eid heid2 with h0 | h1
            · subst h0
              rw [he] at hedc
              have hee : e0 = ed := Option.some_inj.mp hedc
              rw [← hee, hfl]
              decide
            · exact absurd h1 heq1
      · rw [if_neg hpi] at hgm
        rw [getBlock_modifyBlock, if_neg hpi] at hgm
        obtain ⟨b0, hgb0, hsuccS, hdeadS⟩ := getBlock_setLastOpcode_props hgm
        refine h.2.1 (p.1, b0) (lookup_mem hgb0) ?_ eid ?_ ed hedc
        · show b0.endsInDead = true
          rw [← hdeadS, ← hdeadM]
          exact hpd
        · show eid ∈ b0.succs
          rw [← hsuccS, ← hsuccM]
          exact heid


theorem cfgInv_mergeCheckAux {cx : CFG} {i : Nat} {chx : Bool} {c2 : CFG}
    {ch2 : Bool}
    (hm : (match getBlock cx i with
      | none => none
      | some blk1 =>
        match blk1.succs.head? with
        | none => some (cx, chx)
        | some se =>
          match getEdge cx se with
          | none => none
          | some sed =>
            if blk1.succs.length = 1 ∧
                (sed.flags = EdgeFlag.branch ∨
                  sed.flags = EdgeFlag.fallthru) then
              if isEmptyBlock blk1 then mergeEmpty cx i chx
              else some (cx, chx)
            else some (cx, chx)) = some (c2, ch2))
    (h : cfgInv cx) : cfgInv c2 := by
  cases hb1 : getBlock cx i with
  | none =>
    rw [hb1] at hm
    exact Option.noConfusion hm
  | some blk1 =>
    rw [hb1] at hm
    simp only at hm
    cases hh1 : blk1.succs.head? with
    | none =>
      rw [hh1] at hm
      simp only [Option.some_inj] at hm
      have h1 : cx = c2 := congrArg Prod.fst hm
      rw [← h1]
      exact h
    | some se =>
      rw [hh1] at hm
      simp only at hm
      cases hse : getEdge cx se with
      | none =>
        rw [hse] at hm
        exact Option.noConfusion hm
      | some sed =>
        rw [hse] at hm
        simp only at hm
        by_cases hc1 : blk1.succs.length = 1 ∧
            (sed.flags = EdgeFlag.branch ∨ sed.flags = EdgeFlag.fallthru)
        · rw [if_pos hc1] at hm
          by_cases hc2 : isEmptyBlock blk1 = true
          · rw [if_pos hc2] at hm
            exact cfgInv_mergeEmpty hm h
          · rw [if_neg hc2] at hm
            simp only [Option.some_inj] at hm
            have h1 : cx = c2 := congrArg Prod.fst hm
            rw [← h1]
            exact h
        · rw [if_neg hc1] at hm
          simp only [Option.some_inj] at hm
          have h1 : cx = c2 := congrArg Prod.fst hm
          rw [← h1]
          exact h

theorem cfgInv_phase2Block {c : CFG} {i : Nat} {ch : Bool} {c2 : CFG}
    {ch2 : Bool} (hm : phase2Block c i ch = some (c2, ch2))
    (h : cfgInv c) : cfgInv c2 := by
  simp only [phase2Block] at hm
  cases hb0 : getBlock c i with
  | none =>
    rw [hb0] at hm
    exact Option.noConfusion hm
  | some blk0 =>
    rw [hb0] at hm
    simp only at hm
    by_cases h0 : blk0.succs.length = 0
    · rw [if_pos h0] at hm
      simp only [Option.some_inj] at hm
      have h1 : c = c2 := congrArg Prod.fst hm
      rw [← h1]
      exact h
    · rw [if_neg h0] at hm
      cases hhd : blk0.succs.head? with
      | none =>
        rw [hhd] at hm
        exact Option.noConfusion hm
      | some e0id =>
        rw [hhd] at hm
        simp only at hm
        cases he0 : getEdge c e0id with
        | none =>
          rw [he0] at hm
          exact Option.noConfusion hm
        | some e0 =>
          rw [he0] at hm
          simp only at hm
          by_cases hbr : e0.flags = EdgeFlag.branch
          · rw [if_pos hbr] at hm
            by_cases hnext : some e0.dst = listNext c i
            · rw [if_pos hnext] at hm
              cases hgl : getLastInsn blk0 with
              | none =>
                rw [hgl] at hm
                exact Option.noConfusion hm
              | some ins =>
                rw [hgl] at hm
                simp only at hm
                by_cases hl1 : blk0.succs.length = 1
                · rw [if_pos hl1] at hm
                  simp only at hm
                  exact cfgInv_mergeCheckAux hm (cfgInv_rule1 hb0 hhd he0 h)
                · rw [if_neg hl1] at hm
                  simp only at hm
                  exact cfgInv_mergeCheckAux hm
                    (cfgInv_deleteEdge (cfgInv_setLastOpcode h))
            · rw [if_neg hnext] at hm
              cases hln : listNext c i with
              | none =>
                rw [hln] at hm
                simp only at hm
                exact cfgInv_mergeCheckAux hm h
              | some n =>
                rw [hln] at hm
                simp only at hm
                cases hgn : getBlock c n with
                | none =>
                  rw [hgn] at hm
                  exact Option.noConfusion hm
                | some nblk =>
                  rw [hgn] at hm
                  simp only at hm
                  cases hnh : nblk.succs.head? with
                  | none =>
                    rw [hnh] at hm
                    simp only at hm
                    exact cfgInv_mergeCheckAux hm h
                  | some neid =>
                    rw [hnh] at hm
                    simp only at hm
                    cases hne : getEdge c neid with
                    | none =>
                      rw [hne] at hm
                      exact Option.noConfusion hm
                    | some ne2 =>
                      rw [hne] at hm
                      simp only at hm
                      by_cases hgd : blk0.succs.length = 2 ∧
                          nblk.succs.length = 1 ∧
                          ne2.flags = EdgeFlag.branch ∧ e0.dst = ne2.dst ∧
                          isEmptyBlock nblk = true
                      · rw [if_pos hgd] at hm
                        cases hgl : getLastInsn blk0 with
                        | none =>
                          rw [hgl] at hm
                          exact Option.noConfusion hm
                        | some ins =>
                          rw [hgl] at hm
                          simp only at hm
                          cases hg1 : blk0.succs.get? 1 with
                          | none =>
                            rw [hg1] at hm
                            exact Option.noConfusion hm
                          | some e1id =>
                            rw [hg1] at hm
                            simp only at hm
                            exact cfgInv_mergeCheckAux hm
                              (cfgInv_rule2 hb0 hgd.1 hhd he0 hbr hg1 h)
                      · rw [if_neg hgd] at hm
                        simp only at hm
                        exact cfgInv_mergeCheckAux hm h
          · rw [if_neg hbr] at hm
            simp only at hm
            exact cfgInv_mergeCheckAux hm h


theorem cfgInv_phase2Pass {c c1 : CFG} {ch : Bool}
    (hm : phase2Pass c = some (c1, ch)) (h : cfgInv c) : cfgInv c1 := by
  rw [phase2Pass] at hm
  have hgen : ∀ (l : List Nat) (a : CFG × Bool), cfgInv a.1 →
      l.foldlM (fun (acc : CFG × Bool) i => phase2Block acc.1 i acc.2) a =
        some (c1, ch) → cfgInv c1 := by
    intro l
    induction l with
    | nil =>
      intro a ha hfold
      have h1 : a = (c1, ch) := Option.some_inj.mp hfold
      have h2 : a.1 = c1 := congrArg Prod.fst h1
      rw [← h2]
      exact ha
    | cons x t ih =>
      intro a ha hfold
      simp only [List.foldlM_cons] at hfold
      cases hpb : phase2Block a.1 x a.2 with
      | none =>
        rw [hpb] at hfold
        simp at hfold
      | some b2 =>
        rw [hpb] at hfold
        simp only [Option.bind_eq_bind, Option.some_bind] at hfold
        obtain ⟨cb, chb⟩ := b2
        exact ih (cb, chb) (cfgInv_phase2Block hpb ha) hfold
  exact hgen _ _ h hm

theorem cfgInv_cleanLoop :
    ∀ (fuel : Nat) (c c2 : CFG), cleanLoop fuel c = some c2 →
      cfgInv c → cfgInv c2 := by
  intro fuel
  induction fuel with
  | zero =>
    intro c c2 hm h
    exact Option.noConfusion hm
  | succ fuel ih =>
    intro c c2 hm h
    simp only [cleanLoop] at hm
    cases hpp : phase2Pass c with
    | none =>
      rw [hpp] at hm
      exact Option.noConfusion hm
    | some r =>
      obtain ⟨cA, changed⟩ := r
      rw [hpp] at hm
      simp only at hm
      by_cases hch : changed = true
      · rw [if_pos hch] at hm
        cases hcp : computePostorder cA with
        | none =>
          rw [hcp] at hm
          exact Option.noConfusion hm
        | some c3 =>
          rw [hcp] at hm
          simp only at hm
          exact ih _ _ hm (cfgInv_clearVisited
            (cfgInv_computePostorder hcp (cfgInv_phase2Pass hpp h)))
      · rw [if_neg hch] at hm
        have h1 := Option.some_inj.mp hm
        rw [← h1]
        exact cfgInv_phase2Pass hpp h

theorem cfgInv_cleanCFG {c c2 : CFG} {fuel : Nat}
    (hm : cleanCFG fuel c = some c2) (h : cfgInv c) : cfgInv c2 := by
  simp only [cleanCFG] at hm
  cases hcp : computePostorder c with
  | none =>
    rw [hcp] at hm
    exact Option.noConfusion hm
  | some c1 =>
    rw [hcp] at hm
    simp only at hm
    exact cfgInv_cleanLoop _ _ _ hm
      (cfgInv_eliminateUnreachable (cfgInv_computePostorder hcp h))


theorem lookup_append_some {α : Type} {l1 : List (Nat × α)} {k : Nat}
    {v : α} (l2 : List (Nat × α)) (h : l1.lookup k = some v) :
    (l1 ++ l2).lookup k = some v := by
  induction l1 with
  | nil => simp [List.lookup] at h
  | cons hd t ih =>
    obtain ⟨a, b⟩ := hd
    by_cases hk : k = a
    · subst hk
      simp only [List.lookup_cons, beq_self_eq_true, if_pos] at h
      simp only [List.cons_append, List.lookup_cons]
      simp [h]
    · rw [List.lookup_cons, beq_false_of_ne hk] at h
      rw [List.cons_append, List.lookup_cons, beq_false_of_ne hk]
      exact ih h

theorem lookup_append_none {α : Type} {l1 : List (Nat × α)} {k : Nat}
    (l2 : List (Nat × α)) (h : l1.lookup k = none) :
    (l1 ++ l2).lookup k = l2.lookup k := by
  induction l1 with
  | nil => rfl
  | cons hd t ih =>
    obtain ⟨a, b⟩ := hd
    by_cases hk : k = a
    · subst hk
      simp [List.lookup_cons] at h
    · rw [List.lookup_cons, beq_false_of_ne hk] at h
      rw [List.cons_append, List.lookup_cons, beq_false_of_ne hk]
      exact ih h

theorem getEdge_addEdge_old {c : CFG} {s d : Nat} {f : EdgeFlag} {k : Nat}
    {e : Edge} (h : getEdge c k = some e) :
    getEdge (addEdge c s d f) k = some e := by
  show (c.edges ++ [(c.nextEdge, (⟨s, d, f⟩ : Edge))]).lookup k = some e
  exact lookup_append_some _ h

theorem getEdge_addEdge_ne {c : CFG} {s d : Nat} {f : EdgeFlag} {k : Nat}
    (hk : k ≠ c.nextEdge) : getEdge (addEdge c s d f) k = getEdge c k := by
  show (c.edges ++ [(c.nextEdge, (⟨s, d, f⟩ : Edge))]).lookup k = getEdge c k
  rw [show getEdge c k = c.edges.lookup k from rfl]
  cases hl : c.edges.lookup k with
  | some e => exact lookup_append_some _ hl
  | none =>
    rw [lookup_append_none _ hl]
    simp [List.lookup_cons, List.lookup, beq_false_of_ne hk]

theorem getEdge_addEdge_new {c : CFG} {s d : Nat} {f : EdgeFlag}
    (hbound : ∀ q ∈ c.edges, q.1 < c.nextEdge) :
    getEdge (addEdge c s d f) c.nextEdge = some ⟨s, d, f⟩ := by
  show (c.edges ++ [(c.nextEdge, (⟨s, d, f⟩ : Edge))]).lookup c.nextEdge =
    some ⟨s, d, f⟩
  have h1 : c.edges.lookup c.nextEdge = none := by
    cases hl : c.edges.lookup c.nextEdge with
    | none => rfl
    | some e =>
      have h2 := hbound _ (lookup_mem hl)
      exact absurd h2 (lt_irrefl _)
  rw [lookup_append_none _ h1]
  simp [List.lookup_cons]

theorem getBlock_addEdge {c : CFG} {s d : Nat} {f : EdgeFlag} (j : Nat) :
    getBlock (addEdge c s d f) j =
      if j = d then
        ((if j = s then
            (getBlock c j).map
              (fun b => { b with succs := b.succs ++ [c.nextEdge] })
          else getBlock c j).map
          (fun b => { b with preds := b.preds ++ [c.nextEdge] }))
      else
        (if j = s then
          (getBlock c j).map
            (fun b => { b with succs := b.succs ++ [c.nextEdge] })
        else getBlock c j) := by
  have h1 : getBlock (addEdge c s d f) j = getBlock (modifyBlock (modifyBlock
      { c with edges := c.edges ++ [(c.nextEdge, ⟨s, d, f⟩)],
               nextEdge := c.nextEdge + 1 } s
      (fun b => { b with succs := b.succs ++ [c.nextEdge] })) d
      (fun b => { b with preds := b.preds ++ [c.nextEdge] })) j := rfl
  rw [h1, getBlock_modifyBlock, getBlock_modifyBlock]
  rfl

theorem addEdge_live (c : CFG) (s d : Nat) (f : EdgeFlag) :
    (addEdge c s d f).live = c.live := rfl

theorem mem_addEdge {c : CFG} {s d : Nat} {f : EdgeFlag} {p : Nat × Block}
    (hp : p ∈ (addEdge c s d f).blocks) :
    ∃ q ∈ c.blocks, p.1 = q.1 ∧ p.2.endsInDead = q.2.endsInDead ∧
      (p.2.succs = q.2.succs ∨
        (q.1 = s ∧ p.2.succs = q.2.succs ++ [c.nextEdge])) := by
  have hp1 : p ∈ (modifyBlock (modifyBlock
      { c with edges := c.edges ++ [(c.nextEdge, ⟨s, d, f⟩)],
               nextEdge := c.nextEdge + 1 } s
      (fun b => { b with succs := b.succs ++ [c.nextEdge] })) d
      (fun b => { b with preds := b.preds ++ [c.nextEdge] })).blocks := hp
  obtain ⟨q1, hq1, hpq1⟩ := mem_modifyBlock hp1
  obtain ⟨q0, hq0, hpq0⟩ := mem_modifyBlock hq1
  have hq0c : q0 ∈ c.blocks := hq0
  refine ⟨q0, hq0c, ?_⟩
  subst hpq0
  subst hpq1
  by_cases hq0s : q0.1 = s
  · rw [if_pos hq0s]
    by_cases hqd : ((q0.1, { q0.2 with succs := q0.2.succs ++
        [c.nextEdge] }) : Nat × Block).1 = d
    · rw [if_pos hqd]
      exact ⟨rfl, rfl, Or.inr ⟨hq0s, rfl⟩⟩
    · rw [if_neg hqd]
      exact ⟨rfl, rfl, Or.inr ⟨hq0s, rfl⟩⟩
  · rw [if_neg hq0s]
    by_cases hqd : q0.1 = d
    · rw [if_pos hqd]
      exact ⟨rfl, rfl, Or.inl rfl⟩
    · rw [if_neg hqd]
      exact ⟨rfl, rfl, Or.inl rfl⟩

theorem keysNodup_addEdge {c : CFG} {s d : Nat} {f : EdgeFlag}
    (h : keysNodup c) : keysNodup (addEdge c s d f) :=
  keysNodup_modifyBlock (keysNodup_modifyBlock h)

theorem getBlock_endsInDead_addEdge (c : CFG) (s d : Nat) (f : EdgeFlag)
    (j : Nat) : (getBlock (addEdge c s d f) j).map Block.endsInDead =
      (getBlock c j).map Block.endsInDead := by
  rw [getBlock_addEdge]
  cases hg : getBlock c j <;>
    by_cases hjd : j = d <;> by_cases hjs : j = s <;>
      simp [hjd, hjs] <;> split <;> simp

theorem fallthruFact_addEdge {c : CFG} {s d : Nat} {f : EdgeFlag} {j : Nat}
    (hf : fallthruFact c j) : fallthruFact (addEdge c s d f) j := by
  obtain ⟨b, hgb, eid, heid, ed, hged, hfl, hdst⟩ := hf
  rw [fallthruFact, getBlock_addEdge]
  by_cases hjd : j = d <;> by_cases hjs : j = s
  · rw [if_pos hjd, if_pos hjs, hgb]
    refine ⟨_, rfl, eid, ?_, ed, getEdge_addEdge_old hged, hfl, ?_⟩
    · exact List.mem_append_left _ heid
    · exact hdst
  · rw [if_pos hjd, if_neg hjs, hgb]
    refine ⟨_, rfl, eid, heid, ed, getEdge_addEdge_old hged, hfl, hdst⟩
  · rw [if_neg hjd, if_pos hjs, hgb]
    refine ⟨_, rfl, eid, ?_, ed, getEdge_addEdge_old hged, hfl, ?_⟩
    · exact List.mem_append_left _ heid
    · exact hdst
  · rw [if_neg hjd, if_neg hjs]
    exact ⟨b, hgb, eid, heid, ed, getEdge_addEdge_old hged, hfl, hdst⟩

theorem listNext_addEdge (c : CFG) (s d : Nat) (f : EdgeFlag) (j : Nat) :
    listNext (addEdge c s d f) j = listNext c j := rfl

theorem fallthruFact_addEdge_self {c : CFG} {i n : Nat}
    (hpb : ∀ q ∈ c.edges, q.1 < c.nextEdge)
    (hgb : (getBlock c i).isSome = true)
    (hln : listNext c i = some n) :
    fallthruFact (addEdge c i n EdgeFlag.fallthru) i := by
  cases hg : getBlock c i with
  | none =>
    rw [hg] at hgb
    simp at hgb
  | some b =>
    rw [fallthruFact, getBlock_addEdge]
    by_cases hin : i = n
    · rw [if_pos hin, if_pos rfl, hg]
      refine ⟨_, rfl, c.nextEdge, ?_, _, getEdge_addEdge_new hpb, rfl, ?_⟩
      · exact List.mem_append_right _ (List.mem_singleton.mpr rfl)
      · exact hln.symm
    · rw [if_neg hin, if_pos rfl, hg]
      refine ⟨_, rfl, c.nextEdge, ?_, _, getEdge_addEdge_new hpb, rfl, ?_⟩
      · exact List.mem_append_right _ (List.mem_singleton.mpr rfl)
      · exact hln.symm


theorem buildQ_addEdge {c : CFG} {s d : Nat} {f : EdgeFlag}
    (hnd : keysNodup c) (hde : deadEndP c) (how : ownedP c)
    (hpb : ∀ q ∈ c.edges, q.1 < c.nextEdge)
    (hsb : ∀ p ∈ c.blocks, ∀ eid ∈ p.2.succs, eid < c.nextEdge)
    (hdead : ∀ b, getBlock c s = some b → b.endsInDead = true →
      f ≠ EdgeFlag.fallthru) :
    keysNodup (addEdge c s d f) ∧ deadEndP (addEdge c s d f) ∧
      ownedP (addEdge c s d f) ∧
      (∀ q ∈ (addEdge c s d f).edges, q.1 < (addEdge c s d f).nextEdge) ∧
      (∀ p ∈ (addEdge c s d f).blocks, ∀ eid ∈ p.2.succs,
        eid < (addEdge c s d f).nextEdge) := by
  have hedges : (addEdge c s d f).edges =
    c.edges ++ [(c.nextEdge, ⟨s, d, f⟩)] := rfl
  have hnext : (addEdge c s d f).nextEdge = c.nextEdge + 1 := rfl
  refine ⟨keysNodup_addEdge hnd, ?_, ?_, ?_, ?_⟩
  · intro p hp hpd eid heid ed hed
    obtain ⟨q, hq, hpk, hpe, hps⟩ := mem_addEdge hp
    have hqd : q.2.endsInDead = true := by
      rw [← hpe]
      exact hpd
    rcases hps with hss | ⟨hqs, hss⟩
    · rw [hss] at heid
      have hlt : eid < c.nextEdge := hsb q hq eid heid
      rw [getEdge_addEdge_ne (Nat.ne_of_lt hlt)] at hed
      exact hde q hq hqd eid heid ed hed
    · rw [hss] at heid
      rcases List.mem_append.mp heid with hold | hnew
      · have hlt : eid < c.nextEdge := hsb q hq eid hold
        rw [getEdge_addEdge_ne (Nat.ne_of_lt hlt)] at hed
        exact hde q hq hqd eid hold ed hed
      · have heidq : eid = c.nextEdge := List.mem_singleton.mp hnew
        subst heidq
        rw [getEdge_addEdge_new hpb] at hed
        have hedv : ed = ⟨s, d, f⟩ := (Option.some_inj.mp hed).symm
        have hgq : getBlock c s = some q.2 := by
          rw [← hqs]
          exact lookup_of_mem_nodup hnd hq
        have hne := hdead q.2 hgq hqd
        rw [hedv]
        exact hne
  · intro p hp eid heid ed hed
    obtain ⟨q, hq, hpk, hpe, hps⟩ := mem_addEdge hp
    rcases hps with hss | ⟨hqs, hss⟩
    · rw [hss] at heid
      have hlt := hsb q hq eid heid
      rw [getEdge_addEdge_ne (Nat.ne_of_lt hlt)] at hed
      rw [hpk]
      exact how q hq eid heid ed hed
    · rw [hss] at heid
      rcases List.mem_append.mp heid with hold | hnew
      · have hlt := hsb q hq eid hold
        rw [getEdge_addEdge_ne (Nat.ne_of_lt hlt)] at hed
        rw [hpk]
        exact how q hq eid hold ed hed
      · have heidq := List.mem_singleton.mp hnew
        subst heidq
        rw [getEdge_addEdge_new hpb] at hed
        have hedv : ed = ⟨s, d, f⟩ := (Option.some_inj.mp hed).symm
        rw [hedv, hpk]
        exact hqs.symm
  · intro q hq
    rw [hedges] at hq
    rw [hnext]
    rcases List.mem_append.mp hq with hold | hnew
    · exact Nat.lt_succ_of_lt (hpb q hold)
    · rw [List.mem_singleton.mp hnew]
      exact Nat.lt_succ_self _
  · intro p hp eid heid
    rw [hnext]
    obtain ⟨q, hq, hpk, hpe, hps⟩ := mem_addEdge hp
    rcases hps with hss | ⟨hqs, hss⟩
    · rw [hss] at heid
      exact Nat.lt_succ_of_lt (hsb q hq eid heid)
    · rw [hss] at heid
      rcases List.mem_append.mp heid with hold | hnew
      · exact Nat.lt_succ_of_lt (hsb q hq eid hold)
      · rw [List.mem_singleton.mp hnew]
        exact Nat.lt_succ_self _

theorem jumpTableEdges_flags :
    ∀ (c : CFG) (jl : List Nat) (es : List (Nat × EdgeFlag)),
      jumpTableEdges c jl = Except.ok es →
      ∀ q ∈ es, q.2 ≠ EdgeFlag.fallthru := by
  intro c jl
  induction jl with
  | nil =>
    intro es hok q hq
    simp only [jumpTableEdges, List.foldr_nil, Except.ok.injEq] at hok
    rw [← hok] at hq
    simp at hq
  | cons l t ih =>
    intro es hok q hq
    have hok2 : (match blockFromLabel c l, jumpTableEdges c t with
      | some d2, Except.ok rest => Except.ok ((d2, EdgeFlag.branch) :: rest)
      | none, _ => Except.error BuildErr.undefinedLabel
      | _, Except.error e => Except.error e) = Except.ok es := hok
    cases hbf : blockFromLabel c l with
    | none =>
      rw [hbf] at hok2
      cases hacc : jumpTableEdges c t with
      | error e =>
        rw [hacc] at hok2
        exact Except.noConfusion hok2
      | ok rest =>
        rw [hacc] at hok2
        exact Except.noConfusion hok2
    | some d2 =>
      rw [hbf] at hok2
      cases hacc : jumpTableEdges c t with
      | error e =>
        rw [hacc] at hok2
        exact Except.noConfusion hok2
      | ok rest =>
        rw [hacc] at hok2
        simp only [Except.ok.injEq] at hok2
        rw [← hok2] at hq
        rcases List.mem_cons.mp hq with hhd | htl
        · rw [hhd]
          exact fun hx => EdgeFlag.noConfusion hx
        · exact ih rest hacc q htl

theorem classifyAux_flags {c : CFG} {insn? : Option Insn}
    {es : List (Nat × EdgeFlag)} (hok : classifyAux c insn? = Except.ok es) :
    ∀ q ∈ es, q.2 ≠ EdgeFlag.fallthru := by
  intro q hq
  cases insn? with
  | none =>
    have h2 : (Except.ok [] :
        Except BuildErr (List (Nat × EdgeFlag))) = Except.ok es := hok
    simp only [Except.ok.injEq] at h2
    rw [← h2] at hq
    simp at hq
  | some insn =>
    have h2 : (match insn.opcode with
      | Opcode.ret => Except.ok [(c.exitId, EdgeFlag.ret)]
      | Opcode.br =>
        match blockFromLabel c insn.dest with
        | some d2 => Except.ok [(d2, EdgeFlag.branch)]
        | none => Except.error BuildErr.undefinedLabel
      | Opcode.brCond =>
        match blockFromLabel c insn.dest with
        | some d2 => Except.ok [(d2, EdgeFlag.branch)]
        | none => Except.error BuildErr.undefinedLabel
      | Opcode.throwOp | Opcode.rethrowOp =>
        match c.catcherLabel.bind (blockFromLabel c) with
        | some d2 => Except.ok [(d2, EdgeFlag.exc)]
        | none => Except.ok [(c.exitId, EdgeFlag.exc)]
      | Opcode.callFinally | Opcode.callFilter =>
        match blockFromLabel c insn.dest with
        | some d2 => Except.ok [(d2, EdgeFlag.exc)]
        | none => Except.error BuildErr.undefinedLabel
      | Opcode.call =>
        match c.catcherLabel.bind (blockFromLabel c) with
        | some d2 => Except.ok [(d2, EdgeFlag.exc)]
        | none => Except.ok [(c.exitId, EdgeFlag.exc)]
      | Opcode.jumpTable => jumpTableEdges c insn.jumpLabels
      | Opcode.nop | Opcode.markOffset | Opcode.other => Except.ok []) =
      Except.ok es := hok
    cases hop : insn.opcode <;> rw [hop] at h2
    case nop | markOffset | other =>
      simp only [Except.ok.injEq] at h2
      rw [← h2] at hq
      simp at hq
    case ret =>
      simp only [Except.ok.injEq] at h2
      rw [← h2] at hq
      have : q = (c.exitId, EdgeFlag.ret) := by simpa using hq
      rw [this]
      exact fun hx => EdgeFlag.noConfusion hx
    case br | brCond =>
      cases hbf : blockFromLabel c insn.dest with
      | none =>
        rw [hbf] at h2
        exact Except.noConfusion h2
      | some d2 =>
        rw [hbf] at h2
        simp only [Except.ok.injEq] at h2
        rw [← h2] at hq
        have : q = (d2, EdgeFlag.branch) := by simpa using hq
        rw [this]
        exact fun hx => EdgeFlag.noConfusion hx
    case callFinally | callFilter =>
      cases hbf : blockFromLabel c insn.dest with
      | none =>
        rw [hbf] at h2
        exact Except.noConfusion h2
      | some d2 =>
        rw [hbf] at h2
        simp only [Except.ok.injEq] at h2
        rw [← h2] at hq
        have : q = (d2, EdgeFlag.exc) := by simpa using hq
        rw [this]
        exact fun hx => EdgeFlag.noConfusion hx
    case throwOp | rethrowOp | call =>
      cases hct : c.catcherLabel.bind (blockFromLabel c) with
      | none =>
        rw [hct] at h2
        simp only [Except.ok.injEq] at h2
        rw [← h2] at hq
        have : q = (c.exitId, EdgeFlag.exc) := by simpa using hq
        rw [this]
        exact fun hx => EdgeFlag.noConfusion hx
      | some d2 =>
        rw [hct] at h2
        simp only [Except.ok.injEq] at h2
        rw [← h2] at hq
        have : q = (d2, EdgeFlag.exc) := by simpa using hq
        rw [this]
        exact fun hx => EdgeFlag.noConfusion hx
    case jumpTable =>
      exact jumpTableEdges_flags c insn.jumpLabels es h2 q hq

theorem classifyTerm_flags {c : CFG} {i : Nat} {es : List (Nat × EdgeFlag)}
    (hok : classifyTerm c i = Except.ok es) :
    ∀ q ∈ es, q.2 ≠ EdgeFlag.fallthru := by
  rw [classifyTerm] at hok
  cases hgb : getBlock c i with
  | none =>
    rw [hgb] at hok
    exact Except.noConfusion hok
  | some blk =>
    rw [hgb] at hok
    exact classifyAux_flags hok

theorem blockEdgeList_flags {c : CFG} {i : Nat} {es : List (Nat × EdgeFlag)}
    (hok : blockEdgeList c i = Except.ok es) :
    ∃ blk, getBlock c i = some blk ∧
      (blk.endsInDead = true → ∀ q ∈ es, q.2 ≠ EdgeFlag.fallthru) ∧
      (blk.endsInDead = false → ∃ es0 n, listNext c i = some n ∧
        es = es0 ++ [(n, EdgeFlag.fallthru)] ∧
        ∀ q ∈ es0, q.2 ≠ EdgeFlag.fallthru) := by
  rw [blockEdgeList] at hok
  cases hct : classifyTerm c i with
  | error e =>
    rw [hct] at hok
    cases hgb : getBlock c i <;> rw [hgb] at hok <;>
      exact Except.noConfusion hok
  | ok es1 =>
    rw [hct] at hok
    cases hgb : getBlock c i with
    | none =>
      rw [hgb] at hok
      exact Except.noConfusion hok
    | some blk =>
      rw [hgb] at hok
      simp only at hok
      refine ⟨blk, rfl, ?_, ?_⟩
      · intro hdead q hq
        rw [if_pos hdead] at hok
        simp only [Except.ok.injEq] at hok
        rw [← hok] at hq
        exact classifyTerm_flags hct q hq
      · intro hdead
        rw [if_neg (by simp [hdead])] at hok
        cases hln : listNext c i with
        | none =>
          rw [hln] at hok
          exact Except.noConfusion hok
        | some n =>
          rw [hln] at hok
          simp only [Except.ok.injEq] at hok
          exact ⟨es1, n, rfl, hok.symm, classifyTerm_flags hct⟩


theorem listNext_congr {c2 c : CFG} (h : c2.live = c.live) (j : Nat) :
    listNext c2 j = listNext c j := by
  rw [listNext, listNext, h]

theorem buildQ_foldAdd :
    ∀ (es : List (Nat × EdgeFlag)) (c : CFG) (i : Nat),
      keysNodup c → deadEndP c → ownedP c →
      (∀ q ∈ c.edges, q.1 < c.nextEdge) →
      (∀ p ∈ c.blocks, ∀ eid ∈ p.2.succs, eid < c.nextEdge) →
      (∀ b, getBlock c i = some b → b.endsInDead = true →
        ∀ q ∈ es, q.2 ≠ EdgeFlag.fallthru) →
      keysNodup (es.foldl (fun c p => addEdge c i p.1 p.2) c) ∧
      deadEndP (es.foldl (fun c p => addEdge c i p.1 p.2) c) ∧
      ownedP (es.foldl (fun c p => addEdge c i p.1 p.2) c) ∧
      (∀ q ∈ (es.foldl (fun c p => addEdge c i p.1 p.2) c).edges,
        q.1 < (es.foldl (fun c p => addEdge c i p.1 p.2) c).nextEdge) ∧
      (∀ p ∈ (es.foldl (fun c p => addEdge c i p.1 p.2) c).blocks,
        ∀ eid ∈ p.2.succs,
        eid < (es.foldl (fun c p => addEdge c i p.1 p.2) c).nextEdge) ∧
      (∀ j, (getBlock (es.foldl (fun c p => addEdge c i p.1 p.2) c) j).map
        Block.endsInDead = (getBlock c j).map Block.endsInDead) ∧
      (es.foldl (fun c p => addEdge c i p.1 p.2) c).live = c.live ∧
      (es.foldl (fun c p => addEdge c i p.1 p.2) c).exitId = c.exitId ∧
      (∀ j, fallthruFact c j →
        fallthruFact (es.foldl (fun c p => addEdge c i p.1 p.2) c) j) := by
  intro es
  induction es with
  | nil =>
    intro c i hnd hde how hpb hsb hflags
    exact ⟨hnd, hde, how, hpb, hsb, fun j => rfl, rfl, rfl, fun j hf => hf⟩
  | cons q0 t ih =>
    intro c i hnd hde how hpb hsb hflags
    obtain ⟨d0, f0⟩ := q0
    have hstep := buildQ_addEdge (c := c) (s := i) (d := d0) (f := f0)
      hnd hde how hpb hsb
      (fun b hgb hbd => hflags b hgb hbd (d0, f0) (List.mem_cons_self _ _))
    have hflags2 : ∀ b, getBlock (addEdge c i d0 f0) i = some b →
        b.endsInDead = true → ∀ q ∈ t, q.2 ≠ EdgeFlag.fallthru := by
      intro b hgb hbd q hq
      have hmap := getBlock_endsInDead_addEdge c i d0 f0 i
      rw [hgb] at hmap
      cases hg0 : getBlock c i with
      | none =>
        rw [hg0] at hmap
        simp at hmap
      | some b0 =>
        rw [hg0] at hmap
        simp only [Option.map_some', Option.some_inj] at hmap
        have hb0d : b0.endsInDead = true := by
          rw [← hmap, hbd]
        exact hflags b0 hg0 hb0d q (List.mem_cons_of_mem _ hq)
    have hrest := ih (addEdge c i d0 f0) i hstep.1 hstep.2.1 hstep.2.2.1
      hstep.2.2.2.1 hstep.2.2.2.2 hflags2
    refine ⟨hrest.1, hrest.2.1, hrest.2.2.1, hrest.2.2.2.1,
      hrest.2.2.2.2.1, ?_, ?_, ?_, ?_⟩
    · intro j
      exact (hrest.2.2.2.2.2.1 j).trans (getBlock_endsInDead_addEdge c i d0 f0 j)
    · exact hrest.2.2.2.2.2.2.1
    · exact hrest.2.2.2.2.2.2.2.1
    · intro j hf
      exact hrest.2.2.2.2.2.2.2.2 j (fallthruFact_addEdge hf)

theorem keys_clearMap (l : List (Nat × Block)) :
    (l.map (fun p => (p.1, { p.2 with succs := [], preds := [] }))).map
      Prod.fst = l.map Prod.fst := by
  induction l with
  | nil => rfl
  | cons hd t ih =>
    simp only [List.map_cons]
    rw [ih]

theorem keysNodup_clearEdges {c : CFG}
    (h : (c.blocks.map Prod.fst).Nodup) : keysNodup (clearEdges c) := by
  have he : (clearEdges c).blocks =
    c.blocks.map (fun p => (p.1, { p.2 with succs := [], preds := [] })) := rfl
  rw [keysNodup, he, keys_clearMap]
  exact h

theorem deadEndP_clearEdges (c : CFG) : deadEndP (clearEdges c) := by
  intro p hp hpd eid heid ed hed
  have hp2 : p ∈ c.blocks.map
      (fun p => (p.1, { p.2 with succs := [], preds := [] })) := hp
  obtain ⟨q, hq, hpq⟩ := List.mem_map.mp hp2
  rw [← hpq] at heid
  simp at heid

theorem ownedP_clearEdges (c : CFG) : ownedP (clearEdges c) := by
  intro p hp eid heid ed hed
  have hp2 : p ∈ c.blocks.map
      (fun p => (p.1, { p.2 with succs := [], preds := [] })) := hp
  obtain ⟨q, hq, hpq⟩ := List.mem_map.mp hp2
  rw [← hpq] at heid
  simp at heid

theorem succsBound_clearEdges (c : CFG) :
    ∀ p ∈ (clearEdges c).blocks, ∀ eid ∈ p.2.succs,
      eid < (clearEdges c).nextEdge := by
  intro p hp eid heid
  have hp2 : p ∈ c.blocks.map
      (fun p => (p.1, { p.2 with succs := [], preds := [] })) := hp
  obtain ⟨q, hq, hpq⟩ := List.mem_map.mp hp2
  rw [← hpq] at heid
  simp at heid

theorem poolBound_clearEdges (c : CFG) :
    ∀ q ∈ (clearEdges c).edges, q.1 < (clearEdges c).nextEdge := by
  intro q hq
  have hq2 : q ∈ ([] : List (Nat × Edge)) := hq
  simp at hq2


theorem buildFold_main :
    ∀ (l : List Nat) (c c1 : CFG),
      l.foldlM (fun c i =>
        match blockEdgeList c i with
        | Except.error e => Except.error e
        | Except.ok es =>
          Except.ok (es.foldl (fun c p => addEdge c i p.1 p.2) c)) c =
        Except.ok c1 →
      keysNodup c → deadEndP c → ownedP c →
      (∀ q ∈ c.edges, q.1 < c.nextEdge) →
      (∀ p ∈ c.blocks, ∀ eid ∈ p.2.succs, eid < c.nextEdge) →
      (keysNodup c1 ∧ deadEndP c1 ∧ ownedP c1) ∧
      (∀ j, (getBlock c1 j).map Block.endsInDead =
        (getBlock c j).map Block.endsInDead) ∧
      c1.live = c.live ∧ c1.exitId = c.exitId ∧
      (∀ j, fallthruFact c j → fallthruFact c1 j) ∧
      (∀ i ∈ l, ∀ b, getBlock c i = some b → b.endsInDead = false →
        fallthruFact c1 i) := by
  intro l
  induction l with
  | nil =>
    intro c c1 hfold hnd hde how hpb hsb
    have h2 : (Except.ok c : Except BuildErr CFG) = Except.ok c1 := hfold
    have h1 : c = c1 := by injection h2
    subst h1
    exact ⟨⟨hnd, hde, how⟩, fun j => rfl, rfl, rfl, fun j hf => hf,
      fun i hi => absurd hi (List.not_mem_nil i)⟩
  | cons x t ih =>
    intro c c1 hfold hnd hde how hpb hsb
    rw [List.foldlM_cons] at hfold
    have hfold2 : (match blockEdgeList c x with
      | Except.error e => Except.error e
      | Except.ok es =>
        Except.ok (es.foldl (fun c p => addEdge c x p.1 p.2) c)) >>=
      (fun b => t.foldlM (fun c i =>
        match blockEdgeList c i with
        | Except.error e => Except.error e
        | Except.ok es =>
          Except.ok (es.foldl (fun c p => addEdge c i p.1 p.2) c)) b) =
      Except.ok c1 := hfold
    cases hbe : blockEdgeList c x with
    | error e =>
      rw [hbe] at hfold2
      exact Except.noConfusion hfold2
    | ok es =>
      rw [hbe] at hfold2
      have hrec : t.foldlM (fun c i =>
          match blockEdgeList c i with
          | Except.error e => Except.error e
          | Except.ok es =>
            Except.ok (es.foldl (fun c p => addEdge c i p.1 p.2) c))
          (es.foldl (fun c p => addEdge c x p.1 p.2) c) =
          Except.ok c1 := hfold2
      obtain ⟨blk, hgb, hdflags, hlive2⟩ := blockEdgeList_flags hbe
      have hflagcond : ∀ b, getBlock c x = some b → b.endsInDead = true →
          ∀ q ∈ es, q.2 ≠ EdgeFlag.fallthru := by
        intro b hgb2 hbd
        rw [hgb] at hgb2
        have hbb : blk = b := Option.some_inj.mp hgb2
        rw [← hbb] at hbd
        exact hdflags hbd
      have hQmid := buildQ_foldAdd es c x hnd hde how hpb hsb hflagcond
      have hihres := ih (es.foldl (fun c p => addEdge c x p.1 p.2) c) c1 hrec
        hQmid.1 hQmid.2.1 hQmid.2.2.1 hQmid.2.2.2.1 hQmid.2.2.2.2.1
      refine ⟨hihres.1, ?_, ?_, ?_, ?_, ?_⟩
      · intro j
        exact (hihres.2.1 j).trans (hQmid.2.2.2.2.2.1 j)
      · exact hihres.2.2.1.trans hQmid.2.2.2.2.2.2.1
      · exact hihres.2.2.2.1.trans hQmid.2.2.2.2.2.2.2.1
      · intro j hf
        exact hihres.2.2.2.2.1 j (hQmid.2.2.2.2.2.2.2.2 j hf)
      · intro i hi b hgbi hbdead
        rcases List.mem_cons.mp hi with hix | hit
        · subst hix
          rw [hgb] at hgbi
          have hbb : blk = b := Option.some_inj.mp hgbi
          rw [← hbb] at hbdead
          obtain ⟨es0, n, hln, hsplit, hes0fl⟩ := hlive2 hbdead
          have hflag0 : ∀ b2, getBlock c i = some b2 → b2.endsInDead = true →
              ∀ q ∈ es0, q.2 ≠ EdgeFlag.fallthru := by
            intro b2 hgb2 hbd2
            rw [hgb] at hgb2
            have hbb2 : blk = b2 := Option.some_inj.mp hgb2
            rw [← hbb2] at hbd2
            rw [hbd2] at hbdead
            exact absurd hbdead (by simp)
          have hQ0 := buildQ_foldAdd es0 c i hnd hde how hpb hsb hflag0
          have hfoldeq : es.foldl (fun c p => addEdge c i p.1 p.2) c =
              addEdge (es0.foldl (fun c p => addEdge c i p.1 p.2) c) i n
                EdgeFlag.fallthru := by
            rw [hsplit, List.foldl_append]
            rfl
          have hsome : (getBlock
              (es0.foldl (fun c p => addEdge c i p.1 p.2) c) i).isSome =
              true := by
            have hm := hQ0.2.2.2.2.2.1 i
            rw [hgb] at hm
            cases hq : getBlock (es0.foldl (fun c p => addEdge c i p.1 p.2) c)
                i with
            | none =>
              rw [hq] at hm
              simp at hm
            | some b2 => rfl
          have hln0 : listNext (es0.foldl (fun c p => addEdge c i p.1 p.2) c)
              i = some n := by
            rw [listNext_congr hQ0.2.2.2.2.2.2.1 i]
            exact hln
          have hfact : fallthruFact
              (es.foldl (fun c p => addEdge c i p.1 p.2) c) i := by
            rw [hfoldeq]
            exact fallthruFact_addEdge_self hQ0.2.2.2.1 hsome hln0
          exact hihres.2.2.2.2.1 i hfact
        · have hm := hQmid.2.2.2.2.2.1 i
          rw [hgbi] at hm
          cases hq : getBlock (es.foldl (fun c p => addEdge c x p.1 p.2) c)
              i with
          | none =>
            rw [hq] at hm
            simp at hm
          | some b2 =>
            rw [hq] at hm
            simp only [Option.map_some', Option.some_inj] at hm
            have hb2d : b2.endsInDead = false := by
              rw [hm, hbdead]
            exact hihres.2.2.2.2.2 i hit b2 hq hb2d


/-- C7.  After build_cfg succeeds, a walked (non-exit) block carries a
live fall-through edge to its list successor exactly when its
ends_in_dead flag is clear; and dead-end consistency (a block with
ends_in_dead set has no live FALLTHRU edge in succs) holds after the
build and is preserved by every public operation that can run on the
built graph: clean_cfg, compute_postorder and record_label.  The
hypothesis asks only that the input block list hold each block id
once, which the builder's doubly linked block list guarantees. -/
theorem c7_fallthru_dead_end (c c1 : CFG)
    (hnd : (c.blocks.map Prod.fst).Nodup)
    (hb : buildCFG c = Except.ok c1) :
    (∀ i ∈ c1.live.takeWhile (fun j => j ≠ c1.exitId), ∀ b,
        getBlock c1 i = some b →
        (b.endsInDead = false ↔ ∃ eid ∈ b.succs, ∃ ed,
          getEdge c1 eid = some ed ∧ ed.flags = EdgeFlag.fallthru ∧
          some ed.dst = listNext c1 i)) ∧
    deadEndOK c1 = true ∧
    (∀ fuel c2, cleanCFG fuel c1 = some c2 → deadEndOK c2 = true) ∧
    (∀ c3, computePostorder c1 = some c3 → deadEndOK c3 = true) ∧
    (∀ bl L, deadEndOK (recordLabel c1 bl L) = true) := by
  have hfold : (c.live.takeWhile (fun i => i ≠ c.exitId)).foldlM (fun c i =>
      match blockEdgeList c i with
      | Except.error e => Except.error e
      | Except.ok es =>
        Except.ok (es.foldl (fun c p => addEdge c i p.1 p.2) c))
      (clearEdges c) = Except.ok c1 := hb
  have hmain := buildFold_main (c.live.takeWhile (fun i => i ≠ c.exitId))
    (clearEdges c) c1 hfold (keysNodup_clearEdges hnd)
    (deadEndP_clearEdges c) (ownedP_clearEdges c) (poolBound_clearEdges c)
    (succsBound_clearEdges c)
  obtain ⟨hQ1, hends, hlivep, hexitp, hfpres, hfacts⟩ := hmain
  have hinv : cfgInv c1 := ⟨hQ1.1, hQ1.2.1, hQ1.2.2⟩
  refine ⟨?_, (deadEndOK_iff c1).mpr hQ1.2.1, ?_, ?_, ?_⟩
  · intro i hi b hgb1
    have hlc : c1.live = c.live := hlivep
    have hec : c1.exitId = c.exitId := hexitp
    rw [hlc, hec] at hi
    constructor
    · intro hbd
      have hm := hends i
      rw [hgb1] at hm
      cases hg0 : getBlock (clearEdges c) i with
      | none =>
        rw [hg0] at hm
        simp at hm
      | some b0 =>
        rw [hg0] at hm
        simp only [Option.map_some', Option.some_inj] at hm
        have hb0d : b0.endsInDead = false := by
          rw [← hm, hbd]
        have hf := hfacts i hi b0 hg0 hb0d
        obtain ⟨b2, hgb2, eid, heid, ed, hged, hfl, hdst⟩ := hf
        have hbb : b = b2 := by
          rw [hgb1] at hgb2
          exact Option.some_inj.mp hgb2
        refine ⟨eid, ?_, ed, hged, hfl, hdst⟩
        rw [hbb]
        exact heid
    · rintro ⟨eid, heid, ed, hged, hfl, hdst⟩
      by_contra hbd
      simp only [Bool.not_eq_false] at hbd
      exact hQ1.2.1 (i, b) (lookup_mem hgb1) hbd eid heid ed hged hfl
  · intro fuel c2 hcl
    exact (deadEndOK_iff c2).mpr (cfgInv_cleanCFG hcl hinv).2.1
  · intro c3 hcp
    exact (deadEndOK_iff c3).mpr (cfgInv_computePostorder hcp hinv).2.1
  · intro bl L
    exact (deadEndOK_iff _).mpr (cfgInv_recordLabel hinv).2.1

theorem c7_witness :
    (∀ i ∈ exC7b.live.takeWhile (fun j => j ≠ exC7b.exitId), ∀ b,
        getBlock exC7b i = some b →
        (b.endsInDead = false ↔ ∃ eid ∈ b.succs, ∃ ed,
          getEdge exC7b eid = some ed ∧ ed.flags = EdgeFlag.fallthru ∧
          some ed.dst = listNext exC7b i)) ∧
    deadEndOK exC7b = true ∧
    (∀ fuel c2, cleanCFG fuel exC7b = some c2 → deadEndOK c2 = true) ∧
    (∀ c3, computePostorder exC7b = some c3 → deadEndOK c3 = true) ∧
    (∀ bl L, deadEndOK (recordLabel exC7b bl L) = true) :=
  c7_fallthru_dead_end exC7 exC7b (by decide) (by decide)


/-! C8 machinery: the effect of record_label and merge_labels on the
label registry. -/

theorem growLoop_gt (num L : Nat) (h0 : 0 < num) : L < growLoop num L := by
  by_cases h : 0 < num ∧ num ≤ L
  · rw [growLoop, dif_pos h]
    exact growLoop_gt (2 * num) L (by omega)
  · rw [growLoop, dif_neg h]
    omega
termination_by L + 1 - num
decreasing_by omega

theorem recordLabel_parts {c : CFG} {bl L : Nat} {blk : Block}
    (hgb : getBlock c bl = some blk) :
    ∃ li : List LabelEntry, L < li.length ∧
      recordLabel c bl L = modifyBlock
        { c with
          labelInfo := li.set L { block := some bl, aliasL := blk.label } }
        bl (fun b => { b with label := some L }) := by
  simp only [recordLabel]
  by_cases hc : L ≥ c.labelInfo.length
  · rw [if_pos hc]
    generalize hli : c.labelInfo ++ List.replicate (growLoop
      (if c.labelInfo.length < 64 then 64 else c.labelInfo.length) L -
      c.labelInfo.length) ({} : LabelEntry) = li2
    have hgb1 : getBlock { c with labelInfo := li2 } bl = some blk := hgb
    rw [hgb1]
    refine ⟨li2, ?_, rfl⟩
    rw [← hli, List.length_append, List.length_replicate]
    have h1 : 0 < (if c.labelInfo.length < 64 then 64
        else c.labelInfo.length) := by
      split <;> omega
    have h2 := growLoop_gt _ L h1
    have h3 := growLoop_ge (if c.labelInfo.length < 64 then 64
      else c.labelInfo.length) L
    have h4 : c.labelInfo.length ≤ (if c.labelInfo.length < 64 then 64
        else c.labelInfo.length) := by
      split <;> omega
    omega
  · rw [if_neg hc]
    refine ⟨c.labelInfo, by omega, ?_⟩
    rw [hgb]

theorem recordLabel_head {c : CFG} {bl L : Nat} {blk : Block}
    (hgb : getBlock c bl = some blk) :
    (recordLabel c bl L).labelInfo.get? L =
      some { block := some bl, aliasL := blk.label } ∧
    getBlock (recordLabel c bl L) bl = some { blk with label := some L } := by
  obtain ⟨li, hlt, heq⟩ := recordLabel_parts hgb
  rw [heq]
  constructor
  · rw [labelInfo_modifyBlock]
    show (li.set L _).get? L = _
    rw [List.get?_eq_getElem?, List.getElem?_set_self hlt]
  · rw [getBlock_modifyBlock, if_pos rfl, getBlock_setLabelInfo, hgb]
    rfl

theorem mergeLabels_registry :
    ∀ (fuel : Nat) (c : CFG) (bl : Nat) (lab : Option Nat) (L : Nat)
      (e : LabelEntry),
      (mergeLabels fuel c bl lab).labelInfo.get? L = some e →
      e.block = some bl ∨ c.labelInfo.get? L = some e := by
  intro fuel
  induction fuel with
  | zero =>
    intro c bl lab L e h
    exact Or.inr h
  | succ fuel ih =>
    intro c bl lab L e h
    cases lab with
    | none => exact Or.inr h
    | some L0 =>
      simp only [mergeLabels] at h
      cases hb : getBlock c bl with
      | none =>
        rw [hb] at h
        cases hg : c.labelInfo.get? L0 with
        | none =>
          rw [hg] at h
          exact Or.inr h
        | some e0 =>
          rw [hg] at h
          exact Or.inr h
      | some blk =>
        rw [hb] at h
        cases hg : c.labelInfo.get? L0 with
        | none =>
          rw [hg] at h
          exact Or.inr h
        | some e0 =>
          rw [hg] at h
          simp only at h
          rcases ih _ _ _ L e h with hbl | hult
          · exact Or.inl hbl
          · rw [labelInfo_modifyBlock] at hult
            have hult2 : (c.labelInfo.set L0
                { block := some bl, aliasL := blk.label }).get? L =
                some e := hult
            by_cases hLL : L = L0
            · subst hLL
              obtain ⟨hlen, -⟩ := List.get?_eq_some.mp hg
              rw [List.get?_eq_getElem?,
                List.getElem?_set_self hlen] at hult2
              have he : e = { block := some bl, aliasL := blk.label } :=
                (Option.some_inj.mp hult2).symm
              rw [he]
              exact Or.inl rfl
            · rw [List.get?_eq_getElem?,
                List.getElem?_set_ne (Ne.symm hLL),
                ← List.get?_eq_getElem?] at hult2
              exact Or.inr hult2

theorem mergeLabels_otherBlocks :
    ∀ (fuel : Nat) (c : CFG) (bl : Nat) (lab : Option Nat) (j : Nat),
      j ≠ bl → getBlock (mergeLabels fuel c bl lab) j = getBlock c j := by
  intro fuel
  induction fuel with
  | zero =>
    intro c bl lab j hj
    rfl
  | succ fuel ih =>
    intro c bl lab j hj
    cases lab with
    | none => rfl
    | some L0 =>
      simp only [mergeLabels]
      cases hb : getBlock c bl with
      | none =>
        cases hg : c.labelInfo.get? L0 with
        | none => rfl
        | some e0 => rfl
      | some blk =>
        cases hg : c.labelInfo.get? L0 with
        | none => rfl
        | some e0 =>
          simp only
          rw [ih _ _ _ _ hj, getBlock_modifyBlock, if_neg hj,
            getBlock_setLabelInfo]

/-- C8 counterexample: on exC8 the label-soundness invariant holds, but
after merge_labels re-points the chain of label 0 to block 1, the
surviving source block 0 still carries label 0, whose registry entry
now names block 1 — the invariant is not preserved by merge_labels. -/
theorem c8_merge_labels_breaks_invariant :
    labelInv exC8 ∧ ¬ labelInv (mergeLabels 2 exC8 1 (some 0)) := by
  unfold labelInv
  decide

/-- C8 (amended).  What the label operations actually guarantee: every
registry entry after merge_labels is either re-pointed to the
destination block or left untouched, and merge_labels changes no block
other than the destination (in particular the source block keeps its
stale label field); record_label makes the recorded label immediately
sound — its registry entry names the block and its alias links to the
block's previous chain head, which becomes the block's new label. -/
theorem c8_label_ops_effect (c : CFG) :
    (∀ (fuel : Nat) (bl : Nat) (lab : Option Nat) (L : Nat)
      (e : LabelEntry),
      (mergeLabels fuel c bl lab).labelInfo.get? L = some e →
      e.block = some bl ∨ c.labelInfo.get? L = some e) ∧
    (∀ (fuel : Nat) (bl : Nat) (lab : Option Nat) (j : Nat), j ≠ bl →
      getBlock (mergeLabels fuel c bl lab) j = getBlock c j) ∧
    (∀ (bl L : Nat) (blk : Block), getBlock c bl = some blk →
      (recordLabel c bl L).labelInfo.get? L =
        some { block := some bl, aliasL := blk.label } ∧
      getBlock (recordLabel c bl L) bl =
        some { blk with label := some L }) :=
  ⟨fun fuel bl lab L e h => mergeLabels_registry fuel c bl lab L e h,
   fun fuel bl lab j hj => mergeLabels_otherBlocks fuel c bl lab j hj,
   fun bl L blk hgb => recordLabel_head hgb⟩

theorem c8_label_ops_witness :
    getBlock (mergeLabels 2 exC8 1 (some 0)) 0 = getBlock exC8 0 ∧
    (recordLabel exC8 0 5).labelInfo.get? 5 =
      some { block := some 0, aliasL := some 0 } ∧
    getBlock (recordLabel exC8 0 5) 0 = some { label := some 5 } :=
  ⟨(c8_label_ops_effect exC8).2.1 2 1 (some 0) 0 (by decide),
   ((c8_label_ops_effect exC8).2.2 0 5 { label := some 0 } rfl).1,
   ((c8_label_ops_effect exC8).2.2 0 5 { label := some 0 } rfl).2⟩

end LibjitBlock
